import Mathlib

/-!
# Verification of the TeleBox plugin-manager (`manage_plugins.py`)

Shallow embedding of the string-transformation core of `manage_plugins.py`.
The Python code manipulates one HTML document through `re.sub` / `re.search` /
`re.findall` with a fixed handful of concrete patterns, plus `str.replace`,
`str.split`, `str.strip`.  We embed strings as `List Char` and implement each
regex operation as a deterministic left-to-right scanner that is provably
equivalent to the Python semantics for the concrete patterns used (all of
which are "literal pieces + `\s*` runs + maximal `[^"]+` / `\d+` / lazy
`[\s\S]*?` runs", for which the backtracking regex engine is deterministic).

Whitespace (`\s`, `str.strip`) and digits (`\d`) are modelled on their ASCII
fragment; the repository only ever produces ASCII whitespace.
-/

namespace ManagePlugins

/-- ASCII whitespace, as matched by Python's `\s` and stripped by `str.strip`. -/
def isWs (c : Char) : Bool :=
  c == ' ' || c == '\t' || c == '\n' || c == '\r' || c == '\x0b' || c == '\x0c'

/-- ASCII digit, as matched by Python's `\d`. -/
def isDigitC (c : Char) : Bool :=
  48 ≤ c.toNat && c.toNat ≤ 57

/-- The character list underlying a string literal. -/
def slit (s : String) : List Char := s.data

/-- Drop trailing whitespace. -/
def rdropWs (l : List Char) : List Char :=
  (l.reverse.dropWhile isWs).reverse

/-- Python `str.strip()` (ASCII-whitespace fragment). -/
def stripL (l : List Char) : List Char :=
  rdropWs (l.dropWhile isWs)

/-- Python `str.strip()` on `String`. -/
def stripS (s : String) : String := ⟨stripL s.data⟩

/-!
## Generic left-to-right scanners

`scanAux` is the engine behind every `re.sub` in the source: at each position
it attempts a match (`tm`); on success it emits the replacement and resumes
after the matched span (this is exactly `re.sub`'s non-overlapping
leftmost-first behaviour), otherwise it copies one character.  `collectAux`
is `re.findall`, `genSearch` is `re.search`.  Recursion is fueled so that all
functions compute by kernel reduction; `Shrinks` states that a matcher
always consumes at least one character, which makes the fuel `l.length`
sufficient.
-/

/-- Fueled substitution scanner. -/
def scanAux {α : Type} (tm : List Char → Option (α × List Char)) (emit : α → List Char) :
    Nat → List Char → List Char
  | 0, l => l
  | _ + 1, [] => []
  | f + 1, c :: cs =>
    match tm (c :: cs) with
    | some (a, r) => emit a ++ scanAux tm emit f r
    | none => c :: scanAux tm emit f cs

/-- `re.sub`: replace every (non-overlapping, leftmost) match. -/
def genScan {α : Type} (tm : List Char → Option (α × List Char)) (emit : α → List Char)
    (l : List Char) : List Char :=
  scanAux tm emit l.length l

/-- Fueled collection scanner. -/
def collectAux {α : Type} (tm : List Char → Option (α × List Char)) :
    Nat → List Char → List α
  | 0, _ => []
  | _ + 1, [] => []
  | f + 1, c :: cs =>
    match tm (c :: cs) with
    | some (a, r) => a :: collectAux tm f r
    | none => collectAux tm f cs

/-- `re.findall`: collect every (non-overlapping, leftmost) match datum. -/
def genCollect {α : Type} (tm : List Char → Option (α × List Char)) (l : List Char) : List α :=
  collectAux tm l.length l

/-- `re.search`: datum of the leftmost match, if any. -/
def genSearch {α : Type} (tm : List Char → Option (α × List Char)) : List Char → Option α
  | [] => none
  | c :: cs =>
    match tm (c :: cs) with
    | some (a, _) => some a
    | none => genSearch tm cs

/-- A matcher that always consumes at least one character. -/
def Shrinks {α : Type} (tm : List Char → Option (α × List Char)) : Prop :=
  ∀ s a r, tm s = some (a, r) → r.length < s.length

/-- Matcher for a literal (regex-escaped) pattern. -/
def tryLit (pat : List Char) (s : List Char) : Option (Unit × List Char) :=
  if pat.isPrefixOf s then some ((), s.drop pat.length) else none

/-- Python `str.replace(pat, rep)` and `re.sub` with a literal pattern. -/
def replaceAllL (pat rep : List Char) (l : List Char) : List Char :=
  genScan (tryLit pat) (fun _ => rep) l

/-- Substring test: Python `pat in s`. -/
def containsSubL (pat : List Char) (l : List Char) : Bool :=
  (genSearch (tryLit pat) l).isSome

/-- Split at the first occurrence of `sep` (Python `s.split(sep, 1)` when it hits). -/
def splitFirst (sep : List Char) : List Char → Option (List Char × List Char)
  | [] => none
  | c :: cs =>
    if sep.isPrefixOf (c :: cs) then some ([], (c :: cs).drop sep.length)
    else
      match splitFirst sep cs with
      | some (x, y) => some (c :: x, y)
      | none => none

/-- Prepend to the first chunk of a split result. -/
def consHead (c : Char) : List (List Char) → List (List Char)
  | [] => [[c]]
  | h :: t => (c :: h) :: t

/-- Fueled full split (Python `s.split(sep)` with non-empty `sep`). -/
def splitAux (sep : List Char) : Nat → List Char → List (List Char)
  | 0, l => [l]
  | _ + 1, [] => [[]]
  | f + 1, c :: cs =>
    if sep.isPrefixOf (c :: cs) then [] :: splitAux sep f ((c :: cs).drop sep.length)
    else consHead c (splitAux sep f cs)

/-- Python `s.split(sep)` for non-empty `sep`. -/
def splitAllL (sep : List Char) (l : List Char) : List (List Char) :=
  splitAux sep l.length l

/-!
## The text codec (`text_to_html` / `parse_plugin_content`)
-/

/-- The escaping chain in `text_to_html`:
`.replace('&','&amp;').replace('<','&lt;').replace('>','&gt;')`. -/
def escapeHtml (l : List Char) : List Char :=
  replaceAllL (slit ">") (slit "&gt;")
    (replaceAllL (slit "<") (slit "&lt;")
      (replaceAllL (slit "&") (slit "&amp;") l))

/-- The unescaping chain in `parse_plugin_content`:
`.replace('&lt;','<').replace('&gt;','>').replace('&amp;','&')`. -/
def unescapeHtml (l : List Char) : List Char :=
  replaceAllL (slit "&amp;") (slit "&")
    (replaceAllL (slit "&gt;") (slit ">")
      (replaceAllL (slit "&lt;") (slit "<") l))

/-- `cmd.split(' ', 1)[0]`. -/
def cmdName (l : List Char) : List Char := l.takeWhile (· ≠ ' ')

/-- `cmd.split(' ', 1)[1] if len(parts) > 1 else ''`. -/
def cmdDesc (l : List Char) : List Char :=
  match l.dropWhile (· ≠ ' ') with
  | [] => []
  | _ :: t => t

/-- One `<code>NAME</code> EXPLANATION` part of `text_to_html`
(the explanation is HTML-escaped, the name is not). -/
def renderCmd (cmd : List Char) : List Char :=
  slit "<code>" ++ cmdName cmd ++ slit "</code> " ++ escapeHtml (cmdDesc cmd)

/-- The `cmd_parts` accumulated by the loop in `text_to_html`:
strip each line, skip the ones that are empty after stripping. -/
def cmdParts (cmds : List (List Char)) : List (List Char) :=
  ((cmds.map stripL).filter (· ≠ [])).map renderCmd

/-- `text_to_html(description, commands)` from `manage_plugins.py`. -/
def text_to_html (description : String) (commands : List String) : String :=
  let desc := escapeHtml description.data
  if commands = [] then ⟨desc⟩
  else
    let parts := cmdParts (commands.map String.data)
    if parts = [] then ⟨desc⟩
    else ⟨desc ++ slit "<br><br>命令：" ++ List.intercalate (slit "<br>") parts⟩

/-- `parse_plugin_content(html_content)` from `manage_plugins.py`. -/
def parse_plugin_content (html_content : String) : String × List String :=
  if containsSubL (slit "<br><br>命令：") html_content.data then
    match splitFirst (slit "<br><br>命令：") html_content.data with
    | some (d, r) =>
      (⟨unescapeHtml d⟩,
        (splitAllL (slit "<br>")
          (replaceAllL (slit "</code>") [] (replaceAllL (slit "<code>") [] r))).map
          fun c => (⟨unescapeHtml c⟩ : String))
    | none => (⟨unescapeHtml html_content.data⟩, [])
  else (⟨unescapeHtml html_content.data⟩, [])

/-!
## Document scanning (`re.findall(r'<h3 id="([^"]+)">')`, count marker)
-/

/-- Matcher for `<h3 id="([^"]+)">` (greedy `[^"]+` is the maximal
quote-free run; the whole pattern is deterministic). -/
def mH3 (s : List Char) : Option (List Char × List Char) :=
  if (slit "<h3 id=\"").isPrefixOf s then
    if (s.drop 8).takeWhile (· ≠ '"') ≠ [] ∧
        (slit "\">").isPrefixOf ((s.drop 8).dropWhile (· ≠ '"')) then
      some ((s.drop 8).takeWhile (· ≠ '"'), ((s.drop 8).dropWhile (· ≠ '"')).drop 2)
    else none
  else none

/-- Matcher for `<a href="#([^"]+)">`. -/
def mLink (s : List Char) : Option (List Char × List Char) :=
  if (slit "<a href=\"#").isPrefixOf s then
    if (s.drop 10).takeWhile (· ≠ '"') ≠ [] ∧
        (slit "\">").isPrefixOf ((s.drop 10).dropWhile (· ≠ '"')) then
      some ((s.drop 10).takeWhile (· ≠ '"'), ((s.drop 10).dropWhile (· ≠ '"')).drop 2)
    else none
  else none

/-- `re.findall(r'<h3 id="([^"]+)">', html)`. -/
def findH3Ids (l : List Char) : List (List Char) := genCollect mH3 l

/-- `re.findall(r'<a href="#([^"]+)">', text)`. -/
def findLinkIds (l : List Char) : List (List Char) := genCollect mLink l

/-- Lexicographic strict comparison of character lists by code point —
Python's `<` on `str`. Computable by kernel reduction. -/
def lexLtB : List Char → List Char → Bool
  | [], [] => false
  | [], _ :: _ => true
  | _ :: _, [] => false
  | a :: as, b :: bs =>
    if a.toNat < b.toNat then true
    else if b.toNat < a.toNat then false
    else lexLtB as bs

/-- Python's `<=` on strings (code-point lexicographic). -/
def pyLe (a b : String) : Prop := lexLtB b.data a.data = false

instance pyLeDec : DecidableRel pyLe := fun a b =>
  inferInstanceAs (Decidable (lexLtB b.data a.data = false))

/-- Python's `<=` on names represented as character lists. -/
def nameLe (a b : List Char) : Prop := lexLtB b a = false

instance nameLeDec : DecidableRel nameLe := fun a b =>
  inferInstanceAs (Decidable (lexLtB b a = false))

/-- Python `sorted` on strings (lexicographic by code point). -/
def sortStrings (l : List String) : List String := List.insertionSort pyLe l

/-- Python `sorted` on names as character lists. -/
def sortNames (l : List (List Char)) : List (List Char) := List.insertionSort nameLe l

/-- Python `sorted(set(...))` on names as character lists. -/
def sortedSetNames (l : List (List Char)) : List (List Char) := sortNames l.dedup

/-- `get_plugins_from_html()`; the backing file is modelled as
`Option String` (`none` = the file does not exist). -/
def get_plugins_from_html (file : Option String) : List String :=
  match file with
  | none => []
  | some html => sortStrings ((findH3Ids html.data).map fun n => (⟨n⟩ : String))

/-- The decimal digit character for `d < 10`. -/
def digitChar (d : Nat) : Char :=
  match d with
  | 0 => '0' | 1 => '1' | 2 => '2' | 3 => '3' | 4 => '4'
  | 5 => '5' | 6 => '6' | 7 => '7' | 8 => '8' | _ => '9'

/-- Decimal digit characters of `n`, most significant first, by repeated
division (fueled so that it computes by kernel reduction). -/
def natLitAux : Nat → Nat → List Char
  | 0, _ => []
  | _ + 1, 0 => []
  | f + 1, n + 1 => natLitAux f ((n + 1) / 10) ++ [digitChar ((n + 1) % 10)]

/-- Python `f'{n}'` for a natural number. -/
def natLit (n : Nat) : List Char :=
  if n = 0 then ['0'] else natLitAux n n

/-- Numeric value of a digit character. -/
def digitVal (c : Char) : Nat := c.toNat - 48

/-- Numeric value of a digit run. -/
def digitsToNat (l : List Char) : Nat := l.foldl (fun a c => 10 * a + digitVal c) 0

/-- Matcher for the count marker `共 \d+ 个` (greedy `\d+` is the maximal
digit run; deterministic as the run must be followed by a space). -/
def mMarker (s : List Char) : Option (Nat × List Char) :=
  if (slit "共 ").isPrefixOf s then
    if (s.drop 2).takeWhile isDigitC ≠ [] ∧
        (slit " 个").isPrefixOf ((s.drop 2).dropWhile isDigitC) then
      some (digitsToNat ((s.drop 2).takeWhile isDigitC), ((s.drop 2).dropWhile isDigitC).drop 2)
    else none
  else none

/-- `re.sub(r'共 \d+ 个', f'共 {n} 个', html)`. -/
def subMarker (n : Nat) (l : List Char) : List Char :=
  genScan mMarker (fun _ => slit "共 " ++ natLit n ++ slit " 个") l

/-- Number of `<h3 id="[^"]+">` occurrences (`actual_count`). -/
def countH3 (l : List Char) : Nat := (genCollect mH3 l).length

/-- `update_plugin_count(html)` from `manage_plugins.py`. -/
def update_plugin_count (l : List Char) : List Char := subMarker (countH3 l) l

/-- The numeric values of all count markers present in a document. -/
def markerValues (l : List Char) : List Nat := genCollect mMarker l

/-!
## The repository diff (`sync_plugins` / `show_stats`)
-/

/-- `missing = [p for p in dir_plugins if p not in html_plugins]`. -/
def sync_missing (fs doc : List String) : List String :=
  fs.filter fun p => !(doc.contains p)

/-- `extra = [p for p in html_plugins if p not in dir_plugins]`. -/
def sync_extra (fs doc : List String) : List String :=
  doc.filter fun p => !(fs.contains p)

/-- Exactly one of four alternatives holds. -/
def ExactlyOne4 (a b c d : Prop) : Prop :=
  (a ∧ ¬b ∧ ¬c ∧ ¬d) ∨ (¬a ∧ b ∧ ¬c ∧ ¬d) ∨ (¬a ∧ ¬b ∧ c ∧ ¬d) ∨ (¬a ∧ ¬b ∧ ¬c ∧ d)

/-- `[c.strip() for c in commands if c.strip()]`. -/
def normalizeCmds (cs : List String) : List String :=
  (cs.map stripS).filter (· ≠ "")

/-- A matcher that can only fire when the current character is `g`. -/
def HasGate {α : Type} (tm : List Char → Option (α × List Char)) (g : Char) : Prop :=
  ∀ s p, tm s = some p → s.head? = some g

/-- Prepend a prefix onto the first chunk of a split result. -/
def consChunk (x : List Char) : List (List Char) → List (List Char)
  | [] => [x]
  | h :: t => (x ++ h) :: t

/-- No match of `tm` starts at any position of `X` when the text continues
with `Y` (the condition under which a scan passes over `X` verbatim). -/
def ClearB {α : Type} (tm : List Char → Option (α × List Char)) (X Y : List Char) : Prop :=
  ∀ x y, X = x ++ y → y ≠ [] → tm (y ++ Y) = none

/-- `pat` does not start at any position of `X` when `Y` follows. -/
def NoStart (pat X Y : List Char) : Prop :=
  ∀ x y, X = x ++ y → y ≠ [] → pat.isPrefixOf (y ++ Y) = false

/-!
## Mutation engine (`add_plugin_to_html`, `edit_plugin_in_html`,
`_update_plugin`, `delete_plugin_from_html`)

`re.escape(name)` makes the escaped-name patterns of edit and delete
match the name literally, so they are embedded as literals.  The one
unescaped name interpolation (the `<h3 id="{next_plugin}">` anchor of
add, line 102 of the source) is also embedded as a literal, which is
faithful for names made of regex-plain characters (ASCII alphanumeric,
`_`, `-`) — the well-formedness predicate below restricts names to
exactly those.  A greedy `\s*` directly followed by a non-whitespace
literal matches exactly the maximal whitespace run (backtracking into
the run puts a whitespace character under the literal), and a lazy
`[\s\S]*?` stops at the first position where its closer matches; the
matchers below bake in those two determinizations.
-/

/-- The literal `<a href="#N">N</a>`. -/
def linkFull (n : List Char) : List Char :=
  slit "<a href=\"#" ++ n ++ slit "\">" ++ n ++ slit "</a>"

/-- The literal `<h3 id="N">N</h3>`. -/
def h3full (n : List Char) : List Char :=
  slit "<h3 id=\"" ++ n ++ slit "\">" ++ n ++ slit "</h3>"

/-- The literal `<h3 id="N">`. -/
def h3open (n : List Char) : List Char :=
  slit "<h3 id=\"" ++ n ++ slit "\">"

/-- The `</p>\s*<hr>` closer: succeeds when `s` starts with `</p>`
followed, after a whitespace run, by `<hr>`; returns the rest after
`<hr>`. -/
def closeP (s : List Char) : Option (Unit × List Char) :=
  if (slit "</p>").isPrefixOf s then
    if (slit "<hr>").isPrefixOf ((s.drop 4).dropWhile isWs) then
      some ((), ((s.drop 4).dropWhile isWs).drop 4)
    else none
  else none

/-- The lazy `([\s\S]*?)</p>\s*<hr>`: the shortest middle followed by
the closer; returns the captured middle and the rest after the closer. -/
def findPClose : List Char → Option (List Char × List Char)
  | [] => none
  | c :: cs =>
    match closeP (c :: cs) with
    | some pr => some ([], pr.2)
    | none =>
      match findPClose cs with
      | some pr => some (c :: pr.1, pr.2)
      | none => none

/-- Matcher for the edit pattern
`<h3 id="N">N</h3>\s*<p>([\s\S]*?)</p>\s*<hr>`; the payload's first
component is group 1. -/
def mEditBlock (n : List Char) (s : List Char) : Option (List Char × List Char) :=
  if (h3full n).isPrefixOf s then
    if (slit "<p>").isPrefixOf ((s.drop (h3full n).length).dropWhile isWs) then
      findPClose (((s.drop (h3full n).length).dropWhile isWs).drop 3)
    else none
  else none

/-- Matcher for the delete body pattern
`\s*<h3 id="N">N</h3>\s*<p>[\s\S]*?</p>\s*<hr>`. -/
def mDelBlock (n : List Char) (s : List Char) : Option (Unit × List Char) :=
  match mEditBlock n (s.dropWhile isWs) with
  | some pr => some ((), pr.2)
  | none => none

/-- Matcher for the delete TOC pattern `\s*<a href="#N">N</a>`. -/
def mDelLink (n : List Char) (s : List Char) : Option (Unit × List Char) :=
  if (linkFull n).isPrefixOf (s.dropWhile isWs) then
    some ((), (s.dropWhile isWs).drop (linkFull n).length)
  else none

/-- `delete_plugin_from_html(name)` on an in-memory document: the TOC
link substitution, then the body substitution, then the `write_html`
count recomputation. -/
def delete_plugin_from_html (n : List Char) (html : List Char) : List Char :=
  update_plugin_count
    (genScan (mDelBlock n) (fun _ => [])
      (genScan (mDelLink n) (fun _ => []) html))

/-- `edit_plugin_in_html(name)`: the `re.search` of the edit pattern;
`some content` is the raw `group(1)`, `none` is the reported
`未找到插件` failure. -/
def edit_plugin_in_html (n : List Char) (html : List Char) : Option (List Char) :=
  genSearch (mEditBlock n) html

/-- The number of matches of the edit pattern in the document. -/
def countEditMatches (n : List Char) (html : List Char) : Nat :=
  (genCollect (mEditBlock n) html).length

/-- The replacement written by `_update_plugin`:
`<h3 id="N">N</h3>\n<p>CONTENT</p>\n<hr>`. -/
def editReplacement (n content : List Char) : List Char :=
  h3full n ++ slit "\n<p>" ++ content ++ slit "</p>\n<hr>"

/-- `_update_plugin(name, new_content, html, pattern)`: `re.sub` of the
edit pattern by the fresh rendering, then the `write_html` recount.  The
replacement is emitted literally, which coincides with `re.sub`'s
replacement-escape processing exactly when the interpolated `new_content`
contains no backslash (the name is regex-plain); the update theorem
assumes backslash-free content. -/
def update_plugin (n content : List Char) (html : List Char) : List Char :=
  update_plugin_count
    (genScan (mEditBlock n) (fun _ => editReplacement n content) html)

/-- The `</div>\s*</div>` closer of the TOC patterns. -/
def closeDiv (s : List Char) : Option (Unit × List Char) :=
  if (slit "</div>").isPrefixOf s then
    if (slit "</div>").isPrefixOf ((s.drop 6).dropWhile isWs) then
      some ((), ((s.drop 6).dropWhile isWs).drop 6)
    else none
  else none

/-- The lazy `([\s\S]*?)</div>\s*</div>`. -/
def findDivClose : List Char → Option (List Char × List Char)
  | [] => none
  | c :: cs =>
    match closeDiv (c :: cs) with
    | some pr => some ([], pr.2)
    | none =>
      match findDivClose cs with
      | some pr => some (c :: pr.1, pr.2)
      | none => none

/-- The literal `<div class="toc-list">`. -/
def tocOpen : List Char := slit "<div class=\"toc-list\">"

/-- Matcher for `(<div class="toc-list">)([\s\S]*?)(</div>\s*</div>)`;
the payload's first component is group 2. -/
def mTocBlock (s : List Char) : Option (List Char × List Char) :=
  if tocOpen.isPrefixOf s then
    findDivClose (s.drop tocOpen.length)
  else none

/-- Matcher for `(<hr>\s*\n\s*</article>)`: `<hr>`, then a whitespace
run containing a newline, then `</article>`. -/
def mHrArticle (s : List Char) : Option (Unit × List Char) :=
  if (slit "<hr>").isPrefixOf s then
    if ((s.drop 4).takeWhile isWs).contains '\n' ∧
        (slit "</article>").isPrefixOf ((s.drop 4).dropWhile isWs) then
      some ((), ((s.drop 4).dropWhile isWs).drop 10)
    else none
  else none

/-- One rendered TOC link line of add (16 spaces of indentation). -/
def linkLine (n : List Char) : List Char :=
  slit "                " ++ linkFull n

/-- The TOC replacement rendered by add. -/
def tocReplacement (names : List (List Char)) : List Char :=
  slit "<div class=\"toc-list\">\n" ++
    List.intercalate (slit "\n") (names.map linkLine) ++
    slit "\n            </div>\n        </div>"

/-- One rendered command of add: `<code>NAME</code> DESC` — unlike
`text_to_html`, add does not HTML-escape the explanation. -/
def renderCmdAdd (cmd : List Char) : List Char :=
  slit "<code>" ++ cmdName cmd ++ slit "</code> " ++ cmdDesc cmd

/-- The `commands_html` built by `add_plugin_to_html` from the
newline-joined command string. -/
def commandsHtml (commands : String) : List Char :=
  if stripL commands.data = [] then []
  else
    match (((splitAllL (slit "\n") (stripL commands.data)).map stripL).filter
        (· ≠ [])).map renderCmdAdd with
    | [] => []
    | parts => slit "<br><br>命令：" ++ List.intercalate (slit "<br>") parts

/-- The `plugin_html` fragment of add (with the surrounding newlines of
the triple-quoted f-string). -/
def pluginHtml (n content : List Char) : List Char :=
  slit "\n" ++ h3full n ++ slit "\n<p>" ++ content ++ slit "</p>\n<hr>\n"

/-- Python `list.index`: the first index of `n`. -/
def idxOfName (n : List Char) (l : List (List Char)) : Nat :=
  l.findIdx fun m => m == n

/-- The TOC stage of add: if the TOC block is found, re-render it from
the sorted union of its link names and the new name. -/
def addToc (name : List Char) (html : List Char) : List Char :=
  match genSearch mTocBlock html with
  | some middle =>
    genScan mTocBlock
      (fun _ => tocReplacement (sortedSetNames (findLinkIds middle ++ [name]))) html
  | none => html

/-- The body stage of add: insert before the closing anchor when the
name sorts last, otherwise before the next entry's heading.  Both
replacements are emitted literally; the else-branch's trailing `\1`
backreference is rendered as the matched `<h3 id="NEXT">` literal.  This
coincides with `re.sub`'s replacement-escape processing exactly when the
interpolated `content` (description plus commands) contains no backslash
(the names are regex-plain); the add theorems assume backslash-free
content. -/
def addBody (name content : List Char) (plugins : List (List Char))
    (html : List Char) : List Char :=
  if idxOfName name plugins = plugins.length - 1 then
    genScan mHrArticle
      (fun _ => slit "<hr>\n" ++ pluginHtml name content ++ slit "\n    </article>")
      html
  else
    genScan (tryLit (h3open (plugins.getD (idxOfName name plugins + 1) [])))
      (fun _ => pluginHtml name content ++
        h3open (plugins.getD (idxOfName name plugins + 1) []))
      html

/-- `add_plugin_to_html(name, description, commands)` on an in-memory
document (the document file holds `html` unchanged until the final
write, so the body position is computed from the same `html` the
function read). -/
def add_plugin_to_html (name : List Char) (description commands : String)
    (html : List Char) : List Char :=
  update_plugin_count
    (addBody name (description.data ++ commandsHtml commands)
      (sortedSetNames (sortNames (findH3Ids html) ++ [name]))
      (addToc name html))

/-!
## The document model

A structured well-formed document, with `render` giving its text.  The
well-formedness predicate is the structural normal form that the tool
itself maintains: names are non-empty and regex-plain, TOC and body
agree and are strictly sorted, the padding runs are whitespace, and
free-text segments cannot start any of the six pattern prefixes the
regexes react to.
-/

structure Entry where
  name : List Char
  content : List Char
deriving DecidableEq

instance : Inhabited Entry := ⟨⟨[], []⟩⟩

structure PluginDoc where
  pre : List Char
  count : Nat
  mid : List Char
  toc : List (List Char × List Char)
  tocEnd : List Char
  tocMid : List Char
  mid2 : List Char
  body : List (List Char × Entry)
  endSep : List Char
  post : List Char
deriving DecidableEq

/-- The count marker text `共 N 个`. -/
def marker (n : Nat) : List Char := slit "共 " ++ natLit n ++ slit " 个"

/-- One body block: heading, paragraph, separator. -/
def blockCore (e : Entry) : List Char :=
  h3full e.name ++ slit "\n<p>" ++ e.content ++ slit "</p>\n<hr>"

/-- The document text of a structured document. -/
def render (d : PluginDoc) : List Char :=
  d.pre ++ marker d.count ++ d.mid ++
    tocOpen ++ (d.toc.map fun pn => pn.1 ++ linkFull pn.2).flatten ++
    d.tocEnd ++ slit "</div>" ++ d.tocMid ++ slit "</div>" ++
    d.mid2 ++ slit "<hr>" ++
    (d.body.map fun se => se.1 ++ blockCore se.2).flatten ++
    d.endSep ++ slit "</article>" ++ d.post

/-- The concatenated padded links of the TOC region. -/
def tocBody (t : List (List Char × List Char)) : List Char :=
  (t.map fun pn => pn.1 ++ linkFull pn.2).flatten

/-- The concatenated separated blocks of the body region. -/
def bodyBody (b : List (List Char × Entry)) : List Char :=
  (b.map fun se => se.1 ++ blockCore se.2).flatten

/-- TOC names. -/
def tocNames (d : PluginDoc) : List (List Char) := d.toc.map fun pn => pn.2

/-- Body names. -/
def bodyNames (d : PluginDoc) : List (List Char) := d.body.map fun se => se.2.name

/-- Regex-plain name characters: ASCII alphanumeric, `_` or `-`. -/
def plainCharB (c : Char) : Bool := c.isAlphanum || c == '_' || c == '-'

/-- A usable name: non-empty and regex-plain. -/
def NameOkB (n : List Char) : Bool := !n.isEmpty && n.all plainCharB

/-- Backslash-free text.  `re.sub` processes backslash escapes inside its
replacement string (`\1` splices the matched group, an unknown escape such
as `\q` raises `re.error`), so a replacement template with user text
interpolated into it is spliced literally exactly when that text contains
no backslash.  The update/add theorems restrict their content to this
class; names are already backslash-free through `plainCharB`. -/
def NoBackslashB (c : List Char) : Bool := c.all fun a => a ≠ '\\'

/-- `pat` cannot begin at any position inside `X`, whatever follows `X`:
every non-empty suffix of `X` disagrees with `pat` within their common
length. -/
def litClearB (pat X : List Char) : Bool :=
  X.tails.all fun y => y.isEmpty || (!(pat.isPrefixOf y) && !(y.isPrefixOf pat))

/-- A free-text segment in which none of the patterns can fire: the six
pattern starters cannot begin at any of its positions. -/
def SegOkB (x : List Char) : Bool :=
  litClearB (slit "<h3 id=\"") x && litClearB (slit "<a href=\"#") x &&
  litClearB tocOpen x && litClearB (slit "<hr>") x &&
  litClearB (slit "</p>") x && litClearB (slit "共 ") x

/-- Strictly ascending (hence duplicate-free) name list. -/
def StrictSorted (l : List (List Char)) : Prop :=
  List.Pairwise (fun a b => lexLtB a b = true) l

/-- Well-formed structured document. -/
def WellFormed (d : PluginDoc) : Prop :=
  (∀ n ∈ tocNames d, NameOkB n = true) ∧
  StrictSorted (bodyNames d) ∧
  tocNames d = bodyNames d ∧
  (∀ pn ∈ d.toc, pn.1.all isWs = true) ∧
  d.tocEnd.all isWs = true ∧
  d.tocMid.all isWs = true ∧
  (∀ se ∈ d.body, se.1.all isWs = true) ∧
  (∀ se ∈ d.body, SegOkB se.2.content = true) ∧
  d.endSep.all isWs = true ∧
  d.endSep.contains '\n' = true ∧
  SegOkB d.pre = true ∧ SegOkB d.mid = true ∧ SegOkB d.mid2 = true ∧
  SegOkB d.post = true

instance wellFormedDec (d : PluginDoc) : Decidable (WellFormed d) := by
  unfold WellFormed StrictSorted
  infer_instance

/-- The structural part of well-formedness, without the ordering and
TOC/body agreement invariants (which the mutation stages temporarily
break between their substitutions). -/
def WellFormedW (d : PluginDoc) : Prop :=
  (∀ n ∈ tocNames d, NameOkB n = true) ∧
  (∀ n ∈ bodyNames d, NameOkB n = true) ∧
  (∀ pn ∈ d.toc, pn.1.all isWs = true) ∧
  d.tocEnd.all isWs = true ∧
  d.tocMid.all isWs = true ∧
  (∀ se ∈ d.body, se.1.all isWs = true) ∧
  (∀ se ∈ d.body, SegOkB se.2.content = true) ∧
  d.endSep.all isWs = true ∧
  d.endSep.contains '\n' = true ∧
  SegOkB d.pre = true ∧ SegOkB d.mid = true ∧ SegOkB d.mid2 = true ∧
  SegOkB d.post = true

/-- The structured effect of delete: both lists filtered, count
recomputed. -/
def deleteModel (n : List Char) (d : PluginDoc) : PluginDoc :=
  { d with
    toc := d.toc.filter fun pn => pn.2 ≠ n
    body := d.body.filter fun se => se.2.name ≠ n
    count := (d.body.filter fun se => se.2.name ≠ n).length }

/-- The structured effect of update: the named entry's content replaced,
count recomputed. -/
def updateModel (n c : List Char) (d : PluginDoc) : PluginDoc :=
  { d with
    body := d.body.map fun se => if se.2.name = n then (se.1, ⟨n, c⟩) else se
    count := d.body.length }

/-- The structured effect of add for a not-yet-present name: the TOC is
re-rendered with rigid padding, the body entry is inserted at its
sorted position, and the count is recomputed. -/
def addModel (n c : List Char) (d : PluginDoc) : PluginDoc :=
  { d with
    toc := (sortedSetNames (tocNames d ++ [n])).map
      fun m => (slit "\n                ", m)
    tocEnd := slit "\n            "
    tocMid := slit "\n        "
    body :=
      if (bodyNames d).all (fun m => lexLtB m n) then
        d.body ++ [(slit "\n\n", ⟨n, c⟩)]
      else
        (d.body.takeWhile fun se => lexLtB se.2.name n) ++
          (((d.body.dropWhile fun se => lexLtB se.2.name n).headI.1 ++ slit "\n",
              (⟨n, c⟩ : Entry)) ::
            (slit "\n", (d.body.dropWhile fun se => lexLtB se.2.name n).headI.2) ::
            (d.body.dropWhile fun se => lexLtB se.2.name n).tail)
    count := d.body.length + 1
    endSep :=
      if (bodyNames d).all (fun m => lexLtB m n) then slit "\n\n    "
      else d.endSep }

/-- A small concrete well-formed document with entries `alpha` and
`gamma`, used to instantiate the universally quantified theorems. -/
def exDoc : PluginDoc :=
  { pre := slit "x "
    count := 2
    mid := slit " y "
    toc := [(slit "\n  ", slit "alpha"), (slit "\n  ", slit "gamma")]
    tocEnd := slit "\n  "
    tocMid := slit "\n "
    mid2 := slit " z "
    body := [(slit "\n\n", ⟨slit "alpha", slit "A."⟩),
             (slit "\n\n", ⟨slit "gamma", slit "G."⟩)]
    endSep := slit "\n\n "
    post := slit " w\n" }

end ManagePlugins

/-!
## Lemmas about the generic scanners
-/

namespace ManagePlugins

theorem scanAux_fuel {α : Type} (tm : List Char → Option (α × List Char))
    (emit : α → List Char) (hs : Shrinks tm) :
    ∀ f l, l.length ≤ f → scanAux tm emit f l = scanAux tm emit l.length l := by
  intro f
  induction f using Nat.strong_induction_on with
  | _ f ih =>
    intro l hl
    match f, l with
    | 0, [] => rfl
    | 0, c :: cs => simp at hl
    | f + 1, [] => rfl
    | f + 1, c :: cs =>
      show scanAux tm emit (f + 1) (c :: cs) = scanAux tm emit (cs.length + 1) (c :: cs)
      have hcs : cs.length ≤ f := by simpa using hl
      simp only [scanAux]
      cases htm : tm (c :: cs) with
      | some p =>
        obtain ⟨a, r⟩ := p
        dsimp only
        have hr : r.length < cs.length + 1 := hs _ _ _ htm
        have hr1 : r.length ≤ f := by omega
        have hr2 : r.length ≤ cs.length := by omega
        rw [ih f (Nat.lt_succ_self f) r hr1, ih cs.length (by omega) r hr2]
      | none =>
        dsimp only
        rw [ih f (Nat.lt_succ_self f) cs hcs, ih cs.length (by omega) cs (Nat.le_refl _)]

theorem genScan_nil {α : Type} (tm : List Char → Option (α × List Char))
    (emit : α → List Char) : genScan tm emit [] = [] := rfl

theorem genScan_miss {α : Type} {tm : List Char → Option (α × List Char)}
    {emit : α → List Char} {c : Char} {cs : List Char} (h : tm (c :: cs) = none) :
    genScan tm emit (c :: cs) = c :: genScan tm emit cs := by
  show scanAux tm emit (cs.length + 1) (c :: cs) = _
  simp only [scanAux, h]
  rfl

theorem genScan_hit {α : Type} {tm : List Char → Option (α × List Char)}
    {emit : α → List Char} (hs : Shrinks tm) {s r : List Char} {a : α}
    (h : tm s = some (a, r)) :
    genScan tm emit s = emit a ++ genScan tm emit r := by
  match s with
  | [] =>
    have := hs _ _ _ h
    simp at this
  | c :: cs =>
    show scanAux tm emit (cs.length + 1) (c :: cs) = _
    simp only [scanAux, h]
    have hr : r.length ≤ cs.length := by
      have := hs _ _ _ h
      simp at this
      omega
    rw [scanAux_fuel tm emit hs cs.length r hr]
    rfl

theorem genScan_skip {α : Type} {tm : List Char → Option (α × List Char)}
    {emit : α → List Char} {l₁ l₂ : List Char}
    (h : ∀ x y, l₁ = x ++ y → y ≠ [] → tm (y ++ l₂) = none) :
    genScan tm emit (l₁ ++ l₂) = l₁ ++ genScan tm emit l₂ := by
  induction l₁ with
  | nil => simp
  | cons c t ih =>
    have hm : tm (c :: (t ++ l₂)) = none := by
      have := h [] (c :: t) rfl (by simp)
      simpa using this
    calc genScan tm emit (c :: t ++ l₂) = c :: genScan tm emit (t ++ l₂) := genScan_miss hm
    _ = c :: (t ++ genScan tm emit l₂) := by
        rw [ih]
        intro x y hxy hy
        exact h (c :: x) y (by simp [hxy]) hy
    _ = _ := by simp

theorem collectAux_fuel {α : Type} (tm : List Char → Option (α × List Char))
    (hs : Shrinks tm) :
    ∀ f l, l.length ≤ f → collectAux tm f l = collectAux tm l.length l := by
  intro f
  induction f using Nat.strong_induction_on with
  | _ f ih =>
    intro l hl
    match f, l with
    | 0, [] => rfl
    | 0, c :: cs => simp at hl
    | f + 1, [] => rfl
    | f + 1, c :: cs =>
      show collectAux tm (f + 1) (c :: cs) = collectAux tm (cs.length + 1) (c :: cs)
      have hcs : cs.length ≤ f := by simpa using hl
      simp only [collectAux]
      cases htm : tm (c :: cs) with
      | some p =>
        obtain ⟨a, r⟩ := p
        dsimp only
        have hr : r.length < cs.length + 1 := hs _ _ _ htm
        have hr1 : r.length ≤ f := by omega
        have hr2 : r.length ≤ cs.length := by omega
        rw [ih f (Nat.lt_succ_self f) r hr1, ih cs.length (by omega) r hr2]
      | none =>
        dsimp only
        rw [ih f (Nat.lt_succ_self f) cs hcs, ih cs.length (by omega) cs (Nat.le_refl _)]

theorem genCollect_nil {α : Type} (tm : List Char → Option (α × List Char)) :
    genCollect tm [] = [] := rfl

theorem genCollect_miss {α : Type} {tm : List Char → Option (α × List Char)}
    {c : Char} {cs : List Char} (h : tm (c :: cs) = none) :
    genCollect tm (c :: cs) = genCollect tm cs := by
  show collectAux tm (cs.length + 1) (c :: cs) = _
  simp only [collectAux, h]
  rfl

theorem genCollect_hit {α : Type} {tm : List Char → Option (α × List Char)}
    (hs : Shrinks tm) {s r : List Char} {a : α} (h : tm s = some (a, r)) :
    genCollect tm s = a :: genCollect tm r := by
  match s with
  | [] =>
    have := hs _ _ _ h
    simp at this
  | c :: cs =>
    show collectAux tm (cs.length + 1) (c :: cs) = _
    simp only [collectAux, h]
    have hr : r.length ≤ cs.length := by
      have := hs _ _ _ h
      simp at this
      omega
    rw [collectAux_fuel tm hs cs.length r hr]
    rfl

theorem genCollect_skip {α : Type} {tm : List Char → Option (α × List Char)}
    {l₁ l₂ : List Char}
    (h : ∀ x y, l₁ = x ++ y → y ≠ [] → tm (y ++ l₂) = none) :
    genCollect tm (l₁ ++ l₂) = genCollect tm l₂ := by
  induction l₁ with
  | nil => simp
  | cons c t ih =>
    have hm : tm (c :: (t ++ l₂)) = none := by
      have := h [] (c :: t) rfl (by simp)
      simpa using this
    calc genCollect tm (c :: t ++ l₂) = genCollect tm (t ++ l₂) := genCollect_miss hm
    _ = genCollect tm l₂ := by
        apply ih
        intro x y hxy hy
        exact h (c :: x) y (by simp [hxy]) hy

theorem genCollect_clear {α : Type} {tm : List Char → Option (α × List Char)}
    {l : List Char}
    (h : ∀ x y, l = x ++ y → y ≠ [] → tm y = none) :
    genCollect tm l = [] := by
  have := @genCollect_skip _ tm l []
  simp only [List.append_nil] at this
  exact this h

theorem genSearch_miss {α : Type} {tm : List Char → Option (α × List Char)}
    {c : Char} {cs : List Char} (h : tm (c :: cs) = none) :
    genSearch tm (c :: cs) = genSearch tm cs := by
  simp only [genSearch, h]

theorem genSearch_hit {α : Type} {tm : List Char → Option (α × List Char)}
    {s r : List Char} {a : α} (hne : s ≠ []) (h : tm s = some (a, r)) :
    genSearch tm s = some a := by
  match s with
  | [] => exact absurd rfl hne
  | c :: cs => simp only [genSearch, h]

theorem genSearch_skip {α : Type} {tm : List Char → Option (α × List Char)}
    {l₁ l₂ : List Char}
    (h : ∀ x y, l₁ = x ++ y → y ≠ [] → tm (y ++ l₂) = none) :
    genSearch tm (l₁ ++ l₂) = genSearch tm l₂ := by
  induction l₁ with
  | nil => simp
  | cons c t ih =>
    have hm : tm (c :: (t ++ l₂)) = none := by
      have := h [] (c :: t) rfl (by simp)
      simpa using this
    calc genSearch tm (c :: t ++ l₂) = genSearch tm (t ++ l₂) := genSearch_miss hm
    _ = genSearch tm l₂ := by
        apply ih
        intro x y hxy hy
        exact h (c :: x) y (by simp [hxy]) hy

theorem shrinks_tryLit {pat : List Char} (h : pat ≠ []) : Shrinks (tryLit pat) := by
  intro s a r hm
  unfold tryLit at hm
  split at hm
  · rename_i hp
    have hle : pat.length ≤ s.length := (List.isPrefixOf_iff_prefix.mp hp).length_le
    have hlen : (s.drop pat.length).length = s.length - pat.length := by simp
    cases hm
    have : 1 ≤ pat.length := List.length_pos.mpr h
    omega
  · exact absurd hm (by simp)

theorem tryLit_hit (pat rest : List Char) :
    tryLit pat (pat ++ rest) = some ((), rest) := by
  unfold tryLit
  rw [if_pos (List.isPrefixOf_iff_prefix.mpr (List.prefix_append pat rest))]
  rw [List.drop_left]

theorem tryLit_gate {p : Char} {pt : List Char} : HasGate (tryLit (p :: pt)) p := by
  intro s q hm
  unfold tryLit at hm
  split at hm
  · rename_i hp
    have := List.isPrefixOf_iff_prefix.mp hp
    obtain ⟨t, ht⟩ := this
    subst ht
    rfl
  · exact absurd hm (by simp)

theorem gate_none {α : Type} {tm : List Char → Option (α × List Char)} {g : Char}
    (hg : HasGate tm g) {c : Char} {cs : List Char} (hc : c ≠ g) :
    tm (c :: cs) = none := by
  cases hm : tm (c :: cs) with
  | none => rfl
  | some p =>
    have := hg _ _ hm
    simp at this
    exact absurd this hc

theorem genScan_skip_gate {α : Type} {tm : List Char → Option (α × List Char)}
    {emit : α → List Char} {g : Char} (hg : HasGate tm g) {l₁ l₂ : List Char}
    (h1 : ∀ c ∈ l₁, c ≠ g) :
    genScan tm emit (l₁ ++ l₂) = l₁ ++ genScan tm emit l₂ := by
  apply genScan_skip
  intro x y hxy hy
  match y with
  | c :: ys =>
    exact gate_none hg (h1 c (by rw [hxy]; exact List.mem_append_right x (by simp)))

theorem genCollect_skip_gate {α : Type} {tm : List Char → Option (α × List Char)}
    {g : Char} (hg : HasGate tm g) {l₁ l₂ : List Char}
    (h1 : ∀ c ∈ l₁, c ≠ g) :
    genCollect tm (l₁ ++ l₂) = genCollect tm l₂ := by
  apply genCollect_skip
  intro x y hxy hy
  match y with
  | c :: ys =>
    exact gate_none hg (h1 c (by rw [hxy]; exact List.mem_append_right x (by simp)))

theorem genSearch_skip_gate {α : Type} {tm : List Char → Option (α × List Char)}
    {g : Char} (hg : HasGate tm g) {l₁ l₂ : List Char}
    (h1 : ∀ c ∈ l₁, c ≠ g) :
    genSearch tm (l₁ ++ l₂) = genSearch tm l₂ := by
  apply genSearch_skip
  intro x y hxy hy
  match y with
  | c :: ys =>
    exact gate_none hg (h1 c (by rw [hxy]; exact List.mem_append_right x (by simp)))

theorem genCollect_clear_gate {α : Type} {tm : List Char → Option (α × List Char)}
    {g : Char} (hg : HasGate tm g) {l : List Char} (h1 : ∀ c ∈ l, c ≠ g) :
    genCollect tm l = [] := by
  have := @genCollect_skip_gate _ tm g hg l [] h1
  simpa using this

theorem replaceAllL_nil (pat rep : List Char) : replaceAllL pat rep [] = [] := rfl

theorem replaceAllL_hit {pat : List Char} (hne : pat ≠ []) (rep rest : List Char) :
    replaceAllL pat rep (pat ++ rest) = rep ++ replaceAllL pat rep rest :=
  genScan_hit (shrinks_tryLit hne) (tryLit_hit pat rest)

theorem replaceAllL_skip {p : Char} {pt l₁ : List Char} (rep : List Char)
    (h1 : ∀ c ∈ l₁, c ≠ p) (l₂ : List Char) :
    replaceAllL (p :: pt) rep (l₁ ++ l₂) = l₁ ++ replaceAllL (p :: pt) rep l₂ :=
  genScan_skip_gate tryLit_gate h1

theorem replaceAllL_id {p : Char} {pt l : List Char} (rep : List Char)
    (h1 : ∀ c ∈ l, c ≠ p) :
    replaceAllL (p :: pt) rep l = l := by
  have h := @replaceAllL_skip p pt l rep h1 []
  simp only [replaceAllL_nil, List.append_nil] at h
  exact h

theorem containsSubL_eq_false {p : Char} {pt l : List Char}
    (h1 : ∀ c ∈ l, c ≠ p) : containsSubL (p :: pt) l = false := by
  unfold containsSubL
  have : genSearch (tryLit (p :: pt)) (l ++ []) = genSearch (tryLit (p :: pt)) [] :=
    genSearch_skip_gate tryLit_gate h1
  simp only [List.append_nil] at this
  rw [this]
  rfl

theorem containsSubL_hit {p : Char} {pt l₁ : List Char}
    (h1 : ∀ c ∈ l₁, c ≠ p) (l₂ : List Char) :
    containsSubL (p :: pt) (l₁ ++ (p :: pt) ++ l₂) = true := by
  unfold containsSubL
  rw [List.append_assoc, genSearch_skip_gate tryLit_gate h1]
  rw [genSearch_hit (by simp) (tryLit_hit (p :: pt) l₂)]
  rfl

theorem head_eq_of_isPrefixOf {p c : Char} {pt cs : List Char}
    (hp : (p :: pt).isPrefixOf (c :: cs)) : p = c := by
  obtain ⟨u, hu⟩ := List.isPrefixOf_iff_prefix.mp hp
  have := congrArg (List.head? ·) hu
  simpa using this

theorem splitFirst_cons_miss {pat : List Char} {c : Char} {cs : List Char}
    (h : ¬ pat.isPrefixOf (c :: cs)) :
    splitFirst pat (c :: cs) =
      match splitFirst pat cs with
      | some (x, y) => some (c :: x, y)
      | none => none := by
  conv_lhs => unfold splitFirst
  rw [if_neg h]

theorem splitFirst_hit {pat : List Char} (hne : pat ≠ []) (rest : List Char) :
    splitFirst pat (pat ++ rest) = some ([], rest) := by
  match pat with
  | p :: pt =>
    show splitFirst (p :: pt) (p :: (pt ++ rest)) = _
    conv_lhs => unfold splitFirst
    rw [if_pos (show (p :: pt).isPrefixOf (p :: (pt ++ rest)) = true from
      List.isPrefixOf_iff_prefix.mpr ⟨rest, by simp⟩)]
    have hdrop : List.drop (p :: pt).length (p :: (pt ++ rest)) = rest := by
      show ((p :: pt) ++ rest).drop (p :: pt).length = rest
      exact List.drop_left _ _
    rw [hdrop]

theorem splitFirst_skip {p : Char} {pt l₁ : List Char}
    (h1 : ∀ c ∈ l₁, c ≠ p) (l₂ : List Char) :
    splitFirst (p :: pt) (l₁ ++ (p :: pt) ++ l₂) = some (l₁, l₂) := by
  induction l₁ with
  | nil =>
    rw [List.nil_append]
    exact splitFirst_hit (by simp) l₂
  | cons c t ih =>
    have hc : c ≠ p := h1 c (by simp)
    have hnp : ¬ (p :: pt).isPrefixOf (c :: ((t ++ (p :: pt)) ++ l₂)) := fun hp =>
      hc (head_eq_of_isPrefixOf hp).symm
    have ht := ih (fun c hc => h1 c (List.mem_cons_of_mem _ hc))
    show splitFirst (p :: pt) (c :: ((t ++ (p :: pt)) ++ l₂)) = _
    rw [splitFirst_cons_miss hnp]
    have hts : (t ++ (p :: pt)) ++ l₂ = t ++ (p :: pt) ++ l₂ := rfl
    rw [hts, ht]

theorem splitAux_fuel {sep : List Char} (hne : sep ≠ []) :
    ∀ f l, l.length ≤ f → splitAux sep f l = splitAux sep l.length l := by
  intro f
  induction f using Nat.strong_induction_on with
  | _ f ih =>
    intro l hl
    match f, l with
    | 0, [] => rfl
    | 0, c :: cs => simp at hl
    | f + 1, [] => rfl
    | f + 1, c :: cs =>
      show splitAux sep (f + 1) (c :: cs) = splitAux sep (cs.length + 1) (c :: cs)
      have hcs : cs.length ≤ f := by simpa using hl
      simp only [splitAux]
      split
      · rename_i hp
        have hlen : sep.length ≤ cs.length + 1 :=
          (List.isPrefixOf_iff_prefix.mp hp).length_le
        have h1 : 1 ≤ sep.length := List.length_pos.mpr hne
        have hdl : ((c :: cs).drop sep.length).length = cs.length + 1 - sep.length := by
          simp
        rw [ih f (Nat.lt_succ_self f) _ (by omega), ih cs.length (by omega) _ (by omega)]
      · rw [ih f (Nat.lt_succ_self f) cs hcs, ih cs.length (by omega) cs (Nat.le_refl _)]

theorem splitAllL_nil (sep : List Char) : splitAllL sep [] = [[]] := rfl

theorem splitAllL_cons {sep : List Char} (hne : sep ≠ []) (c : Char) (cs : List Char) :
    splitAllL sep (c :: cs) =
      if sep.isPrefixOf (c :: cs) then [] :: splitAllL sep ((c :: cs).drop sep.length)
      else consHead c (splitAllL sep cs) := by
  show splitAux sep (cs.length + 1) (c :: cs) = _
  simp only [splitAux]
  split
  · rename_i hp
    have hlen : sep.length ≤ cs.length + 1 :=
      (List.isPrefixOf_iff_prefix.mp hp).length_le
    have h1 : 1 ≤ sep.length := List.length_pos.mpr hne
    have hdl : ((c :: cs).drop sep.length).length = cs.length + 1 - sep.length := by simp
    rw [splitAux_fuel hne cs.length _ (by omega)]
    rfl
  · rfl

theorem splitAllL_hit {sep : List Char} (hne : sep ≠ []) (rest : List Char) :
    splitAllL sep (sep ++ rest) = [] :: splitAllL sep rest := by
  match sep with
  | p :: pt =>
    show splitAllL (p :: pt) (p :: (pt ++ rest)) = _
    rw [splitAllL_cons hne]
    rw [if_pos (show (p :: pt).isPrefixOf (p :: (pt ++ rest)) = true from
      List.isPrefixOf_iff_prefix.mpr ⟨rest, by simp⟩)]
    have hdrop : List.drop (p :: pt).length (p :: (pt ++ rest)) = rest := by
      show ((p :: pt) ++ rest).drop (p :: pt).length = rest
      exact List.drop_left _ _
    rw [hdrop]

theorem splitAllL_ne_nil (sep l : List Char) : splitAllL sep l ≠ [] := by
  show splitAux sep l.length l ≠ []
  generalize l.length = f
  induction f generalizing l with
  | zero => simp [splitAux]
  | succ f ih =>
    cases l with
    | nil => simp [splitAux]
    | cons c cs =>
      simp only [splitAux]
      split
      · simp
      · cases h : splitAux sep f cs with
        | nil => exact absurd h (ih cs)
        | cons a t => simp [consHead, h]

theorem splitAllL_skip {p : Char} {pt l₁ : List Char}
    (h1 : ∀ c ∈ l₁, c ≠ p) (l₂ : List Char) :
    splitAllL (p :: pt) (l₁ ++ l₂) = consChunk l₁ (splitAllL (p :: pt) l₂) := by
  induction l₁ with
  | nil =>
    rw [List.nil_append]
    cases h : splitAllL (p :: pt) l₂ with
    | nil => exact absurd h (splitAllL_ne_nil _ _)
    | cons a t => simp [consChunk]
  | cons c t ih =>
    have hc : c ≠ p := h1 c (by simp)
    have hnp : ¬ (p :: pt).isPrefixOf (c :: (t ++ l₂)) := fun hp =>
      hc (head_eq_of_isPrefixOf hp).symm
    show splitAllL (p :: pt) (c :: (t ++ l₂)) = _
    rw [splitAllL_cons (by simp) c (t ++ l₂), if_neg hnp,
      ih (fun c hc => h1 c (List.mem_cons_of_mem _ hc))]
    cases h : splitAllL (p :: pt) l₂ with
    | nil => exact absurd h (splitAllL_ne_nil _ _)
    | cons a s => simp [consChunk, consHead]

/-!
## `str.strip` lemmas
-/

theorem dropWhile_idem (p : Char → Bool) (l : List Char) :
    (l.dropWhile p).dropWhile p = l.dropWhile p := by
  induction l with
  | nil => rfl
  | cons c t ih =>
    by_cases h : p c
    · simp [List.dropWhile_cons, h, ih]
    · simp [List.dropWhile_cons, h]

theorem dropWhile_head_false {p : Char → Bool} {l : List Char} {c : Char}
    (h : (l.dropWhile p).head? = some c) : p c = false := by
  induction l with
  | nil => simp at h
  | cons a t ih =>
    by_cases ha : p a
    · rw [List.dropWhile_cons, if_pos ha] at h
      exact ih h
    · rw [List.dropWhile_cons, if_neg ha] at h
      simp at h
      rw [← h]
      exact Bool.of_not_eq_true ha

/-- `rdropWs` removes a whitespace suffix. -/
theorem rdropWs_decomp (x : List Char) :
    x = rdropWs x ++ (x.reverse.takeWhile isWs).reverse := by
  have h := List.takeWhile_append_dropWhile isWs x.reverse
  have h2 := congrArg List.reverse h
  simp only [List.reverse_append, List.reverse_reverse] at h2
  exact h2.symm

theorem rdropWs_idem (x : List Char) : rdropWs (rdropWs x) = rdropWs x := by
  unfold rdropWs
  rw [List.reverse_reverse, dropWhile_idem]

/-- A list that starts with a non-whitespace character survives a leading
`dropWhile isWs` after trailing whitespace is removed. -/
theorem dropWhile_rdropWs_dropWhile (l : List Char) :
    (rdropWs (l.dropWhile isWs)).dropWhile isWs = rdropWs (l.dropWhile isWs) := by
  cases hz : rdropWs (l.dropWhile isWs) with
  | nil => rfl
  | cons c t =>
    have hdec := rdropWs_decomp (l.dropWhile isWs)
    have hhead : (l.dropWhile isWs).head? = some c := by
      rw [hdec, hz]
      rfl
    have hcws : isWs c = false := dropWhile_head_false hhead
    rw [List.dropWhile_cons, if_neg (by simp [hcws])]

theorem stripL_idem (l : List Char) : stripL (stripL l) = stripL l := by
  unfold stripL
  rw [dropWhile_rdropWs_dropWhile, rdropWs_idem]

theorem stripS_idem (s : String) : stripS (stripS s) = stripS s := by
  unfold stripS
  simp [stripL_idem]

end ManagePlugins

/-!
## Claims C9, C10, C5
-/

namespace ManagePlugins

/-- **C9**: when the backing HTML document file does not exist,
`get_plugins_from_html` returns the empty list (no error is raised), so all
menus start from an empty document-side name list. -/
theorem c9_missing_file_empty_list : get_plugins_from_html none = [] := rfl

theorem string_mk_eq_empty_iff (m : List Char) : (⟨m⟩ : String) = "" ↔ m = [] := by
  constructor
  · intro h
    have := congrArg String.data h
    simpa using this
  · intro h
    rw [h]

theorem normalizeCmds_data (cs : List String) :
    (normalizeCmds cs).map String.data =
      ((cs.map String.data).map stripL).filter (fun l => decide (l ≠ [])) := by
  induction cs with
  | nil => rfl
  | cons a t ih =>
    show ((normalizeCmds (a :: t)).map String.data) = _
    unfold normalizeCmds at ih ⊢
    simp only [List.map_cons, List.filter_cons]
    by_cases h : stripL a.data = []
    · have h2 : stripS a = "" := by
        unfold stripS
        rw [(string_mk_eq_empty_iff _).mpr h]
      rw [if_neg (by simp [h2]), if_neg (by simp [h])]
      exact ih
    · have h2 : stripS a ≠ "" := by
        unfold stripS
        rw [Ne, string_mk_eq_empty_iff]
        exact h
      rw [if_pos (by simp [h2]), if_pos (by simp [h]), List.map_cons]
      exact congrArg₂ List.cons rfl ih

theorem cmdParts_normalize (cs : List String) :
    cmdParts ((normalizeCmds cs).map String.data) = cmdParts (cs.map String.data) := by
  unfold cmdParts
  rw [normalizeCmds_data]
  set N := ((cs.map String.data).map stripL).filter (fun l => decide (l ≠ [])) with hN
  have hmem : ∀ x ∈ N, stripL x = x := by
    intro x hx
    rw [hN] at hx
    have hx2 := List.mem_of_mem_filter hx
    obtain ⟨y, _, hy⟩ := List.mem_map.mp hx2
    rw [← hy, stripL_idem]
  have hmap : N.map stripL = N := by
    calc N.map stripL = N.map id := List.map_congr_left hmem
    _ = N := List.map_id N
  rw [hmap]
  have hfil : N.filter (fun l => decide (l ≠ [])) = N := by
    rw [List.filter_eq_self]
    intro a ha
    rw [hN] at ha
    exact (List.mem_filter.mp ha).2
  rw [hfil]

theorem normalizeCmds_eq_nil_iff (cs : List String) :
    normalizeCmds cs = [] ↔ cmdParts (cs.map String.data) = [] := by
  constructor
  · intro h
    have h2 : cmdParts ((normalizeCmds cs).map String.data) = [] := by
      rw [h]
      rfl
    rw [cmdParts_normalize] at h2
    exact h2
  · intro h
    unfold cmdParts at h
    have h2 : ((cs.map String.data).map stripL).filter (fun l => decide (l ≠ [])) = [] :=
      List.map_eq_nil_iff.mp h
    have h3 := normalizeCmds_data cs
    rw [h2] at h3
    exact List.map_eq_nil_iff.mp h3

/-- Closed form of `text_to_html`. -/
theorem text_to_html_eq (d : String) (cs : List String) :
    text_to_html d cs =
      if cmdParts (cs.map String.data) = [] then (⟨escapeHtml d.data⟩ : String)
      else ⟨escapeHtml d.data ++ slit "<br><br>命令：" ++
        List.intercalate (slit "<br>") (cmdParts (cs.map String.data))⟩ := by
  cases cs with
  | nil => rfl
  | cons a t =>
    show (if cmdParts ((a :: t).map String.data) = [] then _ else _) = _
    rfl

/-- **C10**: `text_to_html` normalizes its command list — encoding a command
list equals encoding its stripped, blank-line-free normalization, and when
every line is blank after stripping the command block is omitted entirely
(the encoding equals the command-less encoding). -/
theorem c10_encode_normalizes (d : String) (cs : List String) :
    text_to_html d cs = text_to_html d (normalizeCmds cs) ∧
      (normalizeCmds cs = [] → text_to_html d cs = text_to_html d []) := by
  constructor
  · rw [text_to_html_eq, text_to_html_eq, cmdParts_normalize]
  · intro h
    rw [text_to_html_eq, text_to_html_eq]
    rw [(normalizeCmds_eq_nil_iff cs).mp h]
    rfl

/-- Concrete instance of C10: every command line blank. -/
theorem c10_encode_normalizes_witness :
    text_to_html "x" ["  ", ""] = text_to_html "x" [] :=
  (c10_encode_normalizes "x" ["  ", ""]).2 rfl

/-- Sortedness of strings can be checked on the underlying character lists. -/
theorem sorted_le_iff_toList (l : List String) :
    List.Sorted (· ≤ ·) l ↔ List.Sorted (fun a b : String => a.toList ≤ b.toList) l :=
  List.Pairwise.iff (fun _ _ => String.le_iff_toList_le)

theorem mem_sync_missing (fs doc : List String) (n : String) :
    n ∈ sync_missing fs doc ↔ n ∈ fs ∧ n ∉ doc := by
  unfold sync_missing
  rw [List.mem_filter]
  simp [List.elem_eq_mem]

theorem mem_sync_extra (fs doc : List String) (n : String) :
    n ∈ sync_extra fs doc ↔ n ∈ doc ∧ n ∉ fs := by
  unfold sync_extra
  rw [List.mem_filter]
  simp [List.elem_eq_mem]

/-- **C5** (amended): when the two name lists are sorted ascending (as the
two repository functions always produce them), the diff computed by
`sync_plugins` / `show_stats` is the pure set difference in each direction,
both results are sorted ascending, and every name falls in exactly one of
the four classes both/missing/extra/neither. -/
theorem c5_diff_set_difference (fs doc : List String)
    (hfs : List.Sorted (· ≤ ·) fs) (hdoc : List.Sorted (· ≤ ·) doc) :
    List.Sorted (· ≤ ·) (sync_missing fs doc) ∧
      List.Sorted (· ≤ ·) (sync_extra fs doc) ∧
      (∀ n, (n ∈ sync_missing fs doc ↔ n ∈ fs ∧ n ∉ doc) ∧
        (n ∈ sync_extra fs doc ↔ n ∈ doc ∧ n ∉ fs)) ∧
      (∀ n, ExactlyOne4 (n ∈ fs ∧ n ∈ doc) (n ∈ sync_missing fs doc)
        (n ∈ sync_extra fs doc) (n ∉ fs ∧ n ∉ doc)) := by
  refine ⟨hfs.sublist (List.filter_sublist fs), hdoc.sublist (List.filter_sublist doc),
    fun n => ⟨mem_sync_missing fs doc n, mem_sync_extra fs doc n⟩, fun n => ?_⟩
  by_cases h1 : n ∈ fs <;> by_cases h2 : n ∈ doc <;>
    simp [ExactlyOne4, mem_sync_missing, mem_sync_extra, h1, h2]

/-- The C5 claim as frozen is false: it asserts the diff lists are sorted for
*all* input lists, but `missing` merely preserves the order of `fs_names`. -/
theorem c5_counterexample :
    ¬ List.Sorted (· ≤ ·) (sync_missing ["b", "a"] []) := by
  intro h
  have he : sync_missing ["b", "a"] [] = ["b", "a"] := rfl
  rw [he, sorted_le_iff_toList] at h
  have hba := (List.sorted_cons.mp h).1 "a" (by simp)
  revert hba
  decide

/-- Concrete instance of the amended C5 at sorted inputs. -/
theorem c5_diff_set_difference_witness :
    List.Sorted (· ≤ ·) (sync_missing ["a", "b", "c"] ["b", "d"]) ∧
      ("a" ∈ sync_missing ["a", "b", "c"] ["b", "d"] ↔
        "a" ∈ (["a", "b", "c"] : List String) ∧ "a" ∉ (["b", "d"] : List String)) := by
  have h := c5_diff_set_difference ["a", "b", "c"] ["b", "d"]
    ((sorted_le_iff_toList _).mpr (by decide)) ((sorted_le_iff_toList _).mpr (by decide))
  exact ⟨h.1, (h.2.2.1 "a").1⟩

/-!
## `ClearB` combinators: building skip certificates for scanners
-/

theorem clearB_nil {α : Type} {tm : List Char → Option (α × List Char)} {Y : List Char} :
    ClearB tm [] Y := by
  intro x y hxy hy
  exact absurd (List.append_eq_nil.mp hxy.symm).2 hy

theorem clearB_gate {α : Type} {tm : List Char → Option (α × List Char)} {g : Char}
    (hg : HasGate tm g) {X : List Char} (h1 : ∀ c ∈ X, c ≠ g) (Y : List Char) :
    ClearB tm X Y := by
  intro x y hxy hy
  match y with
  | c :: ys =>
    exact gate_none hg (h1 c (by rw [hxy]; exact List.mem_append_right x (by simp)))

theorem clearB_cons {α : Type} {tm : List Char → Option (α × List Char)}
    {c : Char} {T Y : List Char}
    (h0 : tm (c :: (T ++ Y)) = none) (h1 : ClearB tm T Y) : ClearB tm (c :: T) Y := by
  intro x y hxy hy
  match x, hxy with
  | [], hxy =>
    have h2 : c :: T = y := by simpa using hxy
    rw [← h2]
    exact h0
  | a :: x', hxy =>
    have h2 : T = x' ++ y := by
      have h3 : c = a ∧ T = x' ++ y := by simpa using hxy
      exact h3.2
    exact h1 x' y h2 hy

theorem clearB_append {α : Type} {tm : List Char → Option (α × List Char)}
    {A B Y : List Char}
    (hA : ClearB tm A (B ++ Y)) (hB : ClearB tm B Y) : ClearB tm (A ++ B) Y := by
  intro x y hxy hy
  rcases List.append_eq_append_iff.mp hxy.symm with ⟨w, hw1, hw2⟩ | ⟨w, hw1, hw2⟩
  · -- A = x ++ w, y = w ++ B
    cases w with
    | nil =>
      simp only [List.nil_append] at hw2
      subst hw2
      exact hB [] y rfl hy
    | cons d w' =>
      have := hA x (d :: w') hw1 (by simp)
      rw [hw2, List.append_assoc]
      exact this
  · -- x = A ++ w, B = w ++ y
    exact hB w y hw2 hy

theorem genScan_skipC {α : Type} {tm : List Char → Option (α × List Char)}
    {emit : α → List Char} {l₁ l₂ : List Char} (h : ClearB tm l₁ l₂) :
    genScan tm emit (l₁ ++ l₂) = l₁ ++ genScan tm emit l₂ :=
  genScan_skip h

theorem genCollect_skipC {α : Type} {tm : List Char → Option (α × List Char)}
    {l₁ l₂ : List Char} (h : ClearB tm l₁ l₂) :
    genCollect tm (l₁ ++ l₂) = genCollect tm l₂ :=
  genCollect_skip h

theorem genSearch_skipC {α : Type} {tm : List Char → Option (α × List Char)}
    {l₁ l₂ : List Char} (h : ClearB tm l₁ l₂) :
    genSearch tm (l₁ ++ l₂) = genSearch tm l₂ :=
  genSearch_skip h

theorem replaceAllL_skipC {pat rep l₁ l₂ : List Char}
    (h : ClearB (tryLit pat) l₁ l₂) :
    replaceAllL pat rep (l₁ ++ l₂) = l₁ ++ replaceAllL pat rep l₂ :=
  genScan_skipC h

theorem replaceAllL_idC {pat rep l : List Char}
    (h : ClearB (tryLit pat) l []) :
    replaceAllL pat rep l = l := by
  have h2 := @replaceAllL_skipC pat rep l [] h
  simp only [replaceAllL_nil, List.append_nil] at h2
  exact h2

/-!
## Codec helper lemmas (for C1)
-/

theorem string_eta (s : String) : (⟨s.data⟩ : String) = s := by
  cases s
  rfl

theorem mem_cmdName {x : Char} {c : List Char} (h : x ∈ cmdName c) : x ∈ c :=
  (List.takeWhile_sublist _).mem h

theorem mem_cmdDesc {x : Char} {c : List Char} (h : x ∈ cmdDesc c) : x ∈ c := by
  unfold cmdDesc at h
  cases hd : c.dropWhile (· ≠ ' ') with
  | nil =>
    rw [hd] at h
    simp at h
  | cons a t =>
    rw [hd] at h
    have : x ∈ a :: t := List.mem_cons_of_mem a h
    rw [← hd] at this
    exact (List.dropWhile_sublist _).mem this

/-- A command containing a space splits as `NAME ++ ' ' :: EXPLANATION`. -/
theorem cmd_reassemble {c : List Char} (h : ' ' ∈ c) :
    cmdName c ++ ' ' :: cmdDesc c = c := by
  have hsplit := List.takeWhile_append_dropWhile (fun x => decide (x ≠ ' ')) c
  have hne : c.dropWhile (fun x => decide (x ≠ ' ')) ≠ [] := by
    intro hnil
    have := List.dropWhile_eq_nil_iff.mp hnil ' ' h
    simp at this
  cases hd : c.dropWhile (fun x => decide (x ≠ ' ')) with
  | nil => exact absurd hd hne
  | cons a t =>
    have ha : a = ' ' := by
      have h2 : (c.dropWhile (fun x => decide (x ≠ ' '))).head? = some a := by
        rw [hd]
        rfl
      have h3 := dropWhile_head_false h2
      simpa using h3
    have hdesc : cmdDesc c = t := by
      unfold cmdDesc
      rw [hd]
    unfold cmdName
    rw [hdesc]
    conv_rhs => rw [← hsplit, hd]
    rw [ha]

theorem escapeHtml_id {l : List Char}
    (h : ∀ c ∈ l, c ≠ '&' ∧ c ≠ '<' ∧ c ≠ '>') : escapeHtml l = l := by
  unfold escapeHtml
  rw [show slit "&" = '&' :: slit "" from rfl,
    show slit "<" = '<' :: slit "" from rfl,
    show slit ">" = '>' :: slit "" from rfl]
  rw [replaceAllL_id _ (fun c hc => (h c hc).1), replaceAllL_id _ (fun c hc => (h c hc).2.1),
    replaceAllL_id _ (fun c hc => (h c hc).2.2)]

theorem unescapeHtml_id {l : List Char} (h : ∀ c ∈ l, c ≠ '&') : unescapeHtml l = l := by
  unfold unescapeHtml
  rw [show slit "&lt;" = '&' :: slit "lt;" from rfl,
    show slit "&gt;" = '&' :: slit "gt;" from rfl,
    show slit "&amp;" = '&' :: slit "amp;" from rfl]
  rw [replaceAllL_id _ h, replaceAllL_id _ h, replaceAllL_id _ h]

theorem renderCmd_eq {c : List Char} (h : ∀ x ∈ c, x ≠ '&' ∧ x ≠ '<' ∧ x ≠ '>') :
    renderCmd c = slit "<code>" ++ cmdName c ++ slit "</code> " ++ cmdDesc c := by
  unfold renderCmd
  rw [escapeHtml_id (fun x hx => h x (mem_cmdDesc hx))]

theorem intercalate_single (sep a : List Char) : List.intercalate sep [a] = a := by
  simp [List.intercalate, List.intersperse]

theorem intercalate_cons₂ (sep a b : List Char) (t : List (List Char)) :
    List.intercalate sep (a :: b :: t) = a ++ sep ++ List.intercalate sep (b :: t) := by
  simp [List.intercalate, List.intersperse]

/-!
## C1 pipeline lemmas: decoding the rendered command block
-/

theorem replaceAllL_miss {pat rep : List Char} {c : Char} {cs : List Char}
    (h : tryLit pat (c :: cs) = none) :
    replaceAllL pat rep (c :: cs) = c :: replaceAllL pat rep cs :=
  genScan_miss h

theorem removeCode_step {c : List Char} (REST : List Char) (hc : ∀ x ∈ c, x ≠ '<') :
    replaceAllL (slit "<code>") []
      (slit "<code>" ++ (cmdName c ++ (slit "</code> " ++ (cmdDesc c ++ REST)))) =
      cmdName c ++ (slit "</code> " ++ (cmdDesc c ++ replaceAllL (slit "<code>") [] REST)) := by
  have hnm : ∀ x ∈ cmdName c, x ≠ '<' := fun x hx => hc x (mem_cmdName hx)
  have hds : ∀ x ∈ cmdDesc c, x ≠ '<' := fun x hx => hc x (mem_cmdDesc hx)
  rw [show slit "<code>" ++ (cmdName c ++ (slit "</code> " ++ (cmdDesc c ++ REST))) =
    slit "<code>" ++ (cmdName c ++ (slit "</code> " ++ (cmdDesc c ++ REST))) from rfl]
  rw [replaceAllL_hit (by decide) [] _]
  rw [List.nil_append]
  rw [show slit "<code>" = '<' :: slit "code>" from rfl]
  rw [replaceAllL_skip _ hnm]
  rw [show slit "</code> " ++ (cmdDesc c ++ REST) =
    '<' :: (slit "/code> " ++ (cmdDesc c ++ REST)) from rfl]
  rw [replaceAllL_miss (show tryLit ('<' :: slit "code>")
    ('<' :: (slit "/code> " ++ (cmdDesc c ++ REST))) = none from rfl)]
  rw [replaceAllL_skip _ (show ∀ x ∈ slit "/code> ", x ≠ '<' by decide)]
  rw [replaceAllL_skip _ hds]
  rfl

theorem removeCode_br (Z : List Char) :
    replaceAllL (slit "<code>") [] (slit "<br>" ++ Z) =
      slit "<br>" ++ replaceAllL (slit "<code>") [] Z := by
  have hcert : ClearB (tryLit (slit "<code>")) (slit "<br>") Z := by
    rw [show slit "<br>" = '<' :: slit "br>" from rfl]
    apply clearB_cons
    · rfl
    · exact clearB_gate tryLit_gate (by decide) _
  exact genScan_skipC hcert

theorem removeCode (cs : List (List Char)) (hne : cs ≠ [])
    (h : ∀ c ∈ cs, ∀ x ∈ c, x ≠ '<') :
    replaceAllL (slit "<code>") []
      (List.intercalate (slit "<br>")
        (cs.map fun c => slit "<code>" ++ cmdName c ++ slit "</code> " ++ cmdDesc c)) =
      List.intercalate (slit "<br>")
        (cs.map fun c => cmdName c ++ slit "</code> " ++ cmdDesc c) := by
  induction cs with
  | nil => exact absurd rfl hne
  | cons c t ih =>
    cases t with
    | nil =>
      simp only [List.map_cons, List.map_nil, intercalate_single, List.append_assoc]
      have := removeCode_step (c := c) [] (h c (by simp))
      simp only [List.append_nil, replaceAllL_nil] at this
      exact this
    | cons c2 t2 =>
      have ih2 := ih (by simp) (fun x hx y hy => h x (List.mem_cons_of_mem _ hx) y hy)
      simp only [List.map_cons, intercalate_cons₂, List.append_assoc] at ih2 ⊢
      rw [removeCode_step _ (h c (by simp)), removeCode_br, ih2]

theorem removeClose_step {c : List Char} (REST : List Char) (hc : ∀ x ∈ c, x ≠ '<') :
    replaceAllL (slit "</code>") []
      (cmdName c ++ (slit "</code> " ++ (cmdDesc c ++ REST))) =
      cmdName c ++ ' ' :: (cmdDesc c ++ replaceAllL (slit "</code>") [] REST) := by
  have hnm : ∀ x ∈ cmdName c, x ≠ '<' := fun x hx => hc x (mem_cmdName hx)
  have hds : ∀ x ∈ cmdDesc c, x ≠ '<' := fun x hx => hc x (mem_cmdDesc hx)
  rw [show slit "</code>" = '<' :: slit "/code>" from rfl]
  rw [replaceAllL_skip _ hnm]
  rw [show slit "</code> " ++ (cmdDesc c ++ REST) =
    ('<' :: slit "/code>") ++ (' ' :: (cmdDesc c ++ REST)) from rfl]
  rw [replaceAllL_hit (by simp) _ _]
  rw [show (' ' :: (cmdDesc c ++ REST)) = [' '] ++ (cmdDesc c ++ REST) from rfl]
  rw [replaceAllL_skip _ (show ∀ x ∈ [' '], x ≠ '<' by decide)]
  rw [replaceAllL_skip _ hds]
  rfl

theorem removeClose_br (Z : List Char) :
    replaceAllL (slit "</code>") [] (slit "<br>" ++ Z) =
      slit "<br>" ++ replaceAllL (slit "</code>") [] Z := by
  have hcert : ClearB (tryLit (slit "</code>")) (slit "<br>") Z := by
    rw [show slit "<br>" = '<' :: slit "br>" from rfl]
    apply clearB_cons
    · rfl
    · exact clearB_gate tryLit_gate (by decide) _
  exact genScan_skipC hcert

theorem removeClose (cs : List (List Char)) (hne : cs ≠ [])
    (h : ∀ c ∈ cs, ∀ x ∈ c, x ≠ '<') :
    replaceAllL (slit "</code>") []
      (List.intercalate (slit "<br>")
        (cs.map fun c => cmdName c ++ slit "</code> " ++ cmdDesc c)) =
      List.intercalate (slit "<br>") (cs.map fun c => cmdName c ++ ' ' :: cmdDesc c) := by
  induction cs with
  | nil => exact absurd rfl hne
  | cons c t ih =>
    cases t with
    | nil =>
      simp only [List.map_cons, List.map_nil, intercalate_single, List.append_assoc]
      have := removeClose_step (c := c) [] (h c (by simp))
      simp only [List.append_nil, replaceAllL_nil] at this
      exact this
    | cons c2 t2 =>
      have ih2 := ih (by simp) (fun x hx y hy => h x (List.mem_cons_of_mem _ hx) y hy)
      simp only [List.map_cons, intercalate_cons₂, List.append_assoc, List.cons_append] at ih2 ⊢
      rw [removeClose_step _ (h c (by simp)), removeClose_br, ih2]

theorem splitBr (cs : List (List Char)) (hne : cs ≠ [])
    (h : ∀ c ∈ cs, ∀ x ∈ c, x ≠ '<') :
    splitAllL (slit "<br>") (List.intercalate (slit "<br>") cs) = cs := by
  induction cs with
  | nil => exact absurd rfl hne
  | cons c t ih =>
    cases t with
    | nil =>
      rw [intercalate_single]
      have hskip := @splitAllL_skip '<' (slit "br>") c (h c (by simp)) []
      rw [List.append_nil] at hskip
      rw [show ('<' :: slit "br>") = slit "<br>" from rfl] at hskip
      rw [hskip, splitAllL_nil]
      simp [consChunk]
    | cons c2 t2 =>
      rw [intercalate_cons₂, List.append_assoc]
      have hskip := @splitAllL_skip '<' (slit "br>") c (h c (by simp))
        (slit "<br>" ++ List.intercalate (slit "<br>") (c2 :: t2))
      rw [show ('<' :: slit "br>") = slit "<br>" from rfl] at hskip
      rw [hskip]
      rw [splitAllL_hit (by decide) _]
      rw [ih (by simp) (fun x hx y hy => h x (List.mem_cons_of_mem _ hx) y hy)]
      simp [consChunk]

/-- A fragment without markup decodes to itself with an empty command list. -/
theorem parse_no_marker {l : List Char} (hlt : ∀ c ∈ l, c ≠ '<')
    (hamp : ∀ c ∈ l, c ≠ '&') :
    parse_plugin_content ⟨l⟩ = (⟨l⟩, []) := by
  unfold parse_plugin_content
  have hdata : (⟨l⟩ : String).data = l := rfl
  rw [hdata]
  have hcont : containsSubL (slit "<br><br>命令：") l = false := by
    rw [show slit "<br><br>命令：" = '<' :: slit "br><br>命令：" from rfl]
    exact containsSubL_eq_false hlt
  rw [hcont]
  rw [if_neg (by simp)]
  rw [unescapeHtml_id hamp]

/-- The C1 claim as frozen is false: a command line with no explanation
(no space) gains a trailing space through the round trip. -/
theorem c1_counterexample :
    parse_plugin_content (text_to_html "d" [".ping"]) ≠ ("d", [".ping"]) := by
  decide

/-- **C1** (amended): the codec round-trips on every (description, commands)
pair free of the reserved characters, provided additionally that every
command line is non-empty, has no leading or trailing whitespace, and
contains a space (a command name with an explanation); `text_to_html`
strips command lines, drops blank ones, and renders a spaceless command
with a trailing space, so those pairs are exactly the ones preserved. -/
theorem c1_codec_roundtrip (description : String) (commands : List String)
    (hd : ∀ c ∈ description.data, c ≠ '&' ∧ c ≠ '<' ∧ c ≠ '>')
    (hcs : ∀ s ∈ commands, (∀ c ∈ s.data, c ≠ '&' ∧ c ≠ '<' ∧ c ≠ '>') ∧
      stripL s.data = s.data ∧ s.data ≠ [] ∧ ' ' ∈ s.data) :
    parse_plugin_content (text_to_html description commands) = (description, commands) := by
  have hdlt : ∀ c ∈ description.data, c ≠ '<' := fun c hc => (hd c hc).2.1
  have hdamp : ∀ c ∈ description.data, c ≠ '&' := fun c hc => (hd c hc).1
  have hesc : escapeHtml description.data = description.data := escapeHtml_id hd
  cases commands with
  | nil =>
    rw [text_to_html_eq,
      if_pos (show cmdParts (List.map String.data ([] : List String)) = [] from rfl),
      hesc, parse_no_marker hdlt hdamp, string_eta]
  | cons a t =>
    have hlt : ∀ c ∈ (a :: t).map String.data, ∀ x ∈ c, x ≠ '<' := by
      intro c hc x hx
      obtain ⟨s, hs, rfl⟩ := List.mem_map.mp hc
      exact ((hcs s hs).1 x hx).2.1
    have hmapstrip : ((a :: t).map String.data).map stripL = (a :: t).map String.data := by
      have h1 : ∀ x ∈ (a :: t).map String.data, stripL x = id x := by
        intro x hx
        obtain ⟨s, hs, rfl⟩ := List.mem_map.mp hx
        exact (hcs s hs).2.1
      rw [List.map_congr_left h1, List.map_id]
    have hfilter : (((a :: t).map String.data).map stripL).filter (· ≠ []) =
        ((a :: t).map String.data).map stripL := by
      rw [List.filter_eq_self]
      intro x hx
      rw [hmapstrip] at hx
      obtain ⟨s, hs, rfl⟩ := List.mem_map.mp hx
      simpa using (hcs s hs).2.2.1
    have hparts : cmdParts ((a :: t).map String.data) =
        ((a :: t).map String.data).map
          (fun c => slit "<code>" ++ cmdName c ++ slit "</code> " ++ cmdDesc c) := by
      unfold cmdParts
      rw [hmapstrip] at hfilter ⊢
      rw [hfilter]
      apply List.map_congr_left
      intro x hx
      obtain ⟨s, hs, rfl⟩ := List.mem_map.mp hx
      exact renderCmd_eq (hcs s hs).1
    have hpne : cmdParts ((a :: t).map String.data) ≠ [] := by
      rw [hparts]
      simp
    rw [text_to_html_eq, if_neg hpne, hesc, hparts]
    unfold parse_plugin_content
    have hdata : ∀ E : List Char, (⟨E⟩ : String).data = E := fun E => rfl
    rw [hdata]
    rw [show slit "<br><br>命令：" = '<' :: slit "br><br>命令：" from rfl]
    rw [containsSubL_hit hdlt _]
    rw [if_pos rfl]
    rw [splitFirst_skip hdlt _]
    dsimp only
    have hJ1 := removeCode ((a :: t).map String.data) (by simp) hlt
    rw [hJ1]
    rw [removeClose ((a :: t).map String.data) (by simp) hlt]
    have hreass : ((a :: t).map String.data).map (fun c => cmdName c ++ ' ' :: cmdDesc c) =
        (a :: t).map String.data := by
      have h1 : ∀ x ∈ (a :: t).map String.data,
          (fun c => cmdName c ++ ' ' :: cmdDesc c) x = id x := by
        intro x hx
        obtain ⟨s, hs, rfl⟩ := List.mem_map.mp hx
        exact cmd_reassemble (hcs s hs).2.2.2
      rw [List.map_congr_left h1, List.map_id]
    rw [hreass]
    rw [splitBr ((a :: t).map String.data) (by simp) hlt]
    rw [unescapeHtml_id hdamp, string_eta]
    have hcmds : ((a :: t).map String.data).map (fun c => (⟨unescapeHtml c⟩ : String)) =
        a :: t := by
      rw [List.map_map]
      have h1 : ∀ s ∈ a :: t, ((fun c => (⟨unescapeHtml c⟩ : String)) ∘ String.data) s = id s := by
        intro s hs
        have hamp : ∀ c ∈ s.data, c ≠ '&' := fun c hc => ((hcs s hs).1 c hc).1
        show (⟨unescapeHtml s.data⟩ : String) = s
        rw [unescapeHtml_id hamp, string_eta]
      rw [List.map_congr_left h1, List.map_id]
    rw [hcmds]

/-- Concrete instance of the amended C1: the spec scenario round-trips. -/
theorem c1_codec_roundtrip_witness :
    parse_plugin_content (text_to_html "测试插件" [".ping 检查", ".help 帮助信息"]) =
      ("测试插件", [".ping 检查", ".help 帮助信息"]) :=
  c1_codec_roundtrip "测试插件" [".ping 检查", ".help 帮助信息"] (by decide) (by decide)

/-!
## C2: the count marker
-/

theorem takeWhile_append_all {p : Char → Bool} {l₁ : List Char} (l₂ : List Char)
    (h : ∀ c ∈ l₁, p c = true) :
    (l₁ ++ l₂).takeWhile p = l₁ ++ l₂.takeWhile p := by
  induction l₁ with
  | nil => rfl
  | cons c t ih =>
    rw [List.cons_append, List.takeWhile_cons, if_pos (h c (by simp)), List.cons_append,
      ih (fun c hc => h c (List.mem_cons_of_mem _ hc))]

theorem dropWhile_append_all {p : Char → Bool} {l₁ : List Char} (l₂ : List Char)
    (h : ∀ c ∈ l₁, p c = true) :
    (l₁ ++ l₂).dropWhile p = l₂.dropWhile p := by
  induction l₁ with
  | nil => rfl
  | cons c t ih =>
    rw [List.cons_append, List.dropWhile_cons, if_pos (h c (by simp)),
      ih (fun c hc => h c (List.mem_cons_of_mem _ hc))]

theorem digitVal_digitChar {d : Nat} (h : d < 10) : digitVal (digitChar d) = d := by
  interval_cases d <;> rfl

theorem isDigit_digitChar (d : Nat) : isDigitC (digitChar d) = true := by
  match d with
  | 0 => rfl
  | 1 => rfl
  | 2 => rfl
  | 3 => rfl
  | 4 => rfl
  | 5 => rfl
  | 6 => rfl
  | 7 => rfl
  | 8 => rfl
  | _ + 9 => rfl

theorem digit_ne_gong {c : Char} (h : isDigitC c = true) : c ≠ '共' := by
  intro heq
  rw [heq] at h
  exact absurd h (by decide)

theorem natLitAux_digits : ∀ f n, ∀ c ∈ natLitAux f n, isDigitC c = true := by
  intro f
  induction f with
  | zero => intro n c hc; simp [natLitAux] at hc
  | succ f ih =>
    intro n c hc
    match n with
    | 0 => simp [natLitAux] at hc
    | m + 1 =>
      rw [natLitAux] at hc
      rcases List.mem_append.mp hc with h1 | h1
      · exact ih _ c h1
      · rw [List.mem_singleton.mp h1]
        exact isDigit_digitChar _

theorem natLit_digits (n : Nat) : ∀ c ∈ natLit n, isDigitC c = true := by
  unfold natLit
  split
  · intro c hc
    rw [List.mem_singleton.mp hc]
    rfl
  · exact natLitAux_digits n n

theorem natLit_ne_nil (n : Nat) : natLit n ≠ [] := by
  unfold natLit
  split
  · simp
  · rename_i h
    match n, h with
    | m + 1, _ =>
      rw [natLitAux]
      simp

theorem digitsToNat_append_single (xs : List Char) (c : Char) :
    digitsToNat (xs ++ [c]) = 10 * digitsToNat xs + digitVal c := by
  unfold digitsToNat
  rw [List.foldl_append]
  rfl

theorem natLitAux_parse : ∀ f n, n ≤ f → digitsToNat (natLitAux f n) = n := by
  intro f
  induction f using Nat.strong_induction_on with
  | _ f ih =>
    intro n hn
    match f, n with
    | 0, 0 => rfl
    | 0, n + 1 => omega
    | f + 1, 0 => rfl
    | f + 1, n + 1 =>
      rw [natLitAux, digitsToNat_append_single]
      have hdiv : (n + 1) / 10 ≤ f := by
        have := Nat.div_lt_self (Nat.succ_pos n) (by omega : 1 < 10)
        omega
      rw [ih f (Nat.lt_succ_self f) _ hdiv, digitVal_digitChar (Nat.mod_lt _ (by omega))]
      omega

theorem natLit_parse (n : Nat) : digitsToNat (natLit n) = n := by
  unfold natLit
  split
  · rename_i h
    rw [h]
    rfl
  · exact natLitAux_parse n n (Nat.le_refl n)

theorem mMarker_gate : HasGate mMarker '共' := by
  intro s p hm
  unfold mMarker at hm
  split at hm
  · rename_i hp
    obtain ⟨t, ht⟩ := List.isPrefixOf_iff_prefix.mp hp
    rw [← ht]
    rfl
  · exact absurd hm (by simp)

theorem mMarker_shrinks : Shrinks mMarker := by
  intro s a r hm
  unfold mMarker at hm
  split at hm
  · rename_i hp
    split at hm
    · rename_i hcond
      have hr : r = ((s.drop 2).dropWhile isDigitC).drop 2 := by
        cases hm
        rfl
      have hlen2 : 2 ≤ s.length := by
        have := (List.isPrefixOf_iff_prefix.mp hp).length_le
        simpa using this
      have h1 : (((s.drop 2).dropWhile isDigitC).drop 2).length ≤
          ((s.drop 2).dropWhile isDigitC).length := by
        simp
      have h2 : ((s.drop 2).dropWhile isDigitC).length ≤ (s.drop 2).length :=
        (List.dropWhile_sublist _).length_le
      have h3 : (s.drop 2).length = s.length - 2 := by simp
      rw [hr]
      omega
    · exact absurd hm (by simp)
  · exact absurd hm (by simp)

theorem mMarker_hit (n : Nat) (t : List Char) :
    mMarker ('共' :: ' ' :: (natLit n ++ (' ' :: '个' :: t))) = some (n, t) := by
  unfold mMarker
  rw [if_pos (show (slit "共 ").isPrefixOf ('共' :: ' ' :: (natLit n ++ (' ' :: '个' :: t)))
    from List.isPrefixOf_iff_prefix.mpr ⟨natLit n ++ (' ' :: '个' :: t), rfl⟩)]
  have hdrop : ('共' :: ' ' :: (natLit n ++ (' ' :: '个' :: t))).drop 2 =
      natLit n ++ (' ' :: '个' :: t) := rfl
  rw [hdrop]
  rw [takeWhile_append_all _ (natLit_digits n), dropWhile_append_all _ (natLit_digits n)]
  have h1 : (' ' :: '个' :: t).takeWhile isDigitC = [] := rfl
  have h2 : (' ' :: '个' :: t).dropWhile isDigitC = ' ' :: '个' :: t := rfl
  rw [h1, h2, List.append_nil]
  rw [if_pos ⟨natLit_ne_nil n, List.isPrefixOf_iff_prefix.mpr ⟨t, rfl⟩⟩]
  rw [natLit_parse]
  rfl

theorem subMarker_nil (n : Nat) : subMarker n [] = [] := rfl

theorem subMarker_miss {n : Nat} {c : Char} {cs : List Char} (h : mMarker (c :: cs) = none) :
    subMarker n (c :: cs) = c :: subMarker n cs :=
  genScan_miss h

theorem subMarker_hit {n : Nat} {s r : List Char} {v : Nat} (h : mMarker s = some (v, r)) :
    subMarker n s = slit "共 " ++ natLit n ++ slit " 个" ++ subMarker n r := by
  show genScan mMarker (fun _ => slit "共 " ++ natLit n ++ slit " 个") s = _
  exact genScan_hit mMarker_shrinks h

theorem subMarker_head (n : Nat) (t : List Char) :
    (subMarker n t).head? = t.head? := by
  cases t with
  | nil => rfl
  | cons c cs =>
    cases hm : mMarker (c :: cs) with
    | none =>
      rw [subMarker_miss hm]
      rfl
    | some p =>
      obtain ⟨v, r⟩ := p
      rw [subMarker_hit hm]
      have hc : c = '共' := by
        have h2 := mMarker_gate _ _ hm
        simpa using h2
      rw [hc]
      rfl

theorem isPrefixOf_cons₂ (a c : Char) (p X : List Char) :
    ((a :: p).isPrefixOf (c :: X)) = (a == c && p.isPrefixOf X) := rfl

theorem singleton_prefix_iff (b : Char) (X : List Char) :
    ([b]).isPrefixOf X = true ↔ X.head? = some b := by
  cases X with
  | nil => simp [List.isPrefixOf]
  | cons x xs =>
    rw [isPrefixOf_cons₂]
    constructor
    · intro h
      have hb : b = x := beq_iff_eq.mp (by
        cases hbx : (b == x)
        · rw [hbx] at h
          simp at h
        · rfl)
      rw [hb]
      rfl
    · intro h
      have hx : x = b := by simpa using h
      rw [hx]
      simp [List.isPrefixOf]

/-- Digit runs are copied verbatim by the marker substitution. -/
theorem subMarker_digits (n : Nat) (ds u : List Char) (hds : ∀ c ∈ ds, isDigitC c = true) :
    subMarker n (ds ++ u) = ds ++ subMarker n u :=
  genScan_skip_gate mMarker_gate (fun c hc => digit_ne_gong (hds c hc))

/-- A position where the count-marker pattern does not match still does not
match after the substitution rewrites the rest of the text. -/
theorem nm_preserved (n : Nat) {c : Char} {cs : List Char}
    (h : mMarker (c :: cs) = none) : mMarker (c :: subMarker n cs) = none := by
  by_cases hc : c = '共'
  · subst hc
    cases cs with
    | nil => rfl
    | cons c₂ cs₂ =>
      by_cases hc₂ : c₂ = ' '
      · subst hc₂
        have hsub : subMarker n (' ' :: cs₂) = ' ' :: subMarker n cs₂ :=
          subMarker_miss (gate_none mMarker_gate (by decide))
        rw [hsub]
        have hpre1 : (slit "共 ").isPrefixOf ('共' :: ' ' :: cs₂) = true :=
          List.isPrefixOf_iff_prefix.mpr ⟨cs₂, rfl⟩
        unfold mMarker at h
        rw [if_pos hpre1] at h
        have hcond : ¬ ((('共' :: ' ' :: cs₂).drop 2).takeWhile isDigitC ≠ [] ∧
            (slit " 个").isPrefixOf ((('共' :: ' ' :: cs₂).drop 2).dropWhile isDigitC) = true) := by
          intro hco
          rw [if_pos hco] at h
          exact absurd h (by simp)
        have hdrop1 : ('共' :: ' ' :: cs₂).drop 2 = cs₂ := rfl
        rw [hdrop1] at hcond
        unfold mMarker
        rw [if_pos (show (slit "共 ").isPrefixOf ('共' :: ' ' :: subMarker n cs₂) = true from
          List.isPrefixOf_iff_prefix.mpr ⟨subMarker n cs₂, rfl⟩)]
        have hdrop2 : ('共' :: ' ' :: subMarker n cs₂).drop 2 = subMarker n cs₂ := rfl
        rw [hdrop2]
        -- digit span of the rewritten tail
        have hsplit : cs₂.takeWhile isDigitC ++ cs₂.dropWhile isDigitC = cs₂ :=
          List.takeWhile_append_dropWhile isDigitC cs₂
        have hdsdig : ∀ x ∈ cs₂.takeWhile isDigitC, isDigitC x = true := fun x hx =>
          List.mem_takeWhile_imp hx
        have hcopy : subMarker n cs₂ =
            cs₂.takeWhile isDigitC ++ subMarker n (cs₂.dropWhile isDigitC) := by
          conv_lhs => rw [← hsplit]
          exact subMarker_digits n _ _ hdsdig
        have hsubtw : (subMarker n (cs₂.dropWhile isDigitC)).takeWhile isDigitC = [] := by
          cases hsu : subMarker n (cs₂.dropWhile isDigitC) with
          | nil => rfl
          | cons x xs =>
            have hx : (cs₂.dropWhile isDigitC).head? = some x := by
              rw [← subMarker_head n, hsu]
              rfl
            have hxd : isDigitC x = false := dropWhile_head_false hx
            rw [List.takeWhile_cons, if_neg (by simp [hxd])]
        have hsubdw : (subMarker n (cs₂.dropWhile isDigitC)).dropWhile isDigitC =
            subMarker n (cs₂.dropWhile isDigitC) := by
          cases hsu : subMarker n (cs₂.dropWhile isDigitC) with
          | nil => rfl
          | cons x xs =>
            have hx : (cs₂.dropWhile isDigitC).head? = some x := by
              rw [← subMarker_head n, hsu]
              rfl
            have hxd : isDigitC x = false := dropWhile_head_false hx
            rw [List.dropWhile_cons, if_neg (by simp [hxd])]
        have hT : (subMarker n cs₂).takeWhile isDigitC = cs₂.takeWhile isDigitC := by
          rw [hcopy, takeWhile_append_all _ hdsdig, hsubtw, List.append_nil]
        have hD : (subMarker n cs₂).dropWhile isDigitC =
            subMarker n (cs₂.dropWhile isDigitC) := by
          rw [hcopy, dropWhile_append_all _ hdsdig, hsubdw]
        rw [if_neg]
        intro hco
        apply hcond
        rcases hco with ⟨h1, h2⟩
        rw [hT] at h1
        refine ⟨h1, ?_⟩
        rw [hD] at h2
        -- transfer the " 个" prefix from the rewritten tail to the original
        cases hu : cs₂.dropWhile isDigitC with
        | nil =>
          rw [hu] at h2
          rw [subMarker_nil] at h2
          exact absurd h2 (by simp [List.isPrefixOf])
        | cons x u₂ =>
          rw [hu] at h2
          by_cases hx : x = ' '
          · subst hx
            have hsub2 : subMarker n (' ' :: u₂) = ' ' :: subMarker n u₂ :=
              subMarker_miss (gate_none mMarker_gate (by decide))
            rw [hsub2] at h2
            rw [show slit " 个" = ' ' :: ['个'] from rfl] at h2 ⊢
            rw [isPrefixOf_cons₂] at h2 ⊢
            simp only [beq_self_eq_true, Bool.true_and] at h2 ⊢
            rw [singleton_prefix_iff] at h2 ⊢
            rw [subMarker_head] at h2
            exact h2
          · have hhead : (subMarker n (x :: u₂)).head? = some x := by
              rw [subMarker_head]
              rfl
            rw [show slit " 个" = ' ' :: ['个'] from rfl] at h2
            cases hsu : subMarker n (x :: u₂) with
            | nil =>
              rw [hsu] at h2
              exact absurd h2 (by simp [List.isPrefixOf])
            | cons y ys =>
              rw [hsu] at h2 hhead
              simp only [List.head?_cons, Option.some.injEq] at hhead
              rw [isPrefixOf_cons₂] at h2
              have : (' ' == y) = true := by
                cases hb : (' ' == y)
                · rw [hb] at h2
                  simp at h2
                · rfl
              have hysp : y = ' ' := by
                have := beq_iff_eq.mp this
                exact this.symm
              rw [hysp] at hhead
              exact absurd hhead.symm hx
      · -- second character is not a space: neither side matches
        unfold mMarker
        rw [if_neg]
        intro hp
        obtain ⟨t, ht⟩ := List.isPrefixOf_iff_prefix.mp hp
        have ht2 : subMarker n (c₂ :: cs₂) = ' ' :: t := by
          have h3 := ht
          rw [show slit "共 " = '共' :: [' '] from rfl] at h3
          have h4 : ' ' :: t = subMarker n (c₂ :: cs₂) := by simpa using h3
          exact h4.symm
        have hh : (subMarker n (c₂ :: cs₂)).head? = some c₂ := by
          rw [subMarker_head]
          rfl
        rw [ht2] at hh
        simp at hh
        exact hc₂ hh.symm
  · unfold mMarker
    rw [if_neg]
    intro hp
    have h2 : '共' = c := by
      rw [show slit "共 " = '共' :: [' '] from rfl] at hp
      exact head_eq_of_isPrefixOf hp
    exact hc h2.symm

/-- Every marker in the substituted document reads the substituted value. -/
theorem markerValues_subMarker (n : Nat) (s : List Char) :
    markerValues (subMarker n s) = (markerValues s).map (fun _ => n) := by
  have hgen : ∀ k, ∀ s : List Char, s.length ≤ k →
      markerValues (subMarker n s) = (markerValues s).map (fun _ => n) := by
    intro k
    induction k with
    | zero =>
      intro s hs
      have : s = [] := List.eq_nil_of_length_eq_zero (Nat.le_zero.mp hs)
      rw [this]
      rfl
    | succ k ih =>
      intro s hs
      cases s with
      | nil => rfl
      | cons c cs =>
        cases hm : mMarker (c :: cs) with
        | none =>
          rw [subMarker_miss hm]
          unfold markerValues
          rw [genCollect_miss (nm_preserved n hm), genCollect_miss hm]
          exact ih cs (by simpa using hs)
        | some p =>
          obtain ⟨v, r⟩ := p
          rw [subMarker_hit hm]
          have hrlen : r.length ≤ k := by
            have := mMarker_shrinks _ _ _ hm
            simp at this hs
            omega
          unfold markerValues
          have hshape : slit "共 " ++ natLit n ++ slit " 个" ++ subMarker n r =
              '共' :: ' ' :: (natLit n ++ (' ' :: '个' :: subMarker n r)) := by
            simp [List.append_assoc]
            rfl
          rw [hshape]
          rw [genCollect_hit mMarker_shrinks (mMarker_hit n (subMarker n r))]
          rw [genCollect_hit mMarker_shrinks hm]
          rw [List.map_cons]
          exact congrArg (n :: ·) (ih r hrlen)
  exact hgen s.length s (Nat.le_refl _)

theorem mH3_gate : HasGate mH3 '<' := by
  intro s p hm
  unfold mH3 at hm
  split at hm
  · rename_i hp
    obtain ⟨t, ht⟩ := List.isPrefixOf_iff_prefix.mp hp
    rw [← ht]
    rfl
  · exact absurd hm (by simp)

theorem mH3_shrinks : Shrinks mH3 := by
  intro s a r hm
  unfold mH3 at hm
  split at hm
  · rename_i hp
    split at hm
    · rename_i hcond
      have hr : r = ((s.drop 8).dropWhile (· ≠ '"')).drop 2 := by
        cases hm
        rfl
      have hlen8 : 8 ≤ s.length := by
        have := (List.isPrefixOf_iff_prefix.mp hp).length_le
        simpa using this
      have h1 : (((s.drop 8).dropWhile (· ≠ '"')).drop 2).length ≤
          ((s.drop 8).dropWhile (· ≠ '"')).length := by
        simp
      have h2 : ((s.drop 8).dropWhile (· ≠ '"')).length ≤ (s.drop 8).length :=
        (List.dropWhile_sublist _).length_le
      have h3 : (s.drop 8).length = s.length - 8 := by simp
      rw [hr]
      omega
    · exact absurd hm (by simp)
  · exact absurd hm (by simp)

theorem countH3_nil : countH3 [] = 0 := rfl

theorem countH3_miss {c : Char} {cs : List Char} (h : mH3 (c :: cs) = none) :
    countH3 (c :: cs) = countH3 cs := by
  unfold countH3
  rw [genCollect_miss h]

theorem countH3_hit {s r idv : List Char} (h : mH3 s = some (idv, r)) :
    countH3 s = countH3 r + 1 := by
  unfold countH3
  rw [genCollect_hit mH3_shrinks h]
  simp

theorem countH3_skip_safe {u : List Char} (hu : ∀ c ∈ u, c ≠ '<') (b : List Char) :
    countH3 (u ++ b) = countH3 b := by
  unfold countH3
  rw [genCollect_skip_gate mH3_gate hu]

/-- If a pattern matches across `a ++ y` but `a` is shorter than the
pattern, then `y` starts with the corresponding character of the pattern. -/
theorem prefix_head_drop : ∀ (p a y : List Char), p.isPrefixOf (a ++ y) = true →
    a.length < p.length → y.head? = (p.drop a.length).head? := by
  intro p
  induction p with
  | nil =>
    intro a y _ hlen
    simp at hlen
  | cons q p' ih =>
    intro a y hp hlen
    cases a with
    | nil =>
      cases y with
      | nil => simp [List.isPrefixOf] at hp
      | cons z zs =>
        have hqz : q = z := head_eq_of_isPrefixOf
          (show (q :: p').isPrefixOf (z :: zs) = true by simpa using hp)
        show (z :: zs).head? = (List.drop ([] : List Char).length (q :: p')).head?
        simp [← hqz]
    | cons c a' =>
      have hp2 : (q :: p').isPrefixOf (c :: (a' ++ y)) = true := by simpa using hp
      rw [isPrefixOf_cons₂] at hp2
      have hqc : (q == c) = true := by
        cases hb : (q == c)
        · rw [hb] at hp2
          simp at hp2
        · rfl
      have hp3 : p'.isPrefixOf (a' ++ y) = true := by
        rw [hqc] at hp2
        simpa using hp2
      have hlen2 : a'.length < p'.length := by simp at hlen; omega
      have := ih a' y hp3 hlen2
      simpa using this

/-- A prefix test only looks at the first `p.length` characters. -/
theorem prefix_of_append_of_le : ∀ (p a : List Char), p.length ≤ a.length → ∀ y,
    p.isPrefixOf (a ++ y) = p.isPrefixOf a := by
  intro p
  induction p with
  | nil => intro a _ y; simp [List.isPrefixOf]
  | cons q p' ih =>
    intro a hlen y
    cases a with
    | nil => simp at hlen
    | cons c a' =>
      show (q :: p').isPrefixOf (c :: (a' ++ y)) = (q :: p').isPrefixOf (c :: a')
      rw [isPrefixOf_cons₂, isPrefixOf_cons₂, ih a' (by simpa using hlen) y]

theorem takeWhile_append_stop {p : Char → Bool} {l₁ : List Char} (l₂ : List Char)
    (h : l₁.dropWhile p ≠ []) :
    (l₁ ++ l₂).takeWhile p = l₁.takeWhile p ∧
      (l₁ ++ l₂).dropWhile p = l₁.dropWhile p ++ l₂ := by
  induction l₁ with
  | nil => exact absurd rfl h
  | cons c t ih =>
    by_cases hc : p c
    · rw [List.dropWhile_cons, if_pos hc] at h
      obtain ⟨h1, h2⟩ := ih h
      constructor
      · rw [List.cons_append, List.takeWhile_cons, if_pos hc, h1, List.takeWhile_cons,
          if_pos hc]
      · rw [List.cons_append, List.dropWhile_cons, if_pos hc, h2, List.dropWhile_cons,
          if_pos hc]
    · constructor
      · rw [List.cons_append, List.takeWhile_cons, if_neg hc, List.takeWhile_cons, if_neg hc]
      · rw [List.cons_append, List.dropWhile_cons, if_neg hc, List.dropWhile_cons, if_neg hc]
        rfl

theorem lit_not_prefix_short {a u y : List Char} (ha : a.length < 8)
    (hu : u.head? = some '共') :
    (slit "<h3 id=\"").isPrefixOf (a ++ (u ++ y)) = false := by
  cases hb : (slit "<h3 id=\"").isPrefixOf (a ++ (u ++ y))
  · rfl
  · exfalso
    have hlen : a.length < (slit "<h3 id=\"").length := by
      have : (slit "<h3 id=\"").length = 8 := rfl
      omega
    have hhead := prefix_head_drop _ a (u ++ y) hb hlen
    have huy : (u ++ y).head? = some '共' := by
      cases u with
      | nil => simp at hu
      | cons x xs =>
        simp at hu
        simp [hu]
    rw [huy] at hhead
    have hforall : ∀ k, k < 8 → ((slit "<h3 id=\"").drop k).head? ≠ some '共' := by decide
    exact hforall a.length (by omega) hhead.symm

theorem mH3_eval {x : List Char} (hp : (slit "<h3 id=\"").isPrefixOf x = true) :
    mH3 x = if (x.drop 8).takeWhile (· ≠ '"') ≠ [] ∧
        (slit "\">").isPrefixOf ((x.drop 8).dropWhile (· ≠ '"')) = true then
      some ((x.drop 8).takeWhile (· ≠ '"'), ((x.drop 8).dropWhile (· ≠ '"')).drop 2)
    else none := by
  unfold mH3
  rw [if_pos hp]

theorem mH3_none_of_not_prefix {x : List Char}
    (hp : ¬ (slit "<h3 id=\"").isPrefixOf x = true) : mH3 x = none := by
  unfold mH3
  rw [if_neg hp]

/-- Replacing a segment that contains none of `<`, `"`, `>` and starts with
`共` by another such segment preserves the number of heading matches. -/
theorem countH3_swap (u u' : List Char)
    (hu0 : u.head? = some '共') (hu0' : u'.head? = some '共')
    (hu : ∀ c ∈ u, c ≠ '<' ∧ c ≠ '"' ∧ c ≠ '>')
    (hu' : ∀ c ∈ u', c ≠ '<' ∧ c ≠ '"' ∧ c ≠ '>') :
    ∀ a b, countH3 (a ++ (u ++ b)) = countH3 (a ++ (u' ++ b)) := by
  have hult : ∀ c ∈ u, c ≠ '<' := fun c hc => (hu c hc).1
  have hult' : ∀ c ∈ u', c ≠ '<' := fun c hc => (hu' c hc).1
  have huq : ∀ c ∈ u, (fun x => decide (x ≠ '"')) c = true := fun c hc => by
    simp [(hu c hc).2.1]
  have huq' : ∀ c ∈ u', (fun x => decide (x ≠ '"')) c = true := fun c hc => by
    simp [(hu' c hc).2.1]
  have hune : u ≠ [] := by
    cases u
    · simp at hu0
    · simp
  have hbase : ∀ b, countH3 (u ++ b) = countH3 (u' ++ b) := by
    intro b
    rw [countH3_skip_safe hult, countH3_skip_safe hult']
  have hgen : ∀ k a b, a.length ≤ k → countH3 (a ++ (u ++ b)) = countH3 (a ++ (u' ++ b)) := by
    intro k
    induction k with
    | zero =>
      intro a b ha
      have : a = [] := List.eq_nil_of_length_eq_zero (Nat.le_zero.mp ha)
      rw [this, List.nil_append, List.nil_append]
      exact hbase b
    | succ k ih =>
      intro a b ha
      cases a with
      | nil =>
        rw [List.nil_append, List.nil_append]
        exact hbase b
      | cons c a' =>
        have ha' : a'.length ≤ k := by simpa using ha
        have hmiss : mH3 (c :: (a' ++ (u ++ b))) = none →
            mH3 (c :: (a' ++ (u' ++ b))) = none →
            countH3 ((c :: a') ++ (u ++ b)) = countH3 ((c :: a') ++ (u' ++ b)) := by
          intro hm1 hm2
          show countH3 (c :: (a' ++ (u ++ b))) = countH3 (c :: (a' ++ (u' ++ b)))
          rw [countH3_miss hm1, countH3_miss hm2]
          exact ih a' b ha'
        by_cases hpre : (slit "<h3 id=\"").isPrefixOf ((c :: a') ++ (u ++ b)) = true
        · have h8 : 8 ≤ (c :: a').length := by
            by_contra h8
            have hfalse := lit_not_prefix_short (a := c :: a') (y := b)
              (by omega) hu0
            rw [hfalse] at hpre
            exact absurd hpre (by simp)
          have hlitlen : (slit "<h3 id=\"").length = 8 := rfl
          have hpa : (slit "<h3 id=\"").isPrefixOf (c :: a') = true := by
            rw [← prefix_of_append_of_le _ (c :: a') (by omega) (u ++ b)]
            exact hpre
          have hpre' : (slit "<h3 id=\"").isPrefixOf ((c :: a') ++ (u' ++ b)) = true := by
            rw [prefix_of_append_of_le _ (c :: a') (by omega) (u' ++ b)]
            exact hpa
          obtain ⟨a₂, ha₂⟩ := List.isPrefixOf_iff_prefix.mp hpa
          have hlen₂ : 8 + a₂.length = a'.length + 1 := by
            have := congrArg List.length ha₂
            simp at this
            omega
          have hd : ∀ y : List Char, ((c :: a') ++ y).drop 8 = a₂ ++ y := by
            intro y
            have h1 : (c :: a') ++ y = (slit "<h3 id=\"") ++ (a₂ ++ y) := by
              rw [← List.append_assoc, ha₂]
            rw [h1, ← hlitlen, List.drop_left]
          by_cases hq : a₂.dropWhile (fun x => decide (x ≠ '"')) = []
          · -- no quote inside `a₂`: the id run crosses the swapped segment
            have ha₂q : ∀ x ∈ a₂, (fun x => decide (x ≠ '"')) x = true :=
              List.dropWhile_eq_nil_iff.mp hq
            have htk : ∀ (w : List Char), (hw : ∀ x ∈ w, (fun x => decide (x ≠ '"')) x = true) →
                (a₂ ++ (w ++ b)).takeWhile (fun x => decide (x ≠ '"')) =
                  a₂ ++ (w ++ b.takeWhile (fun x => decide (x ≠ '"'))) ∧
                (a₂ ++ (w ++ b)).dropWhile (fun x => decide (x ≠ '"')) =
                  b.dropWhile (fun x => decide (x ≠ '"')) := by
              intro w hw
              constructor
              · rw [takeWhile_append_all _ ha₂q, takeWhile_append_all _ hw]
              · rw [dropWhile_append_all _ ha₂q, dropWhile_append_all _ hw]
            by_cases hclose : (slit "\">").isPrefixOf
                (b.dropWhile (fun x => decide (x ≠ '"'))) = true
            · have hne1 : a₂ ++ (u ++ b.takeWhile (fun x => decide (x ≠ '"'))) ≠ [] := by
                intro hnil
                rcases List.append_eq_nil.mp hnil with ⟨_, h2⟩
                exact hune (List.append_eq_nil.mp h2).1
              have hne2 : a₂ ++ (u' ++ b.takeWhile (fun x => decide (x ≠ '"'))) ≠ [] := by
                intro hnil
                rcases List.append_eq_nil.mp hnil with ⟨_, h2⟩
                have : u' = [] := (List.append_eq_nil.mp h2).1
                rw [this] at hu0'
                simp at hu0'
              have hm1 : mH3 ((c :: a') ++ (u ++ b)) =
                  some (a₂ ++ (u ++ b.takeWhile (fun x => decide (x ≠ '"'))),
                    (b.dropWhile (fun x => decide (x ≠ '"'))).drop 2) := by
                rw [mH3_eval hpre, hd, (htk u huq).1, (htk u huq).2, if_pos ⟨hne1, hclose⟩]
              have hm2 : mH3 ((c :: a') ++ (u' ++ b)) =
                  some (a₂ ++ (u' ++ b.takeWhile (fun x => decide (x ≠ '"'))),
                    (b.dropWhile (fun x => decide (x ≠ '"'))).drop 2) := by
                rw [mH3_eval hpre', hd, (htk u' huq').1, (htk u' huq').2, if_pos ⟨hne2, hclose⟩]
              rw [countH3_hit hm1, countH3_hit hm2]
            · apply hmiss
              · show mH3 ((c :: a') ++ (u ++ b)) = none
                rw [mH3_eval hpre, hd, (htk u huq).2, if_neg (fun hco => hclose hco.2)]
              · show mH3 ((c :: a') ++ (u' ++ b)) = none
                rw [mH3_eval hpre', hd, (htk u' huq').2, if_neg (fun hco => hclose hco.2)]
          · -- a quote inside `a₂`: the id run ends before the swapped segment
            have hstop : ∀ y : List Char,
                (a₂ ++ y).takeWhile (fun x => decide (x ≠ '"')) =
                  a₂.takeWhile (fun x => decide (x ≠ '"')) ∧
                (a₂ ++ y).dropWhile (fun x => decide (x ≠ '"')) =
                  a₂.dropWhile (fun x => decide (x ≠ '"')) ++ y :=
              fun y => takeWhile_append_stop y hq
            cases hdq : a₂.dropWhile (fun x => decide (x ≠ '"')) with
            | nil => exact absurd hdq hq
            | cons w a₃ =>
              have hw : w = '"' := by
                have hwf : (fun x => decide (x ≠ '"')) w = false :=
                  dropWhile_head_false (by rw [hdq]; rfl)
                simpa using hwf
              subst hw
              have hUform : ∀ y : List Char,
                  (a₂.dropWhile (fun x => decide (x ≠ '"')) ++ y) = '"' :: (a₃ ++ y) := by
                intro y
                rw [hdq]
                rfl
              have hclose_iff : ∀ y : List Char,
                  (slit "\">").isPrefixOf ('"' :: (a₃ ++ y)) = true ↔
                    (a₃ ++ y).head? = some '>' := by
                intro y
                rw [show slit "\">" = '"' :: ['>'] from rfl, isPrefixOf_cons₂]
                simp only [beq_self_eq_true, Bool.true_and]
                exact singleton_prefix_iff '>' (a₃ ++ y)
              cases a₃ with
              | nil =>
                apply hmiss
                · show mH3 ((c :: a') ++ (u ++ b)) = none
                  rw [mH3_eval hpre, hd, (hstop (u ++ b)).2, hUform]
                  rw [if_neg]
                  intro hco
                  have := (hclose_iff (u ++ b)).mp hco.2
                  rw [List.nil_append] at this
                  have huh : (u ++ b).head? = some '共' := by
                    cases u with
                    | nil => simp at hu0
                    | cons x xs => simp at hu0; simp [hu0]
                  rw [huh] at this
                  simp at this
                · show mH3 ((c :: a') ++ (u' ++ b)) = none
                  rw [mH3_eval hpre', hd, (hstop (u' ++ b)).2, hUform]
                  rw [if_neg]
                  intro hco
                  have := (hclose_iff (u' ++ b)).mp hco.2
                  rw [List.nil_append] at this
                  have huh : (u' ++ b).head? = some '共' := by
                    cases u' with
                    | nil => simp at hu0'
                    | cons x xs => simp at hu0'; simp [hu0']
                  rw [huh] at this
                  simp at this
              | cons z a₄ =>
                have hhead : ∀ y : List Char, ((z :: a₄) ++ y).head? = some z := fun y => rfl
                by_cases hz : z = '>'
                · subst hz
                  by_cases hT : a₂.takeWhile (fun x => decide (x ≠ '"')) = []
                  · apply hmiss
                    · show mH3 ((c :: a') ++ (u ++ b)) = none
                      rw [mH3_eval hpre, hd, (hstop (u ++ b)).1, if_neg]
                      intro hco
                      exact hco.1 hT
                    · show mH3 ((c :: a') ++ (u' ++ b)) = none
                      rw [mH3_eval hpre', hd, (hstop (u' ++ b)).1, if_neg]
                      intro hco
                      exact hco.1 hT
                  · have hlen₄ : a₄.length ≤ k := by
                      have hsp := List.takeWhile_append_dropWhile
                        (fun x => decide (x ≠ '"')) a₂
                      have := congrArg List.length hsp
                      rw [hdq] at this
                      simp at this
                      omega
                    have hrest : ∀ y : List Char,
                        ('"' :: (('>' :: a₄) ++ y)).drop 2 = a₄ ++ y := fun y => rfl
                    have hm1 : mH3 ((c :: a') ++ (u ++ b)) =
                        some (a₂.takeWhile (fun x => decide (x ≠ '"')), a₄ ++ (u ++ b)) := by
                      rw [mH3_eval hpre, hd, (hstop (u ++ b)).1, (hstop (u ++ b)).2, hUform,
                        if_pos ⟨hT, (hclose_iff (u ++ b)).mpr (hhead (u ++ b))⟩, hrest]
                    have hm2 : mH3 ((c :: a') ++ (u' ++ b)) =
                        some (a₂.takeWhile (fun x => decide (x ≠ '"')), a₄ ++ (u' ++ b)) := by
                      rw [mH3_eval hpre', hd, (hstop (u' ++ b)).1, (hstop (u' ++ b)).2, hUform,
                        if_pos ⟨hT, (hclose_iff (u' ++ b)).mpr (hhead (u' ++ b))⟩, hrest]
                    rw [countH3_hit hm1, countH3_hit hm2, ih a₄ b hlen₄]
                · apply hmiss
                  · show mH3 ((c :: a') ++ (u ++ b)) = none
                    rw [mH3_eval hpre, hd, (hstop (u ++ b)).2, hUform, if_neg]
                    intro hco
                    have := (hclose_iff (u ++ b)).mp hco.2
                    rw [hhead (u ++ b)] at this
                    exact hz (by simpa using this)
                  · show mH3 ((c :: a') ++ (u' ++ b)) = none
                    rw [mH3_eval hpre', hd, (hstop (u' ++ b)).2, hUform, if_neg]
                    intro hco
                    have := (hclose_iff (u' ++ b)).mp hco.2
                    rw [hhead (u' ++ b)] at this
                    exact hz (by simpa using this)
        · have hpre'f : ¬ (slit "<h3 id=\"").isPrefixOf ((c :: a') ++ (u' ++ b)) = true := by
            intro hb2
            have h8 : 8 ≤ (c :: a').length := by
              by_contra h8
              have hfalse := lit_not_prefix_short (a := c :: a') (y := b)
                (by omega) hu0'
              rw [hfalse] at hb2
              exact absurd hb2 (by simp)
            have hpa : (slit "<h3 id=\"").isPrefixOf (c :: a') = true := by
              have hlitlen : (slit "<h3 id=\"").length = 8 := rfl
              rw [← prefix_of_append_of_le _ (c :: a') (by omega) (u' ++ b)]
              exact hb2
            apply hpre
            have hlitlen : (slit "<h3 id=\"").length = 8 := rfl
            rw [prefix_of_append_of_le _ (c :: a') (by omega) (u ++ b)]
            exact hpa
          apply hmiss
          · exact mH3_none_of_not_prefix hpre
          · exact mH3_none_of_not_prefix hpre'f
  intro a b
  exact hgen a.length a b (Nat.le_refl _)

theorem digit_safe {c : Char} (h : isDigitC c = true) : c ≠ '<' ∧ c ≠ '"' ∧ c ≠ '>' := by
  refine ⟨?_, ?_, ?_⟩ <;> (intro heq; rw [heq] at h; exact absurd h (by decide))

/-- The text matched by the count-marker pattern. -/
theorem mMarker_decomp {s r : List Char} {v : Nat} (h : mMarker s = some (v, r)) :
    s = '共' :: ' ' :: ((s.drop 2).takeWhile isDigitC ++ (' ' :: '个' :: r)) := by
  unfold mMarker at h
  split at h
  · rename_i hp
    split at h
    · rename_i hcond
      obtain ⟨t, ht⟩ := List.isPrefixOf_iff_prefix.mp hp
      have hs : s = '共' :: ' ' :: t := by
        rw [← ht]
        rfl
      have hdrop : s.drop 2 = t := by
        rw [hs]
        rfl
      obtain ⟨w, hw⟩ := List.isPrefixOf_iff_prefix.mp hcond.2
      have hr : r = w := by
        have : r = ((s.drop 2).dropWhile isDigitC).drop 2 := by
          cases h
          rfl
        rw [this, ← hw]
        rfl
      have hu : (s.drop 2).dropWhile isDigitC = ' ' :: '个' :: r := by
        rw [← hw, hr]
        rfl
      conv_lhs => rw [hs]
      rw [← List.takeWhile_append_dropWhile isDigitC t, ← hdrop, hu]
    · exact absurd h (by simp)
  · exact absurd h (by simp)

/-- The marker substitution preserves the number of heading matches. -/
theorem countH3_subMarker (n : Nat) (s : List Char) :
    countH3 (subMarker n s) = countH3 s := by
  have hgen : ∀ k (s : List Char), s.length ≤ k → ∀ a,
      countH3 (a ++ subMarker n s) = countH3 (a ++ s) := by
    intro k
    induction k with
    | zero =>
      intro s hs a
      have : s = [] := List.eq_nil_of_length_eq_zero (Nat.le_zero.mp hs)
      rw [this]
      rfl
    | succ k ih =>
      intro s hs a
      cases s with
      | nil => rfl
      | cons c cs =>
        cases hm : mMarker (c :: cs) with
        | none =>
          rw [subMarker_miss hm]
          have h1 : a ++ (c :: subMarker n cs) = (a ++ [c]) ++ subMarker n cs := by simp
          have h2 : a ++ (c :: cs) = (a ++ [c]) ++ cs := by simp
          rw [h1, h2]
          exact ih cs (by simpa using hs) (a ++ [c])
        | some p =>
          obtain ⟨v, r⟩ := p
          have hrlen : r.length ≤ k := by
            have := mMarker_shrinks _ _ _ hm
            simp at this hs
            omega
          have hdec := mMarker_decomp hm
          -- digit facts for the matched run
          have hdsdig : ∀ x ∈ ((c :: cs).drop 2).takeWhile isDigitC, isDigitC x = true :=
            fun x hx => List.mem_takeWhile_imp hx
          rw [subMarker_hit hm]
          have hU' : slit "共 " ++ natLit n ++ slit " 个" =
              '共' :: ' ' :: (natLit n ++ (' ' :: '个' :: [])) := by
            simp only [List.append_assoc]
            rfl
          rw [hU']
          have h1 : a ++ ('共' :: ' ' :: (natLit n ++ (' ' :: '个' :: [])) ++ subMarker n r) =
              (a ++ ('共' :: ' ' :: (natLit n ++ (' ' :: '个' :: [])))) ++ subMarker n r := by
            simp
          have h2 : (a ++ ('共' :: ' ' :: (natLit n ++ (' ' :: '个' :: [])))) ++ r =
              a ++ (('共' :: ' ' :: (natLit n ++ (' ' :: '个' :: []))) ++ r) := by
            simp
          rw [h1, ih r hrlen _, h2]
          have hswap := countH3_swap
            ('共' :: ' ' :: (natLit n ++ (' ' :: '个' :: [])))
            ('共' :: ' ' :: (((c :: cs).drop 2).takeWhile isDigitC ++ (' ' :: '个' :: [])))
            rfl rfl
            (by
              intro x hx
              simp only [List.mem_cons, List.mem_append] at hx
              rcases hx with rfl | rfl | hx | hx
              · exact (by decide)
              · exact (by decide)
              · exact digit_safe (natLit_digits n x hx)
              · rcases hx with rfl | hx
                · exact (by decide)
                · simp at hx
                  rw [hx]
                  exact (by decide))
            (by
              intro x hx
              simp only [List.mem_cons, List.mem_append] at hx
              rcases hx with rfl | rfl | hx | hx
              · exact (by decide)
              · exact (by decide)
              · exact digit_safe (hdsdig x hx)
              · rcases hx with rfl | hx
                · exact (by decide)
                · simp at hx
                  rw [hx]
                  exact (by decide))
            a r
          rw [hswap]
          have h3 : ('共' :: ' ' :: (((c :: cs).drop 2).takeWhile isDigitC ++
              (' ' :: '个' :: []))) ++ r =
              '共' :: ' ' :: (((c :: cs).drop 2).takeWhile isDigitC ++ (' ' :: '个' :: r)) := by
            simp
          rw [h3, ← hdec]
  have := hgen s.length s (Nat.le_refl _) []
  simpa using this

/-- **C2**: after `write_html` (i.e. after `update_plugin_count` rewrote the
document), every numeric value in a count marker `共 N 个` equals the number
of `<h3 id="...">` occurrences in the written document, regardless of the
marker's prior value. -/
theorem c2_count_marker_recomputed (s : List Char) (v : Nat)
    (hv : v ∈ markerValues (update_plugin_count s)) :
    v = countH3 (update_plugin_count s) := by
  unfold update_plugin_count at hv ⊢
  rw [markerValues_subMarker] at hv
  obtain ⟨w, _, hw⟩ := List.mem_map.mp hv
  rw [countH3_subMarker, ← hw]

/-- Concrete instance of C2: a stale marker value 2 is rewritten to the
actual count 3 (the spec scenario). -/
theorem c2_count_marker_recomputed_witness :
    (3 : Nat) = countH3 (update_plugin_count
      (slit "共 2 个 <h3 id=\"a\">x</h3><h3 id=\"b\">y</h3><h3 id=\"c\">z</h3>")) :=
  c2_count_marker_recomputed _ 3 (by decide)

end ManagePlugins

namespace ManagePlugins

/-!
## The code-point order on names
-/

theorem char_toNat_inj {a b : Char} (h : a.toNat = b.toNat) : a = b := by
  have h2 : a.val.toNat = b.val.toNat := h
  exact Char.ext (UInt32.toNat.inj h2)

theorem lexLtB_irrefl (a : List Char) : lexLtB a a = false := by
  induction a with
  | nil => rfl
  | cons c t ih => simp [lexLtB, ih]

theorem lexLtB_cons_iff (x y : Char) (as bs : List Char) :
    lexLtB (x :: as) (y :: bs) = true ↔
      x.toNat < y.toNat ∨ (x = y ∧ lexLtB as bs = true) := by
  simp only [lexLtB]
  rcases Nat.lt_trichotomy x.toNat y.toNat with h | h | h
  · rw [if_pos h]
    simp [h]
  · rw [if_neg (by omega), if_neg (by omega)]
    have hxy : x = y := char_toNat_inj h
    simp [hxy]
  · rw [if_neg (by omega), if_pos h]
    constructor
    · intro hh
      exact absurd hh (by simp)
    · intro hh
      rcases hh with hh | hh
      · omega
      · have := congrArg Char.toNat hh.1
        omega

theorem lexLtB_not_both : ∀ a b, lexLtB a b = true → lexLtB b a = true → False := by
  intro a
  induction a with
  | nil =>
    intro b h1 h2
    cases b with
    | nil => simp [lexLtB] at h1
    | cons d bs => simp [lexLtB] at h2
  | cons c as ih =>
    intro b h1 h2
    cases b with
    | nil => simp [lexLtB] at h1
    | cons d bs =>
      rw [lexLtB_cons_iff] at h1 h2
      rcases h1 with h1 | h1 <;> rcases h2 with h2 | h2
      · omega
      · have := congrArg Char.toNat h2.1
        omega
      · have := congrArg Char.toNat h1.1
        omega
      · exact ih bs h1.2 h2.2

theorem lexLtB_asymm {a b : List Char} (h : lexLtB a b = true) : lexLtB b a = false := by
  cases hba : lexLtB b a with
  | false => rfl
  | true => exact absurd (lexLtB_not_both a b h hba) (by simp)

theorem lexLtB_antisymm : ∀ a b, lexLtB a b = false → lexLtB b a = false → a = b := by
  intro a
  induction a with
  | nil =>
    intro b h1 h2
    cases b with
    | nil => rfl
    | cons d bs => simp [lexLtB] at h1
  | cons c as ih =>
    intro b h1 h2
    cases b with
    | nil => simp [lexLtB] at h2
    | cons d bs =>
      have hP : ¬ (c.toNat < d.toNat ∨ (c = d ∧ lexLtB as bs = true)) := by
        rw [← lexLtB_cons_iff]
        simp [h1]
      have hQ : ¬ (d.toNat < c.toNat ∨ (d = c ∧ lexLtB bs as = true)) := by
        rw [← lexLtB_cons_iff]
        simp [h2]
      push_neg at hP hQ
      have hcd : c = d := char_toNat_inj (by omega)
      have has : lexLtB as bs = false := by
        cases hx : lexLtB as bs with
        | false => rfl
        | true => exact absurd hx (hP.2 hcd)
      have hbs : lexLtB bs as = false := by
        cases hx : lexLtB bs as with
        | false => rfl
        | true => exact absurd hx (hQ.2 hcd.symm)
      rw [hcd, ih bs has hbs]

theorem lexLtB_trans : ∀ a b c, lexLtB a b = true → lexLtB b c = true →
    lexLtB a c = true := by
  intro a
  induction a with
  | nil =>
    intro b c h1 h2
    cases b with
    | nil => simp [lexLtB] at h1
    | cons d bs =>
      cases c with
      | nil => simp [lexLtB] at h2
      | cons e cs => rfl
  | cons x as ih =>
    intro b c h1 h2
    cases b with
    | nil => simp [lexLtB] at h1
    | cons y bs =>
      cases c with
      | nil => simp [lexLtB] at h2
      | cons z cs =>
        rw [lexLtB_cons_iff] at h1 h2 ⊢
        rcases h1 with h1 | h1 <;> rcases h2 with h2 | h2
        · left
          omega
        · have := congrArg Char.toNat h2.1
          left
          omega
        · have := congrArg Char.toNat h1.1
          left
          omega
        · right
          exact ⟨h1.1.trans h2.1, ih bs cs h1.2 h2.2⟩

theorem lexLtB_total (a b : List Char) :
    lexLtB a b = true ∨ lexLtB b a = true ∨ a = b := by
  cases hab : lexLtB a b with
  | true => exact Or.inl rfl
  | false =>
    cases hba : lexLtB b a with
    | true => exact Or.inr (Or.inl rfl)
    | false => exact Or.inr (Or.inr (lexLtB_antisymm a b hab hba))

theorem lexLtB_of_ne {a b : List Char} (h1 : lexLtB b a = false) (h2 : a ≠ b) :
    lexLtB a b = true := by
  cases hab : lexLtB a b with
  | true => rfl
  | false => exact absurd (lexLtB_antisymm a b hab h1) h2

instance nameLeTotal : IsTotal (List Char) nameLe := by
  constructor
  intro a b
  cases hba : lexLtB b a with
  | false => exact Or.inl hba
  | true => exact Or.inr (lexLtB_asymm hba)

instance nameLeTrans : IsTrans (List Char) nameLe := by
  constructor
  intro a b c h1 h2
  show lexLtB c a = false
  cases hca : lexLtB c a with
  | false => rfl
  | true =>
    have h1' : lexLtB b a = false := h1
    have h2' : lexLtB c b = false := h2
    rcases lexLtB_total a b with h | h | h
    · exact absurd (lexLtB_trans c a b hca h) (by simp [h2'])
    · exact absurd h (by simp [h1'])
    · rw [← h] at h2'
      exact absurd hca (by simp [h2'])

instance nameLeAntisymm : IsAntisymm (List Char) nameLe := by
  constructor
  intro a b h1 h2
  exact lexLtB_antisymm a b h2 h1

/-!
## Sorted sets of names
-/

theorem strictSorted_nodup {l : List (List Char)} (h : StrictSorted l) : l.Nodup := by
  apply h.imp
  intro a b hab heq
  rw [heq] at hab
  exact absurd hab (by simp [lexLtB_irrefl])

theorem strictSorted_sorted {l : List (List Char)} (h : StrictSorted l) :
    List.Sorted nameLe l := by
  apply h.imp
  intro a b hab
  exact lexLtB_asymm hab

theorem strictSorted_of_sorted_nodup {l : List (List Char)}
    (hs : List.Sorted nameLe l) (hn : l.Nodup) : StrictSorted l := by
  apply (List.Pairwise.and hs hn).imp
  intro a b hab
  exact lexLtB_of_ne hab.1 hab.2

theorem sortNames_eq_self {l : List (List Char)} (h : StrictSorted l) :
    sortNames l = l :=
  List.Sorted.insertionSort_eq (strictSorted_sorted h)

theorem sortedSetNames_strictSorted (l : List (List Char)) :
    StrictSorted (sortedSetNames l) := by
  apply strictSorted_of_sorted_nodup
  · exact List.sorted_insertionSort nameLe l.dedup
  · exact (List.perm_insertionSort nameLe l.dedup).nodup_iff.mpr (List.nodup_dedup l)

theorem mem_sortedSetNames (a : List Char) (l : List (List Char)) :
    a ∈ sortedSetNames l ↔ a ∈ l :=
  ((List.perm_insertionSort nameLe l.dedup).mem_iff).trans List.mem_dedup

theorem strictSorted_eq {l₁ l₂ : List (List Char)} (h1 : StrictSorted l₁)
    (h2 : StrictSorted l₂) (hm : ∀ a, a ∈ l₁ ↔ a ∈ l₂) : l₁ = l₂ :=
  List.eq_of_perm_of_sorted
    ((List.perm_ext_iff_of_nodup (strictSorted_nodup h1) (strictSorted_nodup h2)).mpr hm)
    (strictSorted_sorted h1) (strictSorted_sorted h2)

end ManagePlugins

namespace ManagePlugins

theorem dropWhile_head_false_gen {A : Type} {p : A → Bool} {l : List A} {c : A}
    (h : (l.dropWhile p).head? = some c) : p c = false := by
  induction l with
  | nil => simp at h
  | cons a t ih =>
    by_cases ha : p a
    · rw [List.dropWhile_cons, if_pos ha] at h
      exact ih h
    · rw [List.dropWhile_cons, if_neg ha] at h
      simp at h
      rw [← h]
      exact Bool.of_not_eq_true ha

theorem findIdx_append_false {A : Type} (p : A → Bool) (l₁ l₂ : List A)
    (h : ∀ a ∈ l₁, p a = false) :
    List.findIdx p (l₁ ++ l₂) = l₁.length + List.findIdx p l₂ := by
  induction l₁ with
  | nil => simp
  | cons a t ih =>
    rw [List.cons_append, List.findIdx_cons, h a (by simp), cond_false,
      ih fun x hx => h x (by simp [hx])]
    simp only [List.length_cons]
    omega

theorem sortedSetNames_insert (names : List (List Char)) (n : List Char)
    (hs : StrictSorted names) (hn : n ∉ names) :
    sortedSetNames (sortNames names ++ [n]) =
      (names.takeWhile fun m => lexLtB m n) ++
        n :: (names.dropWhile fun m => lexLtB m n) := by
  have hAB : (names.takeWhile fun m => lexLtB m n) ++
      (names.dropWhile fun m => lexLtB m n) = names :=
    List.takeWhile_append_dropWhile _ _
  have hpp : List.Pairwise (fun a b => lexLtB a b = true)
      ((names.takeWhile fun m => lexLtB m n) ++ (names.dropWhile fun m => lexLtB m n)) := by
    rw [hAB]
    exact hs
  rw [List.pairwise_append] at hpp
  have hAlt : ∀ a ∈ names.takeWhile fun m => lexLtB m n, lexLtB a n = true := by
    intro a ha
    have h2 := List.mem_takeWhile_imp ha
    exact h2
  have hBmem : ∀ b ∈ names.dropWhile fun m => lexLtB m n, b ∈ names := by
    intro b hb
    rw [← hAB]
    exact List.mem_append_right _ hb
  have hBgt : ∀ b ∈ names.dropWhile fun m => lexLtB m n, lexLtB n b = true := by
    intro b hb
    cases hD : names.dropWhile fun m => lexLtB m n with
    | nil => rw [hD] at hb; simp at hb
    | cons b0 bt =>
      have hD2 : (names.dropWhile fun m => lexLtB m n).head? = some b0 := by
        rw [hD]
        rfl
      have hb0 : lexLtB b0 n = false := by
        have h3 := dropWhile_head_false_gen hD2
        exact h3
      have hb0n : n ≠ b0 := by
        intro he
        apply hn
        rw [he]
        exact hBmem b0 (by rw [hD]; simp)
      have hnb0 : lexLtB n b0 = true := lexLtB_of_ne hb0 hb0n
      rw [hD] at hb
      rcases List.mem_cons.mp hb with hb | hb
      · rw [hb]
        exact hnb0
      · have hlt : lexLtB b0 b = true := by
          have := hpp.2.1
          rw [hD] at this
          exact (List.pairwise_cons.mp this).1 b hb
        exact lexLtB_trans n b0 b hnb0 hlt
  apply strictSorted_eq (sortedSetNames_strictSorted _)
  · show List.Pairwise (fun a b => lexLtB a b = true) _
    rw [List.pairwise_append]
    refine ⟨hpp.1, ?_, ?_⟩
    · rw [List.pairwise_cons]
      exact ⟨hBgt, hpp.2.1⟩
    · intro a ha b hb
      rcases List.mem_cons.mp hb with hb | hb
      · rw [hb]
        exact hAlt a ha
      · exact hpp.2.2 a ha b hb
  · intro a
    rw [mem_sortedSetNames, sortNames_eq_self hs]
    constructor
    · intro h
      rcases List.mem_append.mp h with h | h
      · rw [← hAB] at h
        rcases List.mem_append.mp h with h | h
        · exact List.mem_append_left _ h
        · exact List.mem_append_right _ (List.mem_cons_of_mem n h)
      · simp only [List.mem_singleton] at h
        rw [h]
        exact List.mem_append_right _ (List.mem_cons_self n _)
    · intro h
      rcases List.mem_append.mp h with h | h
      · apply List.mem_append_left
        rw [← hAB]
        exact List.mem_append_left _ h
      · rcases List.mem_cons.mp h with h | h
        · rw [h]
          exact List.mem_append_right _ (by simp)
        · apply List.mem_append_left
          rw [← hAB]
          exact List.mem_append_right _ h

theorem strictSorted_ne_of_mem {l : List (List Char)} {a n : List Char}
    (ha : a ∈ l) (hn : n ∉ l) : (a == n) = false := by
  rw [beq_eq_false_iff_ne]
  intro he
  rw [he] at ha
  exact hn ha

theorem idxOfName_insert (names : List (List Char)) (n : List Char)
    (hn : n ∉ names) :
    idxOfName n ((names.takeWhile fun m => lexLtB m n) ++
        n :: (names.dropWhile fun m => lexLtB m n)) =
      (names.takeWhile fun m => lexLtB m n).length := by
  unfold idxOfName
  rw [findIdx_append_false]
  · rw [List.findIdx_cons]
    simp
  · intro a ha
    apply strictSorted_ne_of_mem _ hn
    rw [← List.takeWhile_append_dropWhile (fun m => lexLtB m n) names]
    exact List.mem_append_left _ ha

end ManagePlugins

namespace ManagePlugins

/-!
## Pattern-start exclusion: from the decidable `litClearB` check to the
scanner-level `ClearB` conditions
-/

theorem litClearB_spec {pat X : List Char} (h : litClearB pat X = true) :
    ∀ x y, X = x ++ y → y ≠ [] → ∀ Z, pat.isPrefixOf (y ++ Z) = false := by
  intro x y hxy hy Z
  have hyt : y ∈ X.tails := (List.mem_tails y X).mpr ⟨x, hxy.symm⟩
  unfold litClearB at h
  rw [List.all_eq_true] at h
  have h2 := h y hyt
  rw [Bool.or_eq_true] at h2
  rcases h2 with h2 | h2
  · exact absurd (List.isEmpty_iff.mp h2) hy
  · rw [Bool.and_eq_true] at h2
    cases hpy : pat.isPrefixOf (y ++ Z) with
    | false => rfl
    | true =>
      exfalso
      have hpy2 : pat <+: y ++ Z := List.isPrefixOf_iff_prefix.mp hpy
      rcases Nat.le_total pat.length y.length with hl | hl
      · have h3 : pat.isPrefixOf y = true := by
          rw [← prefix_of_append_of_le pat y hl Z]
          exact hpy
        rw [h3] at h2
        simp at h2
      · have h3 : y <+: pat :=
          List.prefix_of_prefix_length_le (List.prefix_append y Z) hpy2 hl
        have h4 : y.isPrefixOf pat = true := List.isPrefixOf_iff_prefix.mpr h3
        rw [h4] at h2
        simp at h2

/-- A matcher that can fire only where `pat` is a prefix never fires
inside a `litClearB`-checked segment. -/
theorem clearB_req {α : Type} {tm : List Char → Option (α × List Char)}
    {pat : List Char} (hreq : ∀ s q, tm s = some q → pat.isPrefixOf s = true)
    {X : List Char} (hX : litClearB pat X = true) (Y : List Char) :
    ClearB tm X Y := by
  intro x y hxy hy
  cases htm : tm (y ++ Y) with
  | none => rfl
  | some q =>
    have h1 := hreq _ _ htm
    have h2 := litClearB_spec hX x y hxy hy Y
    rw [h1] at h2
    exact absurd h2 (by simp)

/-- A matcher that can fire only where `pat` is a prefix after skipping
whitespace never fires inside a `litClearB`-checked segment whose
continuation also does not start the pattern after its whitespace. -/
theorem clearB_wsreq {α : Type} {tm : List Char → Option (α × List Char)}
    {pat : List Char}
    (hreq : ∀ s q, tm s = some q → pat.isPrefixOf (s.dropWhile isWs) = true)
    {X Y : List Char} (hX : litClearB pat X = true)
    (hY : pat.isPrefixOf (Y.dropWhile isWs) = false) : ClearB tm X Y := by
  intro x y hxy hy
  cases htm : tm (y ++ Y) with
  | none => rfl
  | some q =>
    exfalso
    have h1 := hreq _ _ htm
    rw [List.dropWhile_append] at h1
    by_cases hyw : (y.dropWhile isWs).isEmpty
    · rw [if_pos hyw] at h1
      rw [h1] at hY
      simp at hY
    · rw [if_neg hyw] at h1
      obtain ⟨x2, hx2⟩ := List.dropWhile_suffix (l := y) isWs
      have hyy : X = (x ++ x2) ++ y.dropWhile isWs :=
        calc X = x ++ y := hxy
        _ = x ++ (x2 ++ y.dropWhile isWs) := by rw [hx2]
        _ = (x ++ x2) ++ y.dropWhile isWs := by rw [List.append_assoc]
      have h2 := litClearB_spec hX (x ++ x2) (y.dropWhile isWs) hyy
        (by simpa using hyw) Y
      rw [h1] at h2
      exact absurd h2 (by simp)

/-!
## What each matcher requires at its start
-/

theorem mH3_req (s : List Char) (q : List Char × List Char) (h : mH3 s = some q) :
    (slit "<h3 id=\"").isPrefixOf s = true := by
  unfold mH3 at h
  by_cases hp : (slit "<h3 id=\"").isPrefixOf s
  · exact hp
  · rw [if_neg hp] at h
    exact absurd h (by simp)

theorem mLink_req (s : List Char) (q : List Char × List Char) (h : mLink s = some q) :
    (slit "<a href=\"#").isPrefixOf s = true := by
  unfold mLink at h
  by_cases hp : (slit "<a href=\"#").isPrefixOf s
  · exact hp
  · rw [if_neg hp] at h
    exact absurd h (by simp)

theorem mMarker_req (s : List Char) (q : Nat × List Char) (h : mMarker s = some q) :
    (slit "共 ").isPrefixOf s = true := by
  unfold mMarker at h
  by_cases hp : (slit "共 ").isPrefixOf s
  · exact hp
  · rw [if_neg hp] at h
    exact absurd h (by simp)

theorem mTocBlock_req (s : List Char) (q : List Char × List Char)
    (h : mTocBlock s = some q) : tocOpen.isPrefixOf s = true := by
  unfold mTocBlock at h
  by_cases hp : tocOpen.isPrefixOf s
  · exact hp
  · rw [if_neg hp] at h
    exact absurd h (by simp)

theorem mHrArticle_req (s : List Char) (q : Unit × List Char)
    (h : mHrArticle s = some q) : (slit "<hr>").isPrefixOf s = true := by
  unfold mHrArticle at h
  by_cases hp : (slit "<hr>").isPrefixOf s
  · exact hp
  · rw [if_neg hp] at h
    exact absurd h (by simp)

theorem tryLit_req (pat : List Char) (s : List Char) (q : Unit × List Char)
    (h : tryLit pat s = some q) : pat.isPrefixOf s = true := by
  unfold tryLit at h
  by_cases hp : pat.isPrefixOf s
  · exact hp
  · rw [if_neg hp] at h
    exact absurd h (by simp)

theorem tryLit_req_of_prefix {pat pat2 : List Char}
    (hpp : pat.isPrefixOf pat2 = true) (s : List Char) (q : Unit × List Char)
    (h : tryLit pat2 s = some q) : pat.isPrefixOf s = true := by
  have h2 := tryLit_req pat2 s q h
  rw [List.isPrefixOf_iff_prefix] at *
  exact hpp.trans h2

theorem mEditBlock_req (n : List Char) (s : List Char) (q : List Char × List Char)
    (h : mEditBlock n s = some q) : (h3full n).isPrefixOf s = true := by
  unfold mEditBlock at h
  by_cases hp : (h3full n).isPrefixOf s
  · exact hp
  · rw [if_neg hp] at h
    exact absurd h (by simp)

theorem mEditBlock_req8 (n : List Char) (s : List Char) (q : List Char × List Char)
    (h : mEditBlock n s = some q) : (slit "<h3 id=\"").isPrefixOf s = true := by
  have h2 := mEditBlock_req n s q h
  rw [List.isPrefixOf_iff_prefix] at *
  exact List.IsPrefix.trans ⟨n ++ slit "\">" ++ n ++ slit "</h3>", by
    simp [h3full, slit, List.append_assoc]⟩ h2

theorem mDelLink_req (n : List Char) (s : List Char) (q : Unit × List Char)
    (h : mDelLink n s = some q) :
    (slit "<a href=\"#").isPrefixOf (s.dropWhile isWs) = true := by
  unfold mDelLink at h
  by_cases hp : (linkFull n).isPrefixOf (s.dropWhile isWs)
  · rw [List.isPrefixOf_iff_prefix] at hp ⊢
    exact List.IsPrefix.trans ⟨n ++ slit "\">" ++ n ++ slit "</a>", by
      simp [linkFull, slit, List.append_assoc]⟩ hp
  · rw [if_neg hp] at h
    exact absurd h (by simp)

theorem mDelBlock_req (n : List Char) (s : List Char) (q : Unit × List Char)
    (h : mDelBlock n s = some q) :
    (slit "<h3 id=\"").isPrefixOf (s.dropWhile isWs) = true := by
  unfold mDelBlock at h
  cases hm : mEditBlock n (s.dropWhile isWs) with
  | none =>
    rw [hm] at h
    exact absurd h (by simp)
  | some pr => exact mEditBlock_req8 n _ pr hm

end ManagePlugins

namespace ManagePlugins

/-!
## Plain names
-/

theorem plain_facts {c : Char} (h : plainCharB c = true) :
    c ≠ '"' ∧ c ≠ '<' ∧ c ≠ '>' ∧ c ≠ '/' ∧ c ≠ '共' ∧ isWs c = false := by
  refine ⟨?_, ?_, ?_, ?_, ?_, ?_⟩
  · intro he
    rw [he] at h
    exact absurd h (by decide)
  · intro he
    rw [he] at h
    exact absurd h (by decide)
  · intro he
    rw [he] at h
    exact absurd h (by decide)
  · intro he
    rw [he] at h
    exact absurd h (by decide)
  · intro he
    rw [he] at h
    exact absurd h (by decide)
  · cases hw : isWs c with
    | false => rfl
    | true =>
      exfalso
      unfold isWs at hw
      simp only [Bool.or_eq_true, beq_iff_eq] at hw
      rcases hw with ((((h1 | h1) | h1) | h1) | h1) | h1 <;>
        (rw [h1] at h; exact absurd h (by decide))

theorem nameOk_unpack {n : List Char} (h : NameOkB n = true) :
    n ≠ [] ∧ ∀ c ∈ n, plainCharB c = true := by
  unfold NameOkB at h
  rw [Bool.and_eq_true, List.all_eq_true] at h
  refine ⟨?_, h.2⟩
  intro he
  rw [he] at h
  exact absurd h.1 (by decide)

theorem nameOk_no_quote {n : List Char} (h : NameOkB n = true) :
    ∀ c ∈ n, c ≠ '"' :=
  fun c hc => (plain_facts ((nameOk_unpack h).2 c hc)).1

/-!
## Identifying name-carrying pattern starts
-/

theorem name_quote_prefix {n m R S : List Char} (hn : ∀ c ∈ n, c ≠ '"')
    (hm : ∀ c ∈ m, c ≠ '"')
    (h : (n ++ '"' :: R).isPrefixOf (m ++ '"' :: S) = true) : n = m := by
  induction n generalizing m with
  | nil =>
    cases m with
    | nil => rfl
    | cons b m2 =>
      rw [List.nil_append] at h
      have hb := head_eq_of_isPrefixOf
        (show ('"' :: R).isPrefixOf (b :: (m2 ++ '"' :: S)) = true from h)
      exact absurd hb.symm (hm b (by simp))
  | cons a n2 ih =>
    cases m with
    | nil =>
      rw [List.nil_append] at h
      have ha := head_eq_of_isPrefixOf
        (show (a :: (n2 ++ '"' :: R)).isPrefixOf ('"' :: S) = true from h)
      exact absurd ha (hn a (by simp))
    | cons b m2 =>
      have h2 : ((a :: (n2 ++ '"' :: R)).isPrefixOf (b :: (m2 ++ '"' :: S))) = true := h
      rw [isPrefixOf_cons₂, Bool.and_eq_true] at h2
      have hab : a = b := beq_iff_eq.mp h2.1
      rw [hab, ih (fun c hc => hn c (by simp [hc]))
        (fun c hc => hm c (by simp [hc])) h2.2]

theorem strip_common {P A B : List Char} (h : (P ++ A).isPrefixOf (P ++ B) = true) :
    A.isPrefixOf B = true := by
  rw [List.isPrefixOf_iff_prefix] at *
  exact (List.prefix_append_right_inj P).mp h

theorem h3full_ra (n X : List Char) :
    h3full n ++ X =
      slit "<h3 id=\"" ++ (n ++ ('"' :: ('>' :: (n ++ (slit "</h3>" ++ X))))) := by
  unfold h3full
  simp only [List.append_assoc]
  rfl

theorem h3open_ra (n X : List Char) :
    h3open n ++ X = slit "<h3 id=\"" ++ (n ++ ('"' :: ('>' :: X))) := by
  unfold h3open
  simp only [List.append_assoc]
  rfl

theorem linkFull_ra (n X : List Char) :
    linkFull n ++ X =
      slit "<a href=\"#" ++ (n ++ ('"' :: ('>' :: (n ++ (slit "</a>" ++ X))))) := by
  unfold linkFull
  simp only [List.append_assoc]
  rfl

theorem h3open_prefix_name {m n V : List Char} (hm : ∀ c ∈ m, c ≠ '"')
    (hn : ∀ c ∈ n, c ≠ '"')
    (h : (h3open m).isPrefixOf (h3full n ++ V) = true) : m = n := by
  rw [← List.append_nil (h3open m), h3open_ra, h3full_ra] at h
  exact name_quote_prefix hm hn (strip_common h)

theorem h3full_prefix_name {m n V : List Char} (hm : ∀ c ∈ m, c ≠ '"')
    (hn : ∀ c ∈ n, c ≠ '"')
    (h : (h3full m).isPrefixOf (h3full n ++ V) = true) : m = n := by
  rw [← List.append_nil (h3full m), h3full_ra, h3full_ra] at h
  exact name_quote_prefix hm hn (strip_common h)

theorem linkFull_prefix_name {m n V : List Char} (hm : ∀ c ∈ m, c ≠ '"')
    (hn : ∀ c ∈ n, c ≠ '"')
    (h : (linkFull m).isPrefixOf (linkFull n ++ V) = true) : m = n := by
  rw [← List.append_nil (linkFull m), linkFull_ra, linkFull_ra] at h
  exact name_quote_prefix hm hn (strip_common h)

/-!
## Gates of the matchers
-/

theorem hasGate_of_req {α : Type} {tm : List Char → Option (α × List Char)}
    {p : Char} {pt : List Char}
    (hreq : ∀ s q, tm s = some q → ((p :: pt).isPrefixOf s) = true) :
    HasGate tm p := by
  intro s q h
  have h2 := hreq s q h
  cases s with
  | nil => simp [List.isPrefixOf] at h2
  | cons c cs =>
    have h3 := head_eq_of_isPrefixOf h2
    simp [h3]

theorem mLink_gate : HasGate mLink '<' :=
  hasGate_of_req fun s q h => mLink_req s q h

theorem mTocBlock_gate : HasGate mTocBlock '<' :=
  hasGate_of_req fun s q h => mTocBlock_req s q h

theorem mHrArticle_gate : HasGate mHrArticle '<' :=
  hasGate_of_req fun s q h => mHrArticle_req s q h

theorem mEditBlock_gate (n : List Char) : HasGate (mEditBlock n) '<' :=
  hasGate_of_req fun s q h => mEditBlock_req8 n s q h

/-- Plain names cannot start a `<`-gated match. -/
theorem clearB_plain {α : Type} {tm : List Char → Option (α × List Char)}
    (hg : HasGate tm '<') {n : List Char}
    (hn : ∀ c ∈ n, plainCharB c = true) (Y : List Char) : ClearB tm n Y :=
  clearB_gate hg (fun c hc => (plain_facts (hn c hc)).2.1) Y

end ManagePlugins

namespace ManagePlugins

/-!
## Where the mutation matchers fire and where they cannot
-/

theorem blockCore_ra (e : Entry) (X : List Char) :
    blockCore e ++ X =
      h3full e.name ++ (slit "\n<p>" ++ (e.content ++ (slit "</p>\n<hr>" ++ X))) := by
  unfold blockCore
  simp only [List.append_assoc]

theorem blockCore_ra2 (e : Entry) (X : List Char) :
    blockCore e ++ X =
      h3open e.name ++ (e.name ++ (slit "</h3>\n<p>" ++
        (e.content ++ (slit "</p>\n<hr>" ++ X)))) := by
  unfold blockCore h3full h3open
  simp only [List.append_assoc]
  rfl

theorem closeP_req (s : List Char) (q : Unit × List Char) (h : closeP s = some q) :
    (slit "</p>").isPrefixOf s = true := by
  unfold closeP at h
  by_cases hp : (slit "</p>").isPrefixOf s
  · exact hp
  · rw [if_neg hp] at h
    exact absurd h (by simp)

theorem closeDiv_req (s : List Char) (q : Unit × List Char) (h : closeDiv s = some q) :
    (slit "</div>").isPrefixOf s = true := by
  unfold closeDiv at h
  by_cases hp : (slit "</div>").isPrefixOf s
  · exact hp
  · rw [if_neg hp] at h
    exact absurd h (by simp)

theorem closeP_front {w : List Char} (Z : List Char) (hw : ∀ x ∈ w, isWs x = true) :
    closeP (slit "</p>" ++ (w ++ (slit "<hr>" ++ Z))) = some ((), Z) := by
  unfold closeP
  rw [if_pos (List.isPrefixOf_iff_prefix.mpr (List.prefix_append _ _))]
  rw [show (slit "</p>" ++ (w ++ (slit "<hr>" ++ Z))).drop 4 =
    w ++ (slit "<hr>" ++ Z) from rfl]
  rw [dropWhile_append_all _ hw]
  rw [show (slit "<hr>" ++ Z).dropWhile isWs = slit "<hr>" ++ Z from rfl]
  rw [if_pos (List.isPrefixOf_iff_prefix.mpr (List.prefix_append _ _))]
  rfl

theorem closeDiv_front {w : List Char} (Z : List Char) (hw : ∀ x ∈ w, isWs x = true) :
    closeDiv (slit "</div>" ++ (w ++ (slit "</div>" ++ Z))) = some ((), Z) := by
  unfold closeDiv
  rw [if_pos (List.isPrefixOf_iff_prefix.mpr (List.prefix_append _ _))]
  rw [show (slit "</div>" ++ (w ++ (slit "</div>" ++ Z))).drop 6 =
    w ++ (slit "</div>" ++ Z) from rfl]
  rw [dropWhile_append_all _ hw]
  rw [show (slit "</div>" ++ Z).dropWhile isWs = slit "</div>" ++ Z from rfl]
  rw [if_pos (List.isPrefixOf_iff_prefix.mpr (List.prefix_append _ _))]
  rfl

theorem findPClose_skip_some {X Y m r : List Char} (hX : ClearB closeP X Y)
    (hY : findPClose Y = some (m, r)) : findPClose (X ++ Y) = some (X ++ m, r) := by
  induction X with
  | nil => simpa using hY
  | cons c T ih =>
    have hc : closeP (c :: (T ++ Y)) = none := by
      have := hX [] (c :: T) rfl (by simp)
      simpa using this
    show findPClose (c :: (T ++ Y)) = _
    unfold findPClose
    rw [hc, ih fun x y hxy hy => hX (c :: x) y (by simp [hxy]) hy]
    rfl

theorem findDivClose_skip_some {X Y m r : List Char} (hX : ClearB closeDiv X Y)
    (hY : findDivClose Y = some (m, r)) :
    findDivClose (X ++ Y) = some (X ++ m, r) := by
  induction X with
  | nil => simpa using hY
  | cons c T ih =>
    have hc : closeDiv (c :: (T ++ Y)) = none := by
      have := hX [] (c :: T) rfl (by simp)
      simpa using this
    show findDivClose (c :: (T ++ Y)) = _
    unfold findDivClose
    rw [hc, ih fun x y hxy hy => hX (c :: x) y (by simp [hxy]) hy]
    rfl

theorem findPClose_front {w : List Char} (Z : List Char)
    (hw : ∀ x ∈ w, isWs x = true) :
    findPClose (slit "</p>" ++ (w ++ (slit "<hr>" ++ Z))) = some ([], Z) := by
  show findPClose ('<' :: (slit "/p>" ++ (w ++ (slit "<hr>" ++ Z)))) = some ([], Z)
  unfold findPClose
  rw [show ('<' :: (slit "/p>" ++ (w ++ (slit "<hr>" ++ Z)))) =
    slit "</p>" ++ (w ++ (slit "<hr>" ++ Z)) from rfl]
  rw [closeP_front Z hw]

theorem findDivClose_front {w : List Char} (Z : List Char)
    (hw : ∀ x ∈ w, isWs x = true) :
    findDivClose (slit "</div>" ++ (w ++ (slit "</div>" ++ Z))) = some ([], Z) := by
  show findDivClose ('<' :: (slit "/div>" ++ (w ++ (slit "</div>" ++ Z)))) = some ([], Z)
  unfold findDivClose
  rw [show ('<' :: (slit "/div>" ++ (w ++ (slit "</div>" ++ Z)))) =
    slit "</div>" ++ (w ++ (slit "</div>" ++ Z)) from rfl]
  rw [closeDiv_front Z hw]

theorem mEditBlock_at {n c : List Char}
    (hcp : litClearB (slit "</p>") c = true) (Z : List Char) :
    mEditBlock n (blockCore ⟨n, c⟩ ++ Z) = some (c, Z) := by
  unfold mEditBlock
  rw [blockCore_ra]
  rw [if_pos (List.isPrefixOf_iff_prefix.mpr (List.prefix_append _ _))]
  rw [List.drop_left]
  rw [show (slit "\n<p>" ++ (c ++ (slit "</p>\n<hr>" ++ Z))).dropWhile isWs =
    slit "<p>" ++ (c ++ (slit "</p>\n<hr>" ++ Z)) from rfl]
  rw [if_pos (List.isPrefixOf_iff_prefix.mpr (List.prefix_append _ _))]
  rw [show (slit "<p>" ++ (c ++ (slit "</p>\n<hr>" ++ Z))).drop 3 =
    c ++ (slit "</p>\n<hr>" ++ Z) from rfl]
  rw [show (slit "</p>\n<hr>" ++ Z) =
    slit "</p>" ++ (slit "\n" ++ (slit "<hr>" ++ Z)) from rfl]
  rw [findPClose_skip_some (clearB_req closeP_req hcp _)
    (findPClose_front Z (by decide))]
  rw [List.append_nil]

theorem mEditBlock_ne {m n : List Char} (hm : ∀ x ∈ m, x ≠ '"')
    (hn : ∀ x ∈ n, x ≠ '"') (hne : m ≠ n) (c Z : List Char) :
    mEditBlock m (blockCore ⟨n, c⟩ ++ Z) = none := by
  unfold mEditBlock
  rw [if_neg]
  intro hp
  rw [blockCore_ra] at hp
  exact hne (h3full_prefix_name hm hn hp)

theorem tryLit_h3open_ne {m n : List Char} (hm : ∀ x ∈ m, x ≠ '"')
    (hn : ∀ x ∈ n, x ≠ '"') (hne : m ≠ n) (c Z : List Char) :
    tryLit (h3open m) (blockCore ⟨n, c⟩ ++ Z) = none := by
  unfold tryLit
  rw [if_neg]
  intro hp
  rw [blockCore_ra] at hp
  exact hne (h3open_prefix_name hm hn hp)

theorem tryLit_h3open_at (m c Z : List Char) :
    tryLit (h3open m) (blockCore ⟨m, c⟩ ++ Z) =
      some ((), m ++ (slit "</h3>\n<p>" ++ (c ++ (slit "</p>\n<hr>" ++ Z)))) := by
  rw [blockCore_ra2]
  exact tryLit_hit _ _

theorem mDelLink_at {n pad : List Char} (hpad : ∀ x ∈ pad, isWs x = true)
    (Z : List Char) :
    mDelLink n (pad ++ (linkFull n ++ Z)) = some ((), Z) := by
  unfold mDelLink
  have h1 : (pad ++ (linkFull n ++ Z)).dropWhile isWs = linkFull n ++ Z := by
    rw [dropWhile_append_all _ hpad, linkFull_ra]
    rfl
  rw [h1, if_pos (List.isPrefixOf_iff_prefix.mpr (List.prefix_append _ _)),
    List.drop_left]

theorem mDelLink_ne {m n pad : List Char} (hm : ∀ x ∈ m, x ≠ '"')
    (hn : ∀ x ∈ n, x ≠ '"') (hne : m ≠ n) (hpad : ∀ x ∈ pad, isWs x = true)
    (Z : List Char) :
    mDelLink m (pad ++ (linkFull n ++ Z)) = none := by
  unfold mDelLink
  have h1 : (pad ++ (linkFull n ++ Z)).dropWhile isWs = linkFull n ++ Z := by
    rw [dropWhile_append_all _ hpad, linkFull_ra]
    rfl
  rw [h1, if_neg]
  intro hp
  exact hne (linkFull_prefix_name hm hn hp)

theorem mDelBlock_at {n c sep : List Char} (hsep : ∀ x ∈ sep, isWs x = true)
    (hcp : litClearB (slit "</p>") c = true) (Z : List Char) :
    mDelBlock n (sep ++ (blockCore ⟨n, c⟩ ++ Z)) = some ((), Z) := by
  unfold mDelBlock
  have h1 : (sep ++ (blockCore ⟨n, c⟩ ++ Z)).dropWhile isWs =
      blockCore ⟨n, c⟩ ++ Z := by
    rw [dropWhile_append_all _ hsep, blockCore_ra]
    rfl
  rw [h1, mEditBlock_at hcp Z]

theorem mDelBlock_ne {m n c sep : List Char} (hm : ∀ x ∈ m, x ≠ '"')
    (hn : ∀ x ∈ n, x ≠ '"') (hne : m ≠ n) (hsep : ∀ x ∈ sep, isWs x = true)
    (Z : List Char) :
    mDelBlock m (sep ++ (blockCore ⟨n, c⟩ ++ Z)) = none := by
  unfold mDelBlock
  have h1 : (sep ++ (blockCore ⟨n, c⟩ ++ Z)).dropWhile isWs =
      blockCore ⟨n, c⟩ ++ Z := by
    rw [dropWhile_append_all _ hsep, blockCore_ra]
    rfl
  rw [h1, mEditBlock_ne hm hn hne c Z]

theorem mHrArticle_at {w : List Char} (Z : List Char)
    (hw : ∀ x ∈ w, isWs x = true) (hnl : w.contains '\n' = true) :
    mHrArticle (slit "<hr>" ++ (w ++ (slit "</article>" ++ Z))) = some ((), Z) := by
  unfold mHrArticle
  rw [if_pos (List.isPrefixOf_iff_prefix.mpr (List.prefix_append _ _))]
  rw [show (slit "<hr>" ++ (w ++ (slit "</article>" ++ Z))).drop 4 =
    w ++ (slit "</article>" ++ Z) from rfl]
  have h2 : (w ++ (slit "</article>" ++ Z)).takeWhile isWs = w := by
    rw [takeWhile_append_all _ hw,
      show (slit "</article>" ++ Z).takeWhile isWs = [] from rfl, List.append_nil]
  have h3 : (w ++ (slit "</article>" ++ Z)).dropWhile isWs =
      slit "</article>" ++ Z := by
    rw [dropWhile_append_all _ hw]
    rfl
  rw [h2, h3,
    if_pos (And.intro hnl (List.isPrefixOf_iff_prefix.mpr (List.prefix_append _ _)))]
  rfl

theorem mHrArticle_miss {w R : List Char} (hw : ∀ x ∈ w, isWs x = true)
    (hR : (slit "</article>").isPrefixOf (R.dropWhile isWs) = false) :
    mHrArticle (slit "<hr>" ++ (w ++ R)) = none := by
  unfold mHrArticle
  rw [if_pos (List.isPrefixOf_iff_prefix.mpr (List.prefix_append _ _))]
  rw [show (slit "<hr>" ++ (w ++ R)).drop 4 = w ++ R from rfl]
  rw [if_neg]
  intro hcon
  have h2 := hcon.2
  rw [dropWhile_append_all _ hw, hR] at h2
  simp at h2

end ManagePlugins

namespace ManagePlugins

/-!
## The mutation matchers consume text
-/

theorem closeP_len {s : List Char} {q : Unit × List Char} (h : closeP s = some q) :
    q.2.length + 8 ≤ s.length := by
  unfold closeP at h
  by_cases p1 : (slit "</p>").isPrefixOf s
  · rw [if_pos p1] at h
    by_cases p2 : (slit "<hr>").isPrefixOf ((s.drop 4).dropWhile isWs)
    · rw [if_pos p2] at h
      injection h with h2
      have hq : q.2 = ((s.drop 4).dropWhile isWs).drop 4 := by
        rw [← h2]
      have l1 := (List.isPrefixOf_iff_prefix.mp p1).length_le
      have l2 := (List.isPrefixOf_iff_prefix.mp p2).length_le
      have l3 := (List.dropWhile_suffix (l := s.drop 4) isWs).length_le
      have l4 : (s.drop 4).length = s.length - 4 := List.length_drop 4 s
      have l5 : (slit "</p>").length = 4 := rfl
      have l6 : (slit "<hr>").length = 4 := rfl
      rw [hq, List.length_drop]
      omega
    · rw [if_neg p2] at h
      exact absurd h (by simp)
  · rw [if_neg p1] at h
    exact absurd h (by simp)

theorem closeDiv_len {s : List Char} {q : Unit × List Char} (h : closeDiv s = some q) :
    q.2.length + 12 ≤ s.length := by
  unfold closeDiv at h
  by_cases p1 : (slit "</div>").isPrefixOf s
  · rw [if_pos p1] at h
    by_cases p2 : (slit "</div>").isPrefixOf ((s.drop 6).dropWhile isWs)
    · rw [if_pos p2] at h
      injection h with h2
      have hq : q.2 = ((s.drop 6).dropWhile isWs).drop 6 := by
        rw [← h2]
      have l1 := (List.isPrefixOf_iff_prefix.mp p1).length_le
      have l2 := (List.isPrefixOf_iff_prefix.mp p2).length_le
      have l3 := (List.dropWhile_suffix (l := s.drop 6) isWs).length_le
      have l4 : (s.drop 6).length = s.length - 6 := List.length_drop 6 s
      have l5 : (slit "</div>").length = 6 := rfl
      rw [hq, List.length_drop]
      omega
    · rw [if_neg p2] at h
      exact absurd h (by simp)
  · rw [if_neg p1] at h
    exact absurd h (by simp)

theorem findPClose_len : ∀ (l m r : List Char), findPClose l = some (m, r) →
    r.length + 8 ≤ l.length := by
  intro l
  induction l with
  | nil =>
    intro m r h
    simp [findPClose] at h
  | cons c cs ih =>
    intro m r h
    unfold findPClose at h
    cases hc : closeP (c :: cs) with
    | some pr =>
      rw [hc] at h
      injection h with h2
      injection h2 with h3 h4
      have := closeP_len hc
      rw [h4] at this
      exact this
    | none =>
      rw [hc] at h
      cases hf : findPClose cs with
      | none =>
        rw [hf] at h
        exact absurd h (by simp)
      | some pr =>
        rw [hf] at h
        injection h with h2
        injection h2 with h3 h4
        have := ih pr.1 pr.2 (by rw [hf])
        rw [h4] at this
        simp only [List.length_cons]
        omega

theorem findDivClose_len : ∀ (l m r : List Char), findDivClose l = some (m, r) →
    r.length + 12 ≤ l.length := by
  intro l
  induction l with
  | nil =>
    intro m r h
    simp [findDivClose] at h
  | cons c cs ih =>
    intro m r h
    unfold findDivClose at h
    cases hc : closeDiv (c :: cs) with
    | some pr =>
      rw [hc] at h
      injection h with h2
      injection h2 with h3 h4
      have := closeDiv_len hc
      rw [h4] at this
      exact this
    | none =>
      rw [hc] at h
      cases hf : findDivClose cs with
      | none =>
        rw [hf] at h
        exact absurd h (by simp)
      | some pr =>
        rw [hf] at h
        injection h with h2
        injection h2 with h3 h4
        have := ih pr.1 pr.2 (by rw [hf])
        rw [h4] at this
        simp only [List.length_cons]
        omega

theorem mEditBlock_shrinks (n : List Char) : Shrinks (mEditBlock n) := by
  intro s a r h
  unfold mEditBlock at h
  by_cases p1 : (h3full n).isPrefixOf s
  · rw [if_pos p1] at h
    by_cases p2 : (slit "<p>").isPrefixOf ((s.drop (h3full n).length).dropWhile isWs)
    · rw [if_pos p2] at h
      have l0 := findPClose_len _ _ _ h
      have l1 := (List.dropWhile_suffix (l := s.drop (h3full n).length) isWs).length_le
      have l2 : (s.drop (h3full n).length).length = s.length - (h3full n).length :=
        List.length_drop _ s
      rw [List.length_drop] at l0
      omega
    · rw [if_neg p2] at h
      exact absurd h (by simp)
  · rw [if_neg p1] at h
    exact absurd h (by simp)

theorem mDelBlock_shrinks (n : List Char) : Shrinks (mDelBlock n) := by
  intro s a r h
  unfold mDelBlock at h
  cases hm : mEditBlock n (s.dropWhile isWs) with
  | none =>
    rw [hm] at h
    exact absurd h (by simp)
  | some pr =>
    rw [hm] at h
    injection h with h2
    injection h2 with h3 h4
    have l0 := mEditBlock_shrinks n _ _ _ hm
    have l1 := (List.dropWhile_suffix (l := s) isWs).length_le
    rw [h4] at l0
    omega

theorem mDelLink_shrinks (n : List Char) : Shrinks (mDelLink n) := by
  intro s a r h
  unfold mDelLink at h
  by_cases p1 : (linkFull n).isPrefixOf (s.dropWhile isWs)
  · rw [if_pos p1] at h
    injection h with h2
    injection h2 with h3 h4
    have l1 := (List.isPrefixOf_iff_prefix.mp p1).length_le
    have l2 := (List.dropWhile_suffix (l := s) isWs).length_le
    have l3 : (linkFull n).length = n.length + n.length + 16 := by
      unfold linkFull
      simp only [List.length_append]
      rw [show (slit "<a href=\"#").length = 10 from rfl,
        show (slit "\">").length = 2 from rfl,
        show (slit "</a>").length = 4 from rfl]
      omega
    rw [← h4, List.length_drop]
    omega
  · rw [if_neg p1] at h
    exact absurd h (by simp)

theorem mTocBlock_shrinks : Shrinks mTocBlock := by
  intro s a r h
  unfold mTocBlock at h
  by_cases p1 : tocOpen.isPrefixOf s
  · rw [if_pos p1] at h
    have l0 := findDivClose_len _ _ _ h
    rw [List.length_drop] at l0
    omega
  · rw [if_neg p1] at h
    exact absurd h (by simp)

theorem mHrArticle_shrinks : Shrinks mHrArticle := by
  intro s a r h
  unfold mHrArticle at h
  by_cases p1 : (slit "<hr>").isPrefixOf s
  · rw [if_pos p1] at h
    by_cases p2 : ((s.drop 4).takeWhile isWs).contains '\n' ∧
        (slit "</article>").isPrefixOf ((s.drop 4).dropWhile isWs)
    · rw [if_pos p2] at h
      injection h with h2
      injection h2 with h3 h4
      have l1 := (List.isPrefixOf_iff_prefix.mp p1).length_le
      have l2 := (List.isPrefixOf_iff_prefix.mp p2.2).length_le
      have l3 := (List.dropWhile_suffix (l := s.drop 4) isWs).length_le
      have l4 : (s.drop 4).length = s.length - 4 := List.length_drop 4 s
      have l5 : (slit "<hr>").length = 4 := rfl
      have l6 : (slit "</article>").length = 10 := rfl
      rw [← h4, List.length_drop]
      omega
    · rw [if_neg p2] at h
      exact absurd h (by simp)
  · rw [if_neg p1] at h
    exact absurd h (by simp)

end ManagePlugins

namespace ManagePlugins

/-!
## `NoStart`: a pattern cannot begin at any position of a region
-/

theorem noStart_nil {pat Y : List Char} : NoStart pat [] Y := by
  intro x y hxy hy
  exact absurd (List.append_eq_nil.mp hxy.symm).2 hy

theorem noStart_append {pat A B Y : List Char} (hA : NoStart pat A (B ++ Y))
    (hB : NoStart pat B Y) : NoStart pat (A ++ B) Y := by
  intro x y hxy hy
  rcases List.append_eq_append_iff.mp hxy.symm with ⟨w, hw1, hw2⟩ | ⟨w, hw1, hw2⟩
  · cases w with
    | nil =>
      simp only [List.nil_append] at hw2
      subst hw2
      exact hB [] y rfl hy
    | cons d w2 =>
      have := hA x (d :: w2) hw1 (by simp)
      rw [hw2, List.append_assoc]
      exact this
  · exact hB w y hw2 hy

theorem noStart_cons {pat : List Char} {c : Char} {T Y : List Char}
    (h0 : pat.isPrefixOf (c :: (T ++ Y)) = false) (hT : NoStart pat T Y) :
    NoStart pat (c :: T) Y := by
  intro x y hxy hy
  match x, hxy with
  | [], hxy =>
    have h2 : c :: T = y := by simpa using hxy
    rw [← h2]
    exact h0
  | a :: x2, hxy =>
    have h2 : T = x2 ++ y := by
      have h3 : c = a ∧ T = x2 ++ y := by simpa using hxy
      exact h3.2
    exact hT x2 y h2 hy

/-- Lift a short-pattern exclusion to any longer pattern. -/
theorem noStart_of_litClear {pat pat2 X : List Char}
    (hpp : pat2.isPrefixOf pat = true) (hX : litClearB pat2 X = true)
    (Y : List Char) : NoStart pat X Y := by
  intro x y hxy hy
  cases hp : pat.isPrefixOf (y ++ Y) with
  | false => rfl
  | true =>
    have h2 : pat2.isPrefixOf (y ++ Y) = true := by
      rw [List.isPrefixOf_iff_prefix] at hpp hp ⊢
      exact hpp.trans hp
    rw [litClearB_spec hX x y hxy hy Y] at h2
    exact absurd h2 (by simp)

/-- A region not containing the pattern's first character. -/
theorem noStart_no_head {c : Char} {p2 X : List Char} (hX : ∀ a ∈ X, a ≠ c)
    (Y : List Char) : NoStart (c :: p2) X Y := by
  intro x y hxy hy
  match y, hy with
  | a :: y2, _ =>
    have ha : a ∈ X := by
      rw [hxy]
      exact List.mem_append_right x (by simp)
    cases hp : (c :: p2).isPrefixOf (a :: (y2 ++ Y)) with
    | false => exact hp
    | true => exact absurd (head_eq_of_isPrefixOf hp) (hX a ha).symm

/-- A matcher requiring `pat` at its start never fires inside a
`NoStart` region. -/
theorem clearB_of_noStart {α : Type} {tm : List Char → Option (α × List Char)}
    {pat : List Char} (hreq : ∀ s q, tm s = some q → pat.isPrefixOf s = true)
    {X Y : List Char} (hN : NoStart pat X Y) : ClearB tm X Y := by
  intro x y hxy hy
  cases htm : tm (y ++ Y) with
  | none => rfl
  | some q =>
    have h1 := hreq _ _ htm
    rw [hN x y hxy hy] at h1
    exact absurd h1 (by simp)

/-- A matcher requiring `pat` after leading whitespace never fires
inside a `NoStart` region whose continuation is also clean. -/
theorem clearB_ws_of_noStart {α : Type} {tm : List Char → Option (α × List Char)}
    {pat : List Char}
    (hreq : ∀ s q, tm s = some q → pat.isPrefixOf (s.dropWhile isWs) = true)
    {X Y : List Char} (hN : NoStart pat X Y)
    (hY : pat.isPrefixOf (Y.dropWhile isWs) = false) : ClearB tm X Y := by
  intro x y hxy hy
  cases htm : tm (y ++ Y) with
  | none => rfl
  | some q =>
    exfalso
    have h1 := hreq _ _ htm
    rw [List.dropWhile_append] at h1
    by_cases hyw : (y.dropWhile isWs).isEmpty
    · rw [if_pos hyw] at h1
      rw [h1] at hY
      simp at hY
    · rw [if_neg hyw] at h1
      obtain ⟨x2, hx2⟩ := List.dropWhile_suffix (l := y) isWs
      have hyy : X = (x ++ x2) ++ y.dropWhile isWs :=
        calc X = x ++ y := hxy
        _ = x ++ (x2 ++ y.dropWhile isWs) := by rw [hx2]
        _ = (x ++ x2) ++ y.dropWhile isWs := by rw [List.append_assoc]
      have h2 := hN (x ++ x2) (y.dropWhile isWs) hyy (by simpa using hyw)
      rw [h2] at h1
      exact absurd h1 (by simp)

/-!
## Full-literal requirements of the whitespace-skipping matchers
-/

theorem mDelLink_reqF (n : List Char) (s : List Char) (q : Unit × List Char)
    (h : mDelLink n s = some q) :
    (linkFull n).isPrefixOf (s.dropWhile isWs) = true := by
  unfold mDelLink at h
  by_cases hp : (linkFull n).isPrefixOf (s.dropWhile isWs)
  · exact hp
  · rw [if_neg hp] at h
    exact absurd h (by simp)

theorem mDelBlock_reqF (n : List Char) (s : List Char) (q : Unit × List Char)
    (h : mDelBlock n s = some q) :
    (h3full n).isPrefixOf (s.dropWhile isWs) = true := by
  unfold mDelBlock at h
  cases hm : mEditBlock n (s.dropWhile isWs) with
  | none =>
    rw [hm] at h
    exact absurd h (by simp)
  | some pr => exact mEditBlock_req n _ pr hm

/-!
## Boolean name-mismatch facts
-/

theorem linkFull_not_prefix {m n V : List Char} (hm : ∀ c ∈ m, c ≠ '"')
    (hn : ∀ c ∈ n, c ≠ '"') (hne : m ≠ n) :
    (linkFull m).isPrefixOf (linkFull n ++ V) = false := by
  cases hp : (linkFull m).isPrefixOf (linkFull n ++ V) with
  | false => rfl
  | true => exact absurd (linkFull_prefix_name hm hn hp) hne

theorem h3full_not_prefix {m n V : List Char} (hm : ∀ c ∈ m, c ≠ '"')
    (hn : ∀ c ∈ n, c ≠ '"') (hne : m ≠ n) :
    (h3full m).isPrefixOf (h3full n ++ V) = false := by
  cases hp : (h3full m).isPrefixOf (h3full n ++ V) with
  | false => rfl
  | true => exact absurd (h3full_prefix_name hm hn hp) hne

theorem h3open_not_prefix {m n V : List Char} (hm : ∀ c ∈ m, c ≠ '"')
    (hn : ∀ c ∈ n, c ≠ '"') (hne : m ≠ n) :
    (h3open m).isPrefixOf (h3full n ++ V) = false := by
  cases hp : (h3open m).isPrefixOf (h3full n ++ V) with
  | false => rfl
  | true => exact absurd (h3open_prefix_name hm hn hp) hne

/-!
## Unpacking the segment condition
-/

theorem segOk_unpack {x : List Char} (h : SegOkB x = true) :
    litClearB (slit "<h3 id=\"") x = true ∧
    litClearB (slit "<a href=\"#") x = true ∧
    litClearB tocOpen x = true ∧
    litClearB (slit "<hr>") x = true ∧
    litClearB (slit "</p>") x = true ∧
    litClearB (slit "共 ") x = true := by
  unfold SegOkB at h
  simp only [Bool.and_eq_true] at h
  exact ⟨h.1.1.1.1.1, h.1.1.1.1.2, h.1.1.1.2, h.1.1.2, h.1.2, h.2⟩

end ManagePlugins

namespace ManagePlugins

/-!
## Region shapes and the atomic exclusions
-/

theorem blockCore_ra8 (e : Entry) (X : List Char) :
    blockCore e ++ X =
      slit "<h3 id=\"" ++ (e.name ++ ('"' :: ('>' :: (e.name ++
        (slit "</h3>\n<p>" ++ (e.content ++ (slit "</p>\n<hr>" ++ X))))))) := by
  unfold blockCore h3full
  simp only [List.append_assoc]
  rfl

theorem linkFull_unfold (n : List Char) :
    linkFull n = slit "<a href=\"#" ++ (n ++ (slit "\">" ++ (n ++ slit "</a>"))) := by
  unfold linkFull
  simp only [List.append_assoc]

theorem marker_unfold (k : Nat) :
    marker k = slit "共 " ++ (natLit k ++ slit " 个") := by
  unfold marker
  simp only [List.append_assoc]

theorem ws_ne_of {X : List Char} (h : ∀ a ∈ X, isWs a = true) {c : Char}
    (hc : isWs c = false) : ∀ a ∈ X, a ≠ c := by
  intro a ha he
  rw [he] at ha
  have h2 := h c ha
  rw [hc] at h2
  exact absurd h2 (by simp)

theorem noStart_ws {c : Char} {pr X : List Char} (hX : ∀ a ∈ X, isWs a = true)
    (hc : isWs c = false) (Y : List Char) : NoStart (c :: pr) X Y :=
  noStart_no_head (ws_ne_of hX hc) Y

theorem plain_ne_of {n : List Char} (hn : ∀ a ∈ n, plainCharB a = true) {c : Char}
    (hc : c = '<' ∨ c = '共') : ∀ a ∈ n, a ≠ c := by
  intro a ha he
  rcases hc with h | h
  · exact (plain_facts (hn a ha)).2.1 (he.trans h)
  · exact (plain_facts (hn a ha)).2.2.2.2.1 (he.trans h)

theorem noStart_name {c : Char} {pr n : List Char}
    (hn : ∀ a ∈ n, plainCharB a = true) (hc : c = '<' ∨ c = '共') (Y : List Char) :
    NoStart (c :: pr) n Y :=
  noStart_no_head (plain_ne_of hn hc) Y

theorem marker_no_lt (k : Nat) : ∀ c ∈ marker k, c ≠ '<' := by
  intro c hc
  unfold marker at hc
  rcases List.mem_append.mp hc with h | h
  · rcases List.mem_append.mp h with h2 | h2
    · intro he
      rw [he] at h2
      exact absurd h2 (by decide)
    · have := natLit_digits k c h2
      exact (digit_safe this).1
  · intro he
    rw [he] at h
    exact absurd h (by decide)

theorem noStart_marker {pr : List Char} (k : Nat) (Y : List Char) :
    NoStart ('<' :: pr) (marker k) Y :=
  noStart_no_head (marker_no_lt k) Y

theorem noStart_linkFull {c : Char} {pr pat2 : List Char}
    (hpp : pat2.isPrefixOf (c :: pr) = true)
    (h1 : litClearB pat2 (slit "<a href=\"#") = true)
    (h2 : litClearB pat2 (slit "\">") = true)
    (h3 : litClearB pat2 (slit "</a>") = true)
    (hc : c = '<' ∨ c = '共')
    {n : List Char} (hn : ∀ a ∈ n, plainCharB a = true) (Y : List Char) :
    NoStart (c :: pr) (linkFull n) Y := by
  rw [linkFull_unfold]
  apply noStart_append (noStart_of_litClear hpp h1 _)
  apply noStart_append (noStart_name hn hc _)
  apply noStart_append (noStart_of_litClear hpp h2 _)
  apply noStart_append (noStart_name hn hc _)
  exact noStart_of_litClear hpp h3 _

theorem noStart_blockCore {c : Char} {pr pat2 : List Char} {e : Entry}
    (hpp : pat2.isPrefixOf (c :: pr) = true)
    (hc : c = '<' ∨ c = '共') {Y : List Char}
    (hfst : (c :: pr).isPrefixOf (blockCore e ++ Y) = false)
    (h45 : litClearB pat2 (slit "</h3>\n<p>") = true)
    (h78 : litClearB pat2 (slit "</p>\n<hr>") = true)
    (hcon : litClearB pat2 e.content = true)
    (hn : ∀ a ∈ e.name, plainCharB a = true) :
    NoStart (c :: pr) (blockCore e) Y := by
  have hA : ∀ a ∈ slit "h3 id=\"", a ≠ c := by
    rcases hc with h | h <;> (rw [h]; decide)
  have hB : ∀ a ∈ slit "\">", a ≠ c := by
    rcases hc with h | h <;> (rw [h]; decide)
  have hT : NoStart (c :: pr)
      (slit "h3 id=\"" ++ (e.name ++ (slit "\">" ++ (e.name ++
        (slit "</h3>\n<p>" ++ (e.content ++ slit "</p>\n<hr>")))))) Y := by
    apply noStart_append (noStart_no_head hA _)
    apply noStart_append (noStart_name hn hc _)
    apply noStart_append (noStart_no_head hB _)
    apply noStart_append (noStart_name hn hc _)
    apply noStart_append (noStart_of_litClear hpp h45 _)
    apply noStart_append (noStart_of_litClear hpp hcon _)
    exact noStart_of_litClear hpp h78 _
  have hsh : blockCore e = '<' :: (slit "h3 id=\"" ++ (e.name ++ (slit "\">" ++
      (e.name ++ (slit "</h3>\n<p>" ++ (e.content ++ slit "</p>\n<hr>")))))) := by
    have h0 := blockCore_ra8 e []
    rw [List.append_nil] at h0
    rw [h0]
    rfl
  have hsh2 : blockCore e ++ Y = '<' :: ((slit "h3 id=\"" ++ (e.name ++ (slit "\">" ++
      (e.name ++ (slit "</h3>\n<p>" ++ (e.content ++ slit "</p>\n<hr>")))))) ++ Y) := by
    rw [hsh]
    rfl
  rw [hsh]
  apply noStart_cons _ hT
  rw [← hsh2]
  exact hfst

end ManagePlugins

namespace ManagePlugins

/-!
## Hits of the extraction matchers, and skipping for the
whitespace-skipping matchers
-/

theorem mH3_at {n : List Char} (hn : ∀ c ∈ n, c ≠ '"') (hne : n ≠ [])
    (Z : List Char) :
    mH3 (h3full n ++ Z) = some (n, n ++ (slit "</h3>" ++ Z)) := by
  unfold mH3
  rw [h3full_ra]
  rw [if_pos (List.isPrefixOf_iff_prefix.mpr (List.prefix_append _ _))]
  rw [show (slit "<h3 id=\"" ++ (n ++ ('"' :: ('>' :: (n ++ (slit "</h3>" ++ Z)))))).drop 8 =
    n ++ ('"' :: ('>' :: (n ++ (slit "</h3>" ++ Z)))) from rfl]
  have hp : ∀ c ∈ n, (fun x => decide (x ≠ '"')) c = true := fun c hc => by
    simp [hn c hc]
  have ht : (n ++ ('"' :: ('>' :: (n ++ (slit "</h3>" ++ Z))))).takeWhile
      (fun x => decide (x ≠ '"')) = n := by
    rw [takeWhile_append_all _ hp]
    rw [show ('"' :: ('>' :: (n ++ (slit "</h3>" ++ Z)))).takeWhile
      (fun x => decide (x ≠ '"')) = [] from rfl]
    rw [List.append_nil]
  have hw : (n ++ ('"' :: ('>' :: (n ++ (slit "</h3>" ++ Z))))).dropWhile
      (fun x => decide (x ≠ '"')) = '"' :: ('>' :: (n ++ (slit "</h3>" ++ Z))) := by
    rw [dropWhile_append_all _ hp]
    rfl
  rw [ht, hw]
  rw [if_pos (And.intro hne (show (slit "\">").isPrefixOf
    ('"' :: ('>' :: (n ++ (slit "</h3>" ++ Z)))) = true by
      simp [slit, List.isPrefixOf]))]
  rfl

theorem mLink_at {n : List Char} (hn : ∀ c ∈ n, c ≠ '"') (hne : n ≠ [])
    (Z : List Char) :
    mLink (linkFull n ++ Z) = some (n, n ++ (slit "</a>" ++ Z)) := by
  unfold mLink
  rw [linkFull_ra]
  rw [if_pos (List.isPrefixOf_iff_prefix.mpr (List.prefix_append _ _))]
  rw [show (slit "<a href=\"#" ++ (n ++ ('"' :: ('>' :: (n ++ (slit "</a>" ++ Z)))))).drop 10 =
    n ++ ('"' :: ('>' :: (n ++ (slit "</a>" ++ Z)))) from rfl]
  have hp : ∀ c ∈ n, (fun x => decide (x ≠ '"')) c = true := fun c hc => by
    simp [hn c hc]
  have ht : (n ++ ('"' :: ('>' :: (n ++ (slit "</a>" ++ Z))))).takeWhile
      (fun x => decide (x ≠ '"')) = n := by
    rw [takeWhile_append_all _ hp]
    rw [show ('"' :: ('>' :: (n ++ (slit "</a>" ++ Z)))).takeWhile
      (fun x => decide (x ≠ '"')) = [] from rfl]
    rw [List.append_nil]
  have hw : (n ++ ('"' :: ('>' :: (n ++ (slit "</a>" ++ Z))))).dropWhile
      (fun x => decide (x ≠ '"')) = '"' :: ('>' :: (n ++ (slit "</a>" ++ Z))) := by
    rw [dropWhile_append_all _ hp]
    rfl
  rw [ht, hw]
  rw [if_pos (And.intro hne (show (slit "\">").isPrefixOf
    ('"' :: ('>' :: (n ++ (slit "</a>" ++ Z)))) = true by
      simp [slit, List.isPrefixOf]))]
  rfl

/-- For a region ending in a non-whitespace character, the
whitespace-skip of any suffix position stays inside the region, so the
`NoStart` condition alone rules out matches. -/
theorem clearB_ws_last {α : Type} {tm : List Char → Option (α × List Char)}
    {pat : List Char}
    (hreq : ∀ s q, tm s = some q → pat.isPrefixOf (s.dropWhile isWs) = true)
    {X Y : List Char} (hN : NoStart pat X Y)
    (hlast : ∀ a, X.getLast? = some a → isWs a = false) : ClearB tm X Y := by
  intro x y hxy hy
  cases htm : tm (y ++ Y) with
  | none => rfl
  | some q =>
    exfalso
    have h1 := hreq _ _ htm
    rw [List.dropWhile_append] at h1
    by_cases hyw : (y.dropWhile isWs).isEmpty
    · have hally : ∀ a ∈ y, isWs a = true :=
        List.dropWhile_eq_nil_iff.mp (List.isEmpty_iff.mp hyw)
      match y, hy with
      | b :: y2, _ =>
        have hgl : X.getLast? = ((b :: y2).getLast?) := by
          rw [hxy]
          exact List.getLast?_append_of_ne_nil x (by simp)
        have hmem : (b :: y2).getLast (by simp) ∈ b :: y2 := List.getLast_mem _
        have hgl2 : (b :: y2).getLast? = some ((b :: y2).getLast (by simp)) :=
          List.getLast?_eq_getLast _ (by simp)
        have := hlast _ (by rw [hgl, hgl2])
        rw [hally _ hmem] at this
        exact absurd this (by simp)
    · rw [if_neg hyw] at h1
      obtain ⟨x2, hx2⟩ := List.dropWhile_suffix (l := y) isWs
      have hyy : X = (x ++ x2) ++ y.dropWhile isWs :=
        calc X = x ++ y := hxy
        _ = x ++ (x2 ++ y.dropWhile isWs) := by rw [hx2]
        _ = (x ++ x2) ++ y.dropWhile isWs := by rw [List.append_assoc]
      have h2 := hN (x ++ x2) (y.dropWhile isWs) hyy (by simpa using hyw)
      rw [h2] at h1
      exact absurd h1 (by simp)

end ManagePlugins

namespace ManagePlugins

/-!
## Walking the rendered document
-/

theorem render_eq (d : PluginDoc) :
    render d = d.pre ++ (marker d.count ++ (d.mid ++ (tocOpen ++ (tocBody d.toc ++
      (d.tocEnd ++ (slit "</div>" ++ (d.tocMid ++ (slit "</div>" ++ (d.mid2 ++
      (slit "<hr>" ++ (bodyBody d.body ++ (d.endSep ++ (slit "</article>" ++
      d.post))))))))))))) := by
  unfold render tocBody bodyBody marker
  simp only [List.append_assoc]

theorem slitH3_head : (slit "<h3 id=\"").head? = some '<' := by decide

theorem slitLink_head : (slit "<a href=\"#").head? = some '<' := by decide

theorem tocOpen_head : tocOpen.head? = some '<' := by decide

theorem slitHr_head : (slit "<hr>").head? = some '<' := by decide

theorem slitGong_head : (slit "共 ").head? = some '共' := by decide

theorem noStart_head_ne {pat X Y : List Char} {c : Char} (hp : pat.head? = some c)
    (hX : ∀ a ∈ X, a ≠ c) : NoStart pat X Y := by
  match pat, hp with
  | p0 :: pr, hp =>
    have h0 : p0 = c := by simpa using hp
    rw [h0]
    exact noStart_no_head hX Y

theorem noStart_ws2 {pat X Y : List Char} {c : Char} (hp : pat.head? = some c)
    (hc : isWs c = false) (hX : X.all isWs = true) : NoStart pat X Y :=
  noStart_head_ne hp (ws_ne_of (List.all_eq_true.mp hX) hc)

theorem noStart_name2 {pat n Y : List Char} {c : Char} (hp : pat.head? = some c)
    (hc : c = '<' ∨ c = '共') (hn : ∀ a ∈ n, plainCharB a = true) :
    NoStart pat n Y :=
  noStart_head_ne hp (plain_ne_of hn hc)

theorem noStart_marker2 {pat Y : List Char} (hp : pat.head? = some '<') (k : Nat) :
    NoStart pat (marker k) Y :=
  noStart_head_ne hp (marker_no_lt k)

theorem prefix_self (pat : List Char) : pat.isPrefixOf pat = true :=
  List.isPrefixOf_iff_prefix.mpr List.prefix_rfl

/-- The TOC link list does not contain an `<h3 id="`-style pattern start
(used for every pattern whose first eight characters are not a link
opening: the decidable piece facts are hypotheses). -/
theorem noStart_tocBody {pat pat2 : List Char} {c : Char}
    (hpp : pat2.isPrefixOf pat = true) (hp : pat.head? = some c)
    (hc : c = '<' ∨ c = '共')
    (l1 : litClearB pat2 (slit "<a href=\"#") = true)
    (l2 : litClearB pat2 (slit "\">") = true)
    (l3 : litClearB pat2 (slit "</a>") = true)
    {t : List (List Char × List Char)}
    (ht : ∀ pn ∈ t, pn.1.all isWs = true ∧ NameOkB pn.2 = true)
    (Y : List Char) : NoStart pat (tocBody t) Y := by
  induction t with
  | nil =>
    unfold tocBody
    simp only [List.map_nil, List.flatten_nil]
    exact noStart_nil
  | cons pn rest ih =>
    obtain ⟨hpad, hnm⟩ := ht pn (by simp)
    have hrest : NoStart pat (tocBody rest) Y :=
      ih fun q hq => ht q (by simp [hq])
    have hstep : tocBody (pn :: rest) = pn.1 ++ (linkFull pn.2 ++ tocBody rest) := by
      unfold tocBody
      simp [List.append_assoc]
    rw [hstep]
    apply noStart_append (noStart_ws2 hp (by rcases hc with h | h <;> (rw [h]; decide)) hpad)
    apply noStart_append _ hrest
    match pat, hp with
    | p0 :: pr, hp2 =>
      have h0 : p0 = c := by simpa using hp2
      subst h0
      exact noStart_linkFull hpp l1 l2 l3 hc (nameOk_unpack hnm).2 _
end ManagePlugins

namespace ManagePlugins

theorem wfW_of {d : PluginDoc} (hwf : WellFormed d) : WellFormedW d := by
  obtain ⟨hN, hS, hTB, hPads, hTE, hTM, hSeps, hCont, hES, hESn, hPre, hMid,
    hMid2, hPost⟩ := hwf
  exact ⟨hN, by rw [← hTB]; exact hN, hPads, hTE, hTM, hSeps, hCont, hES, hESn,
    hPre, hMid, hMid2, hPost⟩

theorem noStart_docPrefix {pat pat2 : List Char}
    (hpp : pat2.isPrefixOf pat = true) (hp : pat.head? = some '<')
    (hsel : ∀ x, SegOkB x = true → litClearB pat2 x = true)
    (lTO : litClearB pat2 tocOpen = true)
    (lDV : litClearB pat2 (slit "</div>") = true)
    (lHR : litClearB pat2 (slit "<hr>") = true)
    (l1 : litClearB pat2 (slit "<a href=\"#") = true)
    (l2 : litClearB pat2 (slit "\">") = true)
    (l3 : litClearB pat2 (slit "</a>") = true)
    {d : PluginDoc} (hwf : WellFormedW d) (Y : List Char) :
    NoStart pat (d.pre ++ (marker d.count ++ (d.mid ++ (tocOpen ++ (tocBody d.toc ++
      (d.tocEnd ++ (slit "</div>" ++ (d.tocMid ++ (slit "</div>" ++ (d.mid2 ++
      slit "<hr>")))))))))) Y := by
  obtain ⟨hN, hBN, hPads, hTE, hTM, hSeps, hCont, hES, hESn, hPre, hMid,
    hMid2, hPost⟩ := hwf
  have htoc : ∀ pn ∈ d.toc, pn.1.all isWs = true ∧ NameOkB pn.2 = true :=
    fun pn hpn => ⟨hPads pn hpn, hN pn.2 (List.mem_map_of_mem _ hpn)⟩
  apply noStart_append (noStart_of_litClear hpp (hsel _ hPre) _)
  apply noStart_append (noStart_marker2 hp _)
  apply noStart_append (noStart_of_litClear hpp (hsel _ hMid) _)
  apply noStart_append (noStart_of_litClear hpp lTO _)
  apply noStart_append (noStart_tocBody hpp hp (Or.inl rfl) l1 l2 l3 htoc _)
  apply noStart_append (noStart_ws2 hp (by decide) hTE)
  apply noStart_append (noStart_of_litClear hpp lDV _)
  apply noStart_append (noStart_ws2 hp (by decide) hTM)
  apply noStart_append (noStart_of_litClear hpp lDV _)
  apply noStart_append (noStart_of_litClear hpp (hsel _ hMid2) _)
  exact noStart_of_litClear hpp lHR _

theorem noStart_tail {pat pat2 : List Char} {c : Char}
    (hpp : pat2.isPrefixOf pat = true) (hp : pat.head? = some c)
    (hc : c = '<' ∨ c = '共')
    (hsel : ∀ x, SegOkB x = true → litClearB pat2 x = true)
    (lAR : litClearB pat2 (slit "</article>") = true)
    {es post : List Char} (hES : es.all isWs = true) (hPost : SegOkB post = true)
    (Y : List Char) :
    NoStart pat (es ++ (slit "</article>" ++ post)) Y := by
  apply noStart_append (noStart_ws2 hp
    (by rcases hc with h | h <;> (rw [h]; decide)) hES)
  apply noStart_append (noStart_of_litClear hpp lAR _)
  exact noStart_of_litClear hpp (hsel _ hPost) _

theorem collect_mH3_body {b : List (List Char × Entry)} {T : List Char}
    (hb : ∀ se ∈ b, se.1.all isWs = true ∧ SegOkB se.2.content = true ∧
      NameOkB se.2.name = true)
    (hT : genCollect mH3 T = []) :
    genCollect mH3 (bodyBody b ++ T) = b.map fun se => se.2.name := by
  induction b with
  | nil =>
    unfold bodyBody
    simpa using hT
  | cons se rest ih =>
    obtain ⟨hsep, hcon, hnm⟩ := hb se (by simp)
    obtain ⟨hnne, hnpl⟩ := nameOk_unpack hnm
    have hnq : ∀ x ∈ se.2.name, x ≠ '"' := fun x hx => (plain_facts (hnpl x hx)).1
    have hstep : bodyBody (se :: rest) ++ T =
        se.1 ++ (blockCore se.2 ++ (bodyBody rest ++ T)) := by
      unfold bodyBody
      simp [List.append_assoc]
    rw [hstep]
    rw [genCollect_skipC (clearB_of_noStart mH3_req
      (noStart_ws2 slitH3_head (by decide) hsep))]
    rw [blockCore_ra]
    rw [genCollect_hit mH3_shrinks (mH3_at hnq hnne _)]
    rw [genCollect_skipC (clearB_of_noStart mH3_req
      (noStart_name2 slitH3_head (Or.inl rfl) hnpl))]
    rw [show slit "</h3>" ++ (slit "\n<p>" ++ (se.2.content ++ (slit "</p>\n<hr>" ++
      (bodyBody rest ++ T)))) = slit "</h3>\n<p>" ++ (se.2.content ++
      (slit "</p>\n<hr>" ++ (bodyBody rest ++ T))) from rfl]
    rw [genCollect_skipC (clearB_of_noStart mH3_req
      (noStart_of_litClear (prefix_self _) (by decide) _))]
    rw [genCollect_skipC (clearB_of_noStart mH3_req
      (noStart_of_litClear (prefix_self _) (segOk_unpack hcon).1 _))]
    rw [genCollect_skipC (clearB_of_noStart mH3_req
      (noStart_of_litClear (prefix_self _) (by decide) _))]
    rw [ih fun q hq => hb q (by simp [hq])]
    simp

theorem findH3Ids_render {d : PluginDoc} (hwf : WellFormedW d) :
    findH3Ids (render d) = bodyNames d := by
  have hwf2 := hwf
  obtain ⟨hN, hBN, hPads, hTE, hTM, hSeps, hCont, hES, hESn, hPre, hMid,
    hMid2, hPost⟩ := hwf2
  have hsel : ∀ x, SegOkB x = true → litClearB (slit "<h3 id=\"") x = true :=
    fun x hx => (segOk_unpack hx).1
  unfold findH3Ids bodyNames
  rw [render_eq]
  rw [show d.pre ++ (marker d.count ++ (d.mid ++ (tocOpen ++ (tocBody d.toc ++
      (d.tocEnd ++ (slit "</div>" ++ (d.tocMid ++ (slit "</div>" ++ (d.mid2 ++
      (slit "<hr>" ++ (bodyBody d.body ++ (d.endSep ++ (slit "</article>" ++
      d.post))))))))))))) =
    (d.pre ++ (marker d.count ++ (d.mid ++ (tocOpen ++ (tocBody d.toc ++
      (d.tocEnd ++ (slit "</div>" ++ (d.tocMid ++ (slit "</div>" ++ (d.mid2 ++
      slit "<hr>")))))))))) ++
    (bodyBody d.body ++ (d.endSep ++ (slit "</article>" ++ d.post))) from by
    simp only [List.append_assoc]]
  rw [genCollect_skipC (clearB_of_noStart mH3_req
    (noStart_docPrefix (prefix_self _) slitH3_head hsel (by decide) (by decide)
      (by decide) (by decide) (by decide) (by decide) hwf _))]
  have hT : genCollect mH3 (d.endSep ++ (slit "</article>" ++ d.post)) = [] := by
    have h2 := @genCollect_skipC _ _ _ ([] : List Char)
      (clearB_of_noStart mH3_req
        (noStart_tail (prefix_self _) slitH3_head (Or.inl rfl) hsel (by decide)
          hES hPost []))
    rw [List.append_nil] at h2
    rw [h2]
    rfl
  rw [collect_mH3_body (fun se hse => ⟨hSeps se hse, hCont se hse,
    hBN se.2.name (List.mem_map_of_mem _ hse)⟩) hT]

theorem countH3_render {d : PluginDoc} (hwf : WellFormedW d) :
    countH3 (render d) = d.body.length := by
  show (genCollect mH3 (render d)).length = _
  have h2 : genCollect mH3 (render d) = bodyNames d := findH3Ids_render hwf
  rw [h2]
  unfold bodyNames
  rw [List.length_map]
end ManagePlugins

namespace ManagePlugins

theorem gong_vs_block (W : List Char) :
    (slit "共 ").isPrefixOf (slit "<h3 id=\"" ++ W) = false := by
  simp [slit, List.isPrefixOf]

theorem link_vs_block (W : List Char) :
    (slit "<a href=\"#").isPrefixOf (slit "<h3 id=\"" ++ W) = false := by
  simp [slit, List.isPrefixOf]

theorem hr_vs_block (W : List Char) :
    (slit "<hr>").isPrefixOf (slit "<h3 id=\"" ++ W) = false := by
  simp [slit, List.isPrefixOf]

theorem toco_vs_block (W : List Char) :
    tocOpen.isPrefixOf (slit "<h3 id=\"" ++ W) = false := by
  simp [tocOpen, slit, List.isPrefixOf]

theorem noStart_bodyBody {pat pat2 : List Char} {c : Char}
    (hpp : pat2.isPrefixOf pat = true) (hp : pat.head? = some c)
    (hc : c = '<' ∨ c = '共')
    (h45 : litClearB pat2 (slit "</h3>\n<p>") = true)
    (h78 : litClearB pat2 (slit "</p>\n<hr>") = true)
    {b : List (List Char × Entry)}
    (hb : ∀ se ∈ b, se.1.all isWs = true ∧ litClearB pat2 se.2.content = true ∧
      NameOkB se.2.name = true)
    (hfst : ∀ se ∈ b, ∀ V, pat.isPrefixOf (blockCore se.2 ++ V) = false)
    (Y : List Char) : NoStart pat (bodyBody b) Y := by
  induction b with
  | nil =>
    unfold bodyBody
    simp only [List.map_nil, List.flatten_nil]
    exact noStart_nil
  | cons se rest ih =>
    obtain ⟨hsep, hcon, hnm⟩ := hb se (by simp)
    have hrest : NoStart pat (bodyBody rest) Y :=
      ih (fun q hq => hb q (by simp [hq])) (fun q hq => hfst q (by simp [hq]))
    have hstep : bodyBody (se :: rest) = se.1 ++ (blockCore se.2 ++ bodyBody rest) := by
      unfold bodyBody
      simp [List.append_assoc]
    rw [hstep]
    apply noStart_append (noStart_ws2 hp
      (by rcases hc with h | h <;> (rw [h]; decide)) hsep)
    apply noStart_append _ hrest
    match pat, hp, hfst with
    | p0 :: pr, hp2, hfst =>
      have h0 : p0 = c := by simpa using hp2
      subst h0
      exact noStart_blockCore hpp hc (hfst se (by simp) _) h45 h78 hcon
        (nameOk_unpack hnm).2

theorem mLink_shrinks : Shrinks mLink := by
  intro s a r hm
  unfold mLink at hm
  split at hm
  · rename_i hp
    split at hm
    · rename_i hcond
      have hr : r = ((s.drop 10).dropWhile (· ≠ '"')).drop 2 := by
        cases hm
        rfl
      have hlen10 : 10 ≤ s.length := by
        have := (List.isPrefixOf_iff_prefix.mp hp).length_le
        simpa using this
      have h1 : (((s.drop 10).dropWhile (· ≠ '"')).drop 2).length ≤
          ((s.drop 10).dropWhile (· ≠ '"')).length := by
        simp
      have h2 : ((s.drop 10).dropWhile (· ≠ '"')).length ≤ (s.drop 10).length :=
        (List.dropWhile_sublist _).length_le
      have h3 : (s.drop 10).length = s.length - 10 := by simp
      rw [hr]
      omega
    · exact absurd hm (by simp)
  · exact absurd hm (by simp)

theorem collect_mLink_toc {t : List (List Char × List Char)} {T : List Char}
    (ht : ∀ pn ∈ t, pn.1.all isWs = true ∧ NameOkB pn.2 = true)
    (hT : genCollect mLink T = []) :
    genCollect mLink (tocBody t ++ T) = t.map fun pn => pn.2 := by
  induction t with
  | nil =>
    unfold tocBody
    simpa using hT
  | cons pn rest ih =>
    obtain ⟨hpad, hnm⟩ := ht pn (by simp)
    obtain ⟨hnne, hnpl⟩ := nameOk_unpack hnm
    have hnq : ∀ x ∈ pn.2, x ≠ '"' := fun x hx => (plain_facts (hnpl x hx)).1
    have hstep : tocBody (pn :: rest) ++ T =
        pn.1 ++ (linkFull pn.2 ++ (tocBody rest ++ T)) := by
      unfold tocBody
      simp [List.append_assoc]
    rw [hstep]
    rw [genCollect_skipC (clearB_of_noStart mLink_req
      (noStart_ws2 slitLink_head (by decide) hpad))]
    rw [genCollect_hit mLink_shrinks (mLink_at hnq hnne _)]
    rw [genCollect_skipC (clearB_of_noStart mLink_req
      (noStart_name2 slitLink_head (Or.inl rfl) hnpl))]
    rw [genCollect_skipC (clearB_of_noStart mLink_req
      (noStart_of_litClear (prefix_self _) (by decide) _))]
    rw [ih fun q hq => ht q (by simp [hq])]
    simp

end ManagePlugins

namespace ManagePlugins

theorem findLinkIds_render {d : PluginDoc} (hwf : WellFormedW d) :
    findLinkIds (render d) = tocNames d := by
  obtain ⟨hN, hBN, hPads, hTE, hTM, hSeps, hCont, hES, hESn, hPre, hMid,
    hMid2, hPost⟩ := hwf
  have hsel : ∀ x, SegOkB x = true → litClearB (slit "<a href=\"#") x = true :=
    fun x hx => (segOk_unpack hx).2.1
  have htoc : ∀ pn ∈ d.toc, pn.1.all isWs = true ∧ NameOkB pn.2 = true :=
    fun pn hpn => ⟨hPads pn hpn, hN pn.2 (List.mem_map_of_mem _ hpn)⟩
  unfold findLinkIds tocNames
  rw [render_eq]
  rw [show d.pre ++ (marker d.count ++ (d.mid ++ (tocOpen ++ (tocBody d.toc ++
      (d.tocEnd ++ (slit "</div>" ++ (d.tocMid ++ (slit "</div>" ++ (d.mid2 ++
      (slit "<hr>" ++ (bodyBody d.body ++ (d.endSep ++ (slit "</article>" ++
      d.post))))))))))))) =
    (d.pre ++ (marker d.count ++ (d.mid ++ tocOpen))) ++
    (tocBody d.toc ++
      (d.tocEnd ++ (slit "</div>" ++ (d.tocMid ++ (slit "</div>" ++ (d.mid2 ++
      (slit "<hr>" ++ (bodyBody d.body ++ (d.endSep ++ (slit "</article>" ++
      d.post)))))))))) from by
    simp only [List.append_assoc]]
  have hpfx : NoStart (slit "<a href=\"#")
      (d.pre ++ (marker d.count ++ (d.mid ++ tocOpen)))
      (tocBody d.toc ++
        (d.tocEnd ++ (slit "</div>" ++ (d.tocMid ++ (slit "</div>" ++ (d.mid2 ++
        (slit "<hr>" ++ (bodyBody d.body ++ (d.endSep ++ (slit "</article>" ++
        d.post)))))))))) := by
    apply noStart_append (noStart_of_litClear (prefix_self _) (hsel _ hPre) _)
    apply noStart_append (noStart_marker2 slitLink_head _)
    apply noStart_append (noStart_of_litClear (prefix_self _) (hsel _ hMid) _)
    exact noStart_of_litClear (prefix_self _) (by decide) _
  rw [genCollect_skipC (clearB_of_noStart mLink_req hpfx)]
  have hT : genCollect mLink
      (d.tocEnd ++ (slit "</div>" ++ (d.tocMid ++ (slit "</div>" ++ (d.mid2 ++
      (slit "<hr>" ++ (bodyBody d.body ++ (d.endSep ++ (slit "</article>" ++
      d.post))))))))) = [] := by
    have hful : NoStart (slit "<a href=\"#")
        (d.tocEnd ++ (slit "</div>" ++ (d.tocMid ++ (slit "</div>" ++ (d.mid2 ++
        (slit "<hr>" ++ (bodyBody d.body ++ (d.endSep ++ (slit "</article>" ++
        d.post))))))))) [] := by
      apply noStart_append (noStart_ws2 slitLink_head (by decide) hTE)
      apply noStart_append (noStart_of_litClear (prefix_self _) (by decide) _)
      apply noStart_append (noStart_ws2 slitLink_head (by decide) hTM)
      apply noStart_append (noStart_of_litClear (prefix_self _) (by decide) _)
      apply noStart_append (noStart_of_litClear (prefix_self _) (hsel _ hMid2) _)
      apply noStart_append (noStart_of_litClear (prefix_self _) (by decide) _)
      apply noStart_append (noStart_bodyBody (prefix_self _) slitLink_head
        (Or.inl rfl) (by decide) (by decide)
        (fun se hse => ⟨hSeps se hse, (segOk_unpack (hCont se hse)).2.1,
          hBN se.2.name (List.mem_map_of_mem _ hse)⟩)
        (fun se hse V => by
          rw [blockCore_ra8]
          exact link_vs_block _) _)
      exact noStart_tail (prefix_self _) slitLink_head (Or.inl rfl) hsel
        (by decide) hES hPost _
    have h2 := @genCollect_skipC _ _ _ ([] : List Char)
      (clearB_of_noStart mLink_req hful)
    rw [List.append_nil] at h2
    rw [h2]
    rfl
  rw [collect_mLink_toc htoc hT]

end ManagePlugins

namespace ManagePlugins

theorem mMarker_at (k : Nat) (Z : List Char) : mMarker (marker k ++ Z) = some (k, Z) := by
  have hsh : marker k ++ Z = '共' :: ' ' :: (natLit k ++ (' ' :: '个' :: Z)) := by
    unfold marker
    simp only [List.append_assoc]
    rfl
  rw [hsh]
  exact mMarker_hit k Z

theorem noStart_gongSuffix {d : PluginDoc} (hwf : WellFormedW d) (Y : List Char) :
    NoStart (slit "共 ") (d.mid ++ (tocOpen ++ (tocBody d.toc ++ (d.tocEnd ++
      (slit "</div>" ++ (d.tocMid ++ (slit "</div>" ++ (d.mid2 ++ (slit "<hr>" ++
      (bodyBody d.body ++ (d.endSep ++ (slit "</article>" ++ d.post)))))))))))) Y := by
  obtain ⟨hN, hBN, hPads, hTE, hTM, hSeps, hCont, hES, hESn, hPre, hMid,
    hMid2, hPost⟩ := hwf
  have hsel : ∀ x, SegOkB x = true → litClearB (slit "共 ") x = true :=
    fun x hx => (segOk_unpack hx).2.2.2.2.2
  have htoc : ∀ pn ∈ d.toc, pn.1.all isWs = true ∧ NameOkB pn.2 = true :=
    fun pn hpn => ⟨hPads pn hpn, hN pn.2 (List.mem_map_of_mem _ hpn)⟩
  apply noStart_append (noStart_of_litClear (prefix_self _) (hsel _ hMid) _)
  apply noStart_append (noStart_of_litClear (prefix_self _) (by decide) _)
  apply noStart_append (noStart_tocBody (prefix_self _) slitGong_head
    (Or.inr rfl) (by decide) (by decide) (by decide) htoc _)
  apply noStart_append (noStart_ws2 slitGong_head (by decide) hTE)
  apply noStart_append (noStart_of_litClear (prefix_self _) (by decide) _)
  apply noStart_append (noStart_ws2 slitGong_head (by decide) hTM)
  apply noStart_append (noStart_of_litClear (prefix_self _) (by decide) _)
  apply noStart_append (noStart_of_litClear (prefix_self _) (hsel _ hMid2) _)
  apply noStart_append (noStart_of_litClear (prefix_self _) (by decide) _)
  apply noStart_append (noStart_bodyBody (prefix_self _) slitGong_head
    (Or.inr rfl) (by decide) (by decide)
    (fun se hse => ⟨hSeps se hse, (segOk_unpack (hCont se hse)).2.2.2.2.2,
      hBN se.2.name (List.mem_map_of_mem _ hse)⟩)
    (fun se hse V => by
      rw [blockCore_ra8]
      exact gong_vs_block _) _)
  exact noStart_tail (prefix_self _) slitGong_head (Or.inr rfl) hsel
    (by decide) hES hPost _

theorem markerValues_render {d : PluginDoc} (hwf : WellFormedW d) :
    markerValues (render d) = [d.count] := by
  have hwf2 := hwf
  obtain ⟨hN, hBN, hPads, hTE, hTM, hSeps, hCont, hES, hESn, hPre, hMid,
    hMid2, hPost⟩ := hwf2
  have hsel : ∀ x, SegOkB x = true → litClearB (slit "共 ") x = true :=
    fun x hx => (segOk_unpack hx).2.2.2.2.2
  unfold markerValues
  rw [render_eq]
  rw [genCollect_skipC (clearB_of_noStart mMarker_req
    (noStart_of_litClear (prefix_self _) (hsel _ hPre) _))]
  rw [genCollect_hit mMarker_shrinks (mMarker_at d.count _)]
  have hT : genCollect mMarker (d.mid ++ (tocOpen ++ (tocBody d.toc ++ (d.tocEnd ++
      (slit "</div>" ++ (d.tocMid ++ (slit "</div>" ++ (d.mid2 ++ (slit "<hr>" ++
      (bodyBody d.body ++ (d.endSep ++ (slit "</article>" ++ d.post)))))))))))) = [] := by
    have h2 := @genCollect_skipC _ _ _ ([] : List Char)
      (clearB_of_noStart mMarker_req (noStart_gongSuffix hwf []))
    rw [List.append_nil] at h2
    rw [h2]
    rfl
  rw [hT]

theorem subMarker_render {d : PluginDoc} (hwf : WellFormedW d) (k : Nat) :
    subMarker k (render d) = render {d with count := k} := by
  have hwf2 := hwf
  obtain ⟨hN, hBN, hPads, hTE, hTM, hSeps, hCont, hES, hESn, hPre, hMid,
    hMid2, hPost⟩ := hwf2
  have hsel : ∀ x, SegOkB x = true → litClearB (slit "共 ") x = true :=
    fun x hx => (segOk_unpack hx).2.2.2.2.2
  unfold subMarker
  rw [render_eq d, render_eq]
  rw [genScan_skipC (clearB_of_noStart mMarker_req
    (noStart_of_litClear (prefix_self _) (hsel _ hPre) _))]
  rw [genScan_hit mMarker_shrinks (mMarker_at d.count _)]
  have hT : genScan mMarker (fun _ => slit "共 " ++ natLit k ++ slit " 个")
      (d.mid ++ (tocOpen ++ (tocBody d.toc ++ (d.tocEnd ++
      (slit "</div>" ++ (d.tocMid ++ (slit "</div>" ++ (d.mid2 ++ (slit "<hr>" ++
      (bodyBody d.body ++ (d.endSep ++ (slit "</article>" ++ d.post)))))))))))) =
      d.mid ++ (tocOpen ++ (tocBody d.toc ++ (d.tocEnd ++
      (slit "</div>" ++ (d.tocMid ++ (slit "</div>" ++ (d.mid2 ++ (slit "<hr>" ++
      (bodyBody d.body ++ (d.endSep ++ (slit "</article>" ++ d.post))))))))))) := by
    have h2 := @genScan_skipC _ _
      (fun _ => slit "共 " ++ natLit k ++ slit " 个") _ ([] : List Char)
      (clearB_of_noStart mMarker_req (noStart_gongSuffix hwf []))
    rw [List.append_nil] at h2
    rw [h2, genScan_nil, List.append_nil]
  rw [hT]
  rw [show (slit "共 " ++ natLit k ++ slit " 个") = marker k from rfl]

theorem update_plugin_count_render {d : PluginDoc} (hwf : WellFormedW d) :
    update_plugin_count (render d) = render {d with count := d.body.length} := by
  unfold update_plugin_count
  rw [countH3_render hwf, subMarker_render hwf]

end ManagePlugins

namespace ManagePlugins

/-!
## The delete substitutions
-/

theorem isPrefixOf_trans {a b c : List Char} (h1 : a.isPrefixOf b = true)
    (h2 : b.isPrefixOf c = true) : a.isPrefixOf c = true := by
  rw [List.isPrefixOf_iff_prefix] at h1 h2 ⊢
  exact h1.trans h2

theorem not_prefix_of_short {pat pat2 X : List Char}
    (hpp : pat2.isPrefixOf pat = true) (hX : pat2.isPrefixOf X = false) :
    pat.isPrefixOf X = false := by
  cases hp : pat.isPrefixOf X with
  | false => rfl
  | true => exact absurd (isPrefixOf_trans hpp hp) (by simp [hX])

theorem linkFull_pre10 (n : List Char) :
    (slit "<a href=\"#").isPrefixOf (linkFull n) = true := by
  rw [linkFull_unfold]
  exact List.isPrefixOf_iff_prefix.mpr (List.prefix_append _ _)

theorem h3full_pre8 (n : List Char) :
    (slit "<h3 id=\"").isPrefixOf (h3full n) = true := by
  have h2 := h3full_ra n []
  rw [List.append_nil] at h2
  rw [h2]
  exact List.isPrefixOf_iff_prefix.mpr (List.prefix_append _ _)

theorem h3open_pre8 (n : List Char) :
    (slit "<h3 id=\"").isPrefixOf (h3open n) = true := by
  have h2 := h3open_ra n []
  rw [List.append_nil] at h2
  rw [h2]
  exact List.isPrefixOf_iff_prefix.mpr (List.prefix_append _ _)

theorem linkFull_head (n : List Char) : (linkFull n).head? = some '<' := by
  rw [linkFull_unfold]
  rfl

theorem h3full_head (n : List Char) : (h3full n).head? = some '<' := by
  have h2 := h3full_ra n []
  rw [List.append_nil] at h2
  rw [h2]
  rfl

theorem h3open_head (n : List Char) : (h3open n).head? = some '<' := by
  have h2 := h3open_ra n []
  rw [List.append_nil] at h2
  rw [h2]
  rfl

theorem linkFull_ne_nil (n : List Char) : linkFull n ≠ [] := by
  rw [linkFull_unfold]
  simp [slit]

theorem linkFull_last (n : List Char) : (linkFull n).getLast? = some '>' := by
  unfold linkFull
  rw [List.getLast?_append_of_ne_nil _ (by simp [slit])]
  decide

theorem blockCore_ne_nil (e : Entry) : blockCore e ≠ [] := by
  have h2 := blockCore_ra8 e []
  rw [List.append_nil] at h2
  rw [h2]
  simp [slit]

theorem blockCore_last (e : Entry) : (blockCore e).getLast? = some '>' := by
  unfold blockCore
  rw [List.getLast?_append_of_ne_nil _ (by simp [slit])]
  decide

theorem tocOpen_last : tocOpen.getLast? = some '>' := by decide

theorem noStart_linkFull_ne {m n : List Char} (hm : ∀ a ∈ m, plainCharB a = true)
    (hn : ∀ a ∈ n, plainCharB a = true) (hne : m ≠ n) (Y : List Char) :
    NoStart (linkFull m) (linkFull n) Y := by
  have hmq : ∀ x ∈ m, x ≠ '"' := fun x hx => (plain_facts (hm x hx)).1
  have hnq : ∀ x ∈ n, x ≠ '"' := fun x hx => (plain_facts (hn x hx)).1
  have hT : NoStart (linkFull m)
      (slit "a href=\"#" ++ (n ++ (slit "\">" ++ (n ++ slit "</a>")))) Y := by
    apply noStart_append (noStart_head_ne (linkFull_head m) (by decide))
    apply noStart_append (noStart_name2 (linkFull_head m) (Or.inl rfl) hn)
    apply noStart_append (noStart_head_ne (linkFull_head m) (by decide))
    apply noStart_append (noStart_name2 (linkFull_head m) (Or.inl rfl) hn)
    exact noStart_of_litClear (linkFull_pre10 m) (by decide) _
  have hsh : linkFull n = '<' :: (slit "a href=\"#" ++ (n ++ (slit "\">" ++
      (n ++ slit "</a>")))) := by
    rw [linkFull_unfold]
    rfl
  rw [hsh]
  apply noStart_cons _ hT
  have hsh2 : linkFull n ++ Y = '<' :: ((slit "a href=\"#" ++ (n ++ (slit "\">" ++
      (n ++ slit "</a>")))) ++ Y) := by
    rw [hsh]
    rfl
  rw [← hsh2]
  exact linkFull_not_prefix hmq hnq hne

end ManagePlugins

namespace ManagePlugins

theorem link_vs_dv (W : List Char) :
    (slit "<a href=\"#").isPrefixOf (slit "</div>" ++ W) = false := by
  simp [slit, List.isPrefixOf]

theorem linkFull_cons (n : List Char) :
    linkFull n = '<' :: (slit "a href=\"#" ++ (n ++ (slit "\">" ++
      (n ++ slit "</a>")))) := by
  rw [linkFull_unfold]
  rfl

theorem linkFull_nil (n : List Char) : (linkFull n).isPrefixOf [] = false := by
  rw [linkFull_cons]
  rfl

theorem delScan_toc {n : List Char} (hn : ∀ a ∈ n, plainCharB a = true)
    {t : List (List Char × List Char)} {T : List Char}
    (ht : ∀ pn ∈ t, pn.1.all isWs = true ∧ NameOkB pn.2 = true)
    (hT : genScan (mDelLink n) (fun _ => []) T = T) :
    genScan (mDelLink n) (fun _ => []) (tocBody t ++ T) =
      tocBody (t.filter fun pn => pn.2 ≠ n) ++ T := by
  induction t with
  | nil =>
    unfold tocBody
    simpa using hT
  | cons pn rest ih =>
    obtain ⟨hpad, hnm⟩ := ht pn (by simp)
    have ih2 := ih fun q hq => ht q (by simp [hq])
    have hstep : tocBody (pn :: rest) ++ T =
        pn.1 ++ (linkFull pn.2 ++ (tocBody rest ++ T)) := by
      unfold tocBody
      simp [List.append_assoc]
    rw [hstep]
    by_cases he : pn.2 = n
    · rw [he]
      rw [genScan_hit (mDelLink_shrinks _)
        (mDelLink_at (List.all_eq_true.mp hpad) _)]
      rw [ih2]
      rw [List.filter_cons, if_neg (by simp [he])]
      rfl
    · have hcl : ClearB (mDelLink n) (pn.1 ++ linkFull pn.2) (tocBody rest ++ T) := by
        apply clearB_ws_last (mDelLink_reqF n)
        · apply noStart_append (noStart_ws2 (linkFull_head n) (by decide) hpad)
          exact noStart_linkFull_ne hn (nameOk_unpack hnm).2
            (fun hc => he hc.symm) _
        · intro a ha
          rw [List.getLast?_append_of_ne_nil _ (linkFull_ne_nil _),
            linkFull_last] at ha
          injection ha with ha2
          rw [← ha2]
          decide
      rw [show pn.1 ++ (linkFull pn.2 ++ (tocBody rest ++ T)) =
          (pn.1 ++ linkFull pn.2) ++ (tocBody rest ++ T) from by
        simp [List.append_assoc]]
      rw [genScan_skipC hcl, ih2]
      rw [List.filter_cons, if_pos (by simpa using he)]
      rw [show tocBody (pn :: rest.filter fun q => q.2 ≠ n) =
          pn.1 ++ (linkFull pn.2 ++ tocBody (rest.filter fun q => q.2 ≠ n)) from by
        unfold tocBody
        simp [List.append_assoc]]
      simp [List.append_assoc]

end ManagePlugins

namespace ManagePlugins

theorem append_ne_nil_right {A B : List Char} (hB : B ≠ []) : A ++ B ≠ [] := by
  intro h
  rcases List.append_eq_nil.mp h with ⟨_, h2⟩
  exact hB h2

theorem tocOpen_ne_nil : tocOpen ≠ [] := by decide

theorem delLink_render {n : List Char} (hnOk : NameOkB n = true)
    {d : PluginDoc} (hwf : WellFormedW d) :
    genScan (mDelLink n) (fun _ => []) (render d) =
      render {d with toc := d.toc.filter fun pn => pn.2 ≠ n} := by
  obtain ⟨hN, hBN, hPads, hTE, hTM, hSeps, hCont, hES, hESn, hPre, hMid,
    hMid2, hPost⟩ := hwf
  have hnpl := (nameOk_unpack hnOk).2
  have hsel : ∀ x, SegOkB x = true → litClearB (slit "<a href=\"#") x = true :=
    fun x hx => (segOk_unpack hx).2.1
  have htoc : ∀ pn ∈ d.toc, pn.1.all isWs = true ∧ NameOkB pn.2 = true :=
    fun pn hpn => ⟨hPads pn hpn, hN pn.2 (List.mem_map_of_mem _ hpn)⟩
  rw [render_eq d, render_eq]
  rw [show d.pre ++ (marker d.count ++ (d.mid ++ (tocOpen ++ (tocBody d.toc ++
      (d.tocEnd ++ (slit "</div>" ++ (d.tocMid ++ (slit "</div>" ++ (d.mid2 ++
      (slit "<hr>" ++ (bodyBody d.body ++ (d.endSep ++ (slit "</article>" ++
      d.post))))))))))))) =
    (d.pre ++ (marker d.count ++ (d.mid ++ tocOpen))) ++
    (tocBody d.toc ++
      (d.tocEnd ++ (slit "</div>" ++ (d.tocMid ++ (slit "</div>" ++ (d.mid2 ++
      (slit "<hr>" ++ (bodyBody d.body ++ (d.endSep ++ (slit "</article>" ++
      d.post)))))))))) from by
    simp only [List.append_assoc]]
  have hP0 : ClearB (mDelLink n) (d.pre ++ (marker d.count ++ (d.mid ++ tocOpen)))
      (tocBody d.toc ++
        (d.tocEnd ++ (slit "</div>" ++ (d.tocMid ++ (slit "</div>" ++ (d.mid2 ++
        (slit "<hr>" ++ (bodyBody d.body ++ (d.endSep ++ (slit "</article>" ++
        d.post)))))))))) := by
    apply clearB_ws_last (mDelLink_reqF n)
    · apply noStart_append (noStart_of_litClear (linkFull_pre10 n) (hsel _ hPre) _)
      apply noStart_append (noStart_marker2 (linkFull_head n) _)
      apply noStart_append (noStart_of_litClear (linkFull_pre10 n) (hsel _ hMid) _)
      exact noStart_of_litClear (linkFull_pre10 n) (by decide) _
    · intro a ha
      rw [List.getLast?_append_of_ne_nil _ (append_ne_nil_right
        (append_ne_nil_right tocOpen_ne_nil))] at ha
      rw [List.getLast?_append_of_ne_nil _ (append_ne_nil_right
        tocOpen_ne_nil)] at ha
      rw [List.getLast?_append_of_ne_nil _ tocOpen_ne_nil, tocOpen_last] at ha
      injection ha with ha2
      rw [← ha2]
      decide
  rw [genScan_skipC hP0]
  have hT : genScan (mDelLink n) (fun _ => [])
      (d.tocEnd ++ (slit "</div>" ++ (d.tocMid ++ (slit "</div>" ++ (d.mid2 ++
      (slit "<hr>" ++ (bodyBody d.body ++ (d.endSep ++ (slit "</article>" ++
      d.post))))))))) =
      d.tocEnd ++ (slit "</div>" ++ (d.tocMid ++ (slit "</div>" ++ (d.mid2 ++
      (slit "<hr>" ++ (bodyBody d.body ++ (d.endSep ++ (slit "</article>" ++
      d.post)))))))) := by
    have hcl : ClearB (mDelLink n)
        (d.tocEnd ++ (slit "</div>" ++ (d.tocMid ++ (slit "</div>" ++ (d.mid2 ++
        (slit "<hr>" ++ (bodyBody d.body ++ (d.endSep ++ (slit "</article>" ++
        d.post))))))))) [] := by
      apply clearB_ws_of_noStart (mDelLink_reqF n)
      · apply noStart_append (noStart_ws2 (linkFull_head n) (by decide) hTE)
        apply noStart_append (noStart_of_litClear (linkFull_pre10 n) (by decide) _)
        apply noStart_append (noStart_ws2 (linkFull_head n) (by decide) hTM)
        apply noStart_append (noStart_of_litClear (linkFull_pre10 n) (by decide) _)
        apply noStart_append (noStart_of_litClear (linkFull_pre10 n) (hsel _ hMid2) _)
        apply noStart_append (noStart_of_litClear (linkFull_pre10 n) (by decide) _)
        apply noStart_append (noStart_bodyBody (linkFull_pre10 n) (linkFull_head n)
          (Or.inl rfl) (by decide) (by decide)
          (fun se hse => ⟨hSeps se hse, (segOk_unpack (hCont se hse)).2.1,
            hBN se.2.name (List.mem_map_of_mem _ hse)⟩)
          (fun se hse V => by
            rw [blockCore_ra8]
            exact not_prefix_of_short (linkFull_pre10 n) (link_vs_block _)) _)
        exact noStart_tail (linkFull_pre10 n) (linkFull_head n) (Or.inl rfl) hsel
          (by decide) hES hPost _
      · exact linkFull_nil n
    have h2 := @genScan_skipC _ _
      (fun _ => ([] : List Char)) _ ([] : List Char) hcl
    rw [List.append_nil] at h2
    rw [h2, genScan_nil, List.append_nil]
  rw [delScan_toc hnpl htoc hT]
  simp only [List.append_assoc]

end ManagePlugins

namespace ManagePlugins

theorem h3full_cons (n : List Char) :
    h3full n = '<' :: (slit "h3 id=\"" ++ (n ++ ('"' :: ('>' ::
      (n ++ slit "</h3>"))))) := by
  have h2 := h3full_ra n []
  rw [List.append_nil] at h2
  rw [h2]
  rfl

theorem h3full_nil (n : List Char) : (h3full n).isPrefixOf [] = false := by
  rw [h3full_cons]
  rfl

theorem h3full_ne_nil (n : List Char) : h3full n ≠ [] := by
  rw [h3full_cons]
  simp

theorem noStart_blockCore2 {pat pat2 : List Char} {c : Char} {e : Entry}
    {Y : List Char} (hp : pat.head? = some c)
    (hpp : pat2.isPrefixOf pat = true) (hc : c = '<' ∨ c = '共')
    (hfst : pat.isPrefixOf (blockCore e ++ Y) = false)
    (h45 : litClearB pat2 (slit "</h3>\n<p>") = true)
    (h78 : litClearB pat2 (slit "</p>\n<hr>") = true)
    (hcon : litClearB pat2 e.content = true)
    (hn : ∀ a ∈ e.name, plainCharB a = true) :
    NoStart pat (blockCore e) Y := by
  match pat, hp, hpp, hfst with
  | p0 :: pr, hp, hpp, hfst =>
    have h0 : p0 = c := by simpa using hp
    subst h0
    exact noStart_blockCore hpp hc hfst h45 h78 hcon hn

theorem delScan_body {n : List Char} (hn : ∀ a ∈ n, plainCharB a = true)
    {b : List (List Char × Entry)} {T : List Char}
    (hb : ∀ se ∈ b, se.1.all isWs = true ∧ SegOkB se.2.content = true ∧
      NameOkB se.2.name = true)
    (hT : genScan (mDelBlock n) (fun _ => []) T = T) :
    genScan (mDelBlock n) (fun _ => []) (bodyBody b ++ T) =
      bodyBody (b.filter fun se => se.2.name ≠ n) ++ T := by
  induction b with
  | nil =>
    unfold bodyBody
    simpa using hT
  | cons se rest ih =>
    obtain ⟨hsep, hcon, hnm⟩ := hb se (by simp)
    have ih2 := ih fun q hq => hb q (by simp [hq])
    have hstep : bodyBody (se :: rest) ++ T =
        se.1 ++ (blockCore se.2 ++ (bodyBody rest ++ T)) := by
      unfold bodyBody
      simp [List.append_assoc]
    rw [hstep]
    by_cases he : se.2.name = n
    · have hat : mDelBlock n (se.1 ++ (blockCore se.2 ++ (bodyBody rest ++ T))) =
          some ((), bodyBody rest ++ T) := by
        have h2 := mDelBlock_at (n := n) (c := se.2.content)
          (List.all_eq_true.mp hsep) (segOk_unpack hcon).2.2.2.2.1
          (bodyBody rest ++ T)
        rw [show (⟨n, se.2.content⟩ : Entry) = se.2 from by
          rw [← he]] at h2
        exact h2
      rw [genScan_hit (mDelBlock_shrinks _) hat]
      rw [ih2]
      rw [List.filter_cons, if_neg (by simp [he])]
      rfl
    · have hq2 : ∀ a ∈ se.2.name, plainCharB a = true := (nameOk_unpack hnm).2
      have hnq : ∀ x ∈ n, x ≠ '"' := fun x hx => (plain_facts (hn x hx)).1
      have hq2q : ∀ x ∈ se.2.name, x ≠ '"' :=
        fun x hx => (plain_facts (hq2 x hx)).1
      have hcl : ClearB (mDelBlock n) (se.1 ++ blockCore se.2)
          (bodyBody rest ++ T) := by
        apply clearB_ws_last (mDelBlock_reqF n)
        · apply noStart_append (noStart_ws2 (h3full_head n) (by decide) hsep)
          apply noStart_blockCore2 (h3full_head n) (h3full_pre8 n) (Or.inl rfl)
            (by
              rw [blockCore_ra]
              exact h3full_not_prefix hnq hq2q (fun hc => he hc.symm))
            (by decide) (by decide) (segOk_unpack hcon).1 hq2
        · intro a ha
          rw [List.getLast?_append_of_ne_nil _ (blockCore_ne_nil _),
            blockCore_last] at ha
          injection ha with ha2
          rw [← ha2]
          decide
      rw [show se.1 ++ (blockCore se.2 ++ (bodyBody rest ++ T)) =
          (se.1 ++ blockCore se.2) ++ (bodyBody rest ++ T) from by
        simp [List.append_assoc]]
      rw [genScan_skipC hcl, ih2]
      rw [List.filter_cons, if_pos (by simpa using he)]
      rw [show bodyBody (se :: rest.filter fun q => q.2.name ≠ n) =
          se.1 ++ (blockCore se.2 ++ bodyBody (rest.filter fun q => q.2.name ≠ n))
          from by
        unfold bodyBody
        simp [List.append_assoc]]
      simp [List.append_assoc]

end ManagePlugins

namespace ManagePlugins

theorem getLast?_step {A B : List Char} {c : Char} (h : B.getLast? = some c) :
    (A ++ B).getLast? = some c := by
  rw [List.getLast?_append_of_ne_nil _ (fun hn => by rw [hn] at h; simp at h)]
  exact h

theorem delBlock_render {n : List Char} (hnOk : NameOkB n = true)
    {d : PluginDoc} (hwf : WellFormedW d) :
    genScan (mDelBlock n) (fun _ => []) (render d) =
      render {d with body := d.body.filter fun se => se.2.name ≠ n} := by
  have hwf2 := hwf
  obtain ⟨hN, hBN, hPads, hTE, hTM, hSeps, hCont, hES, hESn, hPre, hMid,
    hMid2, hPost⟩ := hwf2
  have hnpl := (nameOk_unpack hnOk).2
  have hsel : ∀ x, SegOkB x = true → litClearB (slit "<h3 id=\"") x = true :=
    fun x hx => (segOk_unpack hx).1
  rw [render_eq d, render_eq]
  rw [show d.pre ++ (marker d.count ++ (d.mid ++ (tocOpen ++ (tocBody d.toc ++
      (d.tocEnd ++ (slit "</div>" ++ (d.tocMid ++ (slit "</div>" ++ (d.mid2 ++
      (slit "<hr>" ++ (bodyBody d.body ++ (d.endSep ++ (slit "</article>" ++
      d.post))))))))))))) =
    (d.pre ++ (marker d.count ++ (d.mid ++ (tocOpen ++ (tocBody d.toc ++
      (d.tocEnd ++ (slit "</div>" ++ (d.tocMid ++ (slit "</div>" ++ (d.mid2 ++
      slit "<hr>")))))))))) ++
    (bodyBody d.body ++ (d.endSep ++ (slit "</article>" ++ d.post))) from by
    simp only [List.append_assoc]]
  have hP : ClearB (mDelBlock n)
      (d.pre ++ (marker d.count ++ (d.mid ++ (tocOpen ++ (tocBody d.toc ++
        (d.tocEnd ++ (slit "</div>" ++ (d.tocMid ++ (slit "</div>" ++ (d.mid2 ++
        slit "<hr>"))))))))))
      (bodyBody d.body ++ (d.endSep ++ (slit "</article>" ++ d.post))) := by
    apply clearB_ws_last (mDelBlock_reqF n)
    · exact noStart_docPrefix (h3full_pre8 n) (h3full_head n) hsel (by decide)
        (by decide) (by decide) (by decide) (by decide) (by decide) hwf _
    · intro a ha
      have hl : (d.pre ++ (marker d.count ++ (d.mid ++ (tocOpen ++ (tocBody d.toc ++
          (d.tocEnd ++ (slit "</div>" ++ (d.tocMid ++ (slit "</div>" ++ (d.mid2 ++
          slit "<hr>")))))))))).getLast? = some '>' :=
        getLast?_step (getLast?_step (getLast?_step (getLast?_step (getLast?_step (getLast?_step (getLast?_step (getLast?_step (getLast?_step (getLast?_step ((by decide : (slit "<hr>").getLast? = some '>')))))))))))
      rw [hl] at ha
      injection ha with ha2
      rw [← ha2]
      decide
  rw [genScan_skipC hP]
  have hT : genScan (mDelBlock n) (fun _ => [])
      (d.endSep ++ (slit "</article>" ++ d.post)) =
      d.endSep ++ (slit "</article>" ++ d.post) := by
    have hcl : ClearB (mDelBlock n)
        (d.endSep ++ (slit "</article>" ++ d.post)) [] := by
      apply clearB_ws_of_noStart (mDelBlock_reqF n)
      · exact noStart_tail (h3full_pre8 n) (h3full_head n) (Or.inl rfl) hsel
          (by decide) hES hPost _
      · exact h3full_nil n
    have h2 := @genScan_skipC _ _
      (fun _ => ([] : List Char)) _ ([] : List Char) hcl
    rw [List.append_nil] at h2
    rw [h2, genScan_nil, List.append_nil]
  rw [delScan_body hnpl (fun se hse => ⟨hSeps se hse, hCont se hse,
    hBN se.2.name (List.mem_map_of_mem _ hse)⟩) hT]
  simp only [List.append_assoc]

theorem wfW_tocFilter {d : PluginDoc} (hwf : WellFormedW d)
    (p : List Char × List Char → Bool) :
    WellFormedW {d with toc := d.toc.filter p} := by
  obtain ⟨hN, hBN, hPads, hTE, hTM, hSeps, hCont, hES, hESn, hPre, hMid,
    hMid2, hPost⟩ := hwf
  refine ⟨?_, hBN, ?_, hTE, hTM, hSeps, hCont, hES, hESn, hPre, hMid,
    hMid2, hPost⟩
  · intro m hm
    unfold tocNames at hm
    simp only [List.mem_map] at hm
    obtain ⟨pn, hpn, hpe⟩ := hm
    exact hN m (by
      rw [← hpe]
      exact List.mem_map_of_mem _ (List.mem_of_mem_filter hpn))
  · intro pn hpn
    exact hPads pn (List.mem_of_mem_filter hpn)

theorem wfW_bodyFilter {d : PluginDoc} (hwf : WellFormedW d)
    (p : List Char × Entry → Bool) :
    WellFormedW {d with body := d.body.filter p} := by
  obtain ⟨hN, hBN, hPads, hTE, hTM, hSeps, hCont, hES, hESn, hPre, hMid,
    hMid2, hPost⟩ := hwf
  refine ⟨hN, ?_, hPads, hTE, hTM, ?_, ?_, hES, hESn, hPre, hMid,
    hMid2, hPost⟩
  · intro m hm
    unfold bodyNames at hm
    simp only [List.mem_map] at hm
    obtain ⟨se, hse, hpe⟩ := hm
    exact hBN m (by
      rw [← hpe]
      exact List.mem_map_of_mem _ (List.mem_of_mem_filter hse))
  · intro se hse
    exact hSeps se (List.mem_of_mem_filter hse)
  · intro se hse
    exact hCont se (List.mem_of_mem_filter hse)

theorem delete_render {n : List Char} (hnOk : NameOkB n = true)
    {d : PluginDoc} (hwf : WellFormedW d) :
    delete_plugin_from_html n (render d) = render (deleteModel n d) := by
  unfold delete_plugin_from_html
  rw [delLink_render hnOk hwf]
  rw [delBlock_render hnOk (wfW_tocFilter hwf _)]
  rw [update_plugin_count_render (wfW_bodyFilter (wfW_tocFilter hwf _) _)]
  rfl

end ManagePlugins

/-!
## Delete: idempotence and removal (C7, C8)
-/

namespace ManagePlugins

theorem filter_idem {α : Type} (p : α → Bool) (l : List α) :
    (l.filter p).filter p = l.filter p :=
  List.filter_eq_self.mpr fun _ ha => List.of_mem_filter ha

theorem deleteModel_idem (n : List Char) (d : PluginDoc) :
    deleteModel n (deleteModel n d) = deleteModel n d := by
  simp only [deleteModel, filter_idem]

theorem wfW_deleteModel (n : List Char) {d : PluginDoc}
    (hwf : WellFormedW d) : WellFormedW (deleteModel n d) := by
  have h1 := wfW_bodyFilter (wfW_tocFilter hwf fun pn => pn.2 ≠ n)
    fun se => se.2.name ≠ n
  obtain ⟨hN, hBN, hPads, hTE, hTM, hSeps, hCont, hES, hESn, hPre, hMid,
    hMid2, hPost⟩ := h1
  exact ⟨hN, hBN, hPads, hTE, hTM, hSeps, hCont, hES, hESn, hPre, hMid,
    hMid2, hPost⟩

theorem bodyNames_deleteModel (n : List Char) (d : PluginDoc) :
    bodyNames (deleteModel n d) = (bodyNames d).filter fun m => m ≠ n := by
  show (d.body.filter fun se => se.2.name ≠ n).map (fun se => se.2.name) = _
  unfold bodyNames
  rw [List.filter_map]
  rfl

theorem tocNames_deleteModel (n : List Char) (d : PluginDoc) :
    tocNames (deleteModel n d) = (tocNames d).filter fun m => m ≠ n := by
  show (d.toc.filter fun pn => pn.2 ≠ n).map (fun pn => pn.2) = _
  unfold tocNames
  rw [List.filter_map]
  rfl

theorem length_filter_ne {l : List (List Char)} {n : List Char}
    (hd : l.Nodup) (hm : n ∈ l) :
    (l.filter fun m => m ≠ n).length = l.length - 1 := by
  induction l with
  | nil => cases hm
  | cons a t ih =>
    rcases List.mem_cons.mp hm with he | hm2
    · subst he
      have hnt : n ∉ t := (List.nodup_cons.mp hd).1
      have ht : t.filter (fun m => decide (m ≠ n)) = t := by
        rw [List.filter_eq_self]
        intro b hb
        simp only [ne_eq, decide_eq_true_eq]
        exact fun hba => hnt (hba ▸ hb)
      have hpn : (decide (n ≠ n)) = false := by simp
      rw [List.filter_cons, hpn, if_neg (by decide : ¬ (false = true)), ht,
        List.length_cons]
      omega
    · have hne : a ≠ n := fun h => (List.nodup_cons.mp hd).1 (h ▸ hm2)
      have ih2 := ih (List.nodup_cons.mp hd).2 hm2
      have hlen : 1 ≤ t.length := List.length_pos.mpr (List.ne_nil_of_mem hm2)
      have hpa : (decide (a ≠ n)) = true := by simp [hne]
      rw [List.filter_cons, hpa, if_pos rfl, List.length_cons,
        List.length_cons, ih2]
      omega

/-- **C7 counterexample**: on raw text that is not a well-formed document,
`delete_plugin_from_html` is not idempotent: in
`<a href="#n">n</a <a href="#n">n</a>>` the first delete removes the second
(well-formed) link and its leading whitespace, leaving the two mutilated
halves joined into a fresh well-formed link, which the second delete then
removes. -/
theorem c7_counterexample :
    delete_plugin_from_html (slit "n")
        (delete_plugin_from_html (slit "n")
          (slit "<a href=\"#n\">n</a <a href=\"#n\">n</a>>")) ≠
      delete_plugin_from_html (slit "n")
        (slit "<a href=\"#n\">n</a <a href=\"#n\">n</a>>") := by
  decide

/-- **C7** (amended): on a well-formed document and a regex-plain name,
delete is idempotent: a second `delete_plugin_from_html` with the same name
leaves the result of the first unchanged. -/
theorem c7_delete_idempotent {n : List Char} {d : PluginDoc}
    (hnOk : NameOkB n = true) (hwf : WellFormed d) :
    delete_plugin_from_html n (delete_plugin_from_html n (render d)) =
      delete_plugin_from_html n (render d) := by
  rw [delete_render hnOk (wfW_of hwf)]
  rw [delete_render hnOk (wfW_deleteModel n (wfW_of hwf))]
  rw [deleteModel_idem]

/-- Concrete instance of C7: deleting `alpha` twice from the example
document equals deleting it once. -/
theorem c7_delete_idempotent_witness :
    NameOkB (slit "alpha") = true ∧ WellFormed exDoc ∧
    delete_plugin_from_html (slit "alpha")
        (delete_plugin_from_html (slit "alpha") (render exDoc)) =
      delete_plugin_from_html (slit "alpha") (render exDoc) :=
  ⟨by decide, by decide, c7_delete_idempotent (by decide) (by decide)⟩

/-- **C8**: deleting an entry present in a well-formed document removes its
name from both the body headings and the TOC links, and the count marker of
the result equals its heading count, which is the old entry count minus
one. -/
theorem c8_delete_removes {n : List Char} {d : PluginDoc}
    (hnOk : NameOkB n = true) (hwf : WellFormed d) (hmem : n ∈ bodyNames d) :
    n ∉ findH3Ids (delete_plugin_from_html n (render d)) ∧
    n ∉ findLinkIds (delete_plugin_from_html n (render d)) ∧
    markerValues (delete_plugin_from_html n (render d)) =
      [countH3 (delete_plugin_from_html n (render d))] ∧
    countH3 (delete_plugin_from_html n (render d)) =
      (bodyNames d).length - 1 := by
  have hw := wfW_of hwf
  rw [delete_render hnOk hw]
  have hwd := wfW_deleteModel n hw
  obtain ⟨hN, hS, hrest⟩ := hwf
  refine ⟨?_, ?_, ?_, ?_⟩
  · rw [findH3Ids_render hwd, bodyNames_deleteModel]
    intro hmem2
    have h2 := List.of_mem_filter hmem2
    simp at h2
  · rw [findLinkIds_render hwd, tocNames_deleteModel]
    intro hmem2
    have h2 := List.of_mem_filter hmem2
    simp at h2
  · rw [markerValues_render hwd, countH3_render hwd]
    rfl
  · rw [countH3_render hwd]
    have h1 : (bodyNames (deleteModel n d)).length =
        (deleteModel n d).body.length := by
      simp [bodyNames]
    rw [← h1, bodyNames_deleteModel]
    exact length_filter_ne (strictSorted_nodup hS) hmem

/-- Concrete instance of C8: deleting `alpha` from the example document
removes it from headings and links and decrements the count to 1. -/
theorem c8_delete_removes_witness :
    NameOkB (slit "alpha") = true ∧ WellFormed exDoc ∧
    slit "alpha" ∈ bodyNames exDoc ∧
    (slit "alpha" ∉ findH3Ids (delete_plugin_from_html (slit "alpha")
        (render exDoc)) ∧
      slit "alpha" ∉ findLinkIds (delete_plugin_from_html (slit "alpha")
        (render exDoc)) ∧
      markerValues (delete_plugin_from_html (slit "alpha") (render exDoc)) =
        [countH3 (delete_plugin_from_html (slit "alpha") (render exDoc))] ∧
      countH3 (delete_plugin_from_html (slit "alpha") (render exDoc)) =
        (bodyNames exDoc).length - 1) :=
  ⟨by decide, by decide, by decide,
    c8_delete_removes (by decide) (by decide) (by decide)⟩

end ManagePlugins

/-!
## Update: search/sub semantics (C6)
-/

namespace ManagePlugins

theorem editReplacement_eq (n c : List Char) :
    editReplacement n c = blockCore ⟨n, c⟩ := rfl

theorem genSearch_none_iff {α : Type} {tm : List Char → Option (α × List Char)}
    (hs : Shrinks tm) (s : List Char) :
    genSearch tm s = none ↔ genCollect tm s = [] := by
  induction s with
  | nil => simp [genSearch, genCollect_nil]
  | cons ch cs ih =>
    cases htm : tm (ch :: cs) with
    | none =>
      rw [genSearch_miss htm, genCollect_miss htm]
      exact ih
    | some pr =>
      obtain ⟨a, r⟩ := pr
      rw [genSearch_hit (by simp) htm, genCollect_hit hs htm]
      simp

theorem updScan_body {n c : List Char} (hn : ∀ a ∈ n, plainCharB a = true)
    {b : List (List Char × Entry)} {T : List Char}
    (hb : ∀ se ∈ b, se.1.all isWs = true ∧ SegOkB se.2.content = true ∧
      NameOkB se.2.name = true)
    (hT : genScan (mEditBlock n) (fun _ => editReplacement n c) T = T) :
    genScan (mEditBlock n) (fun _ => editReplacement n c) (bodyBody b ++ T) =
      bodyBody (b.map fun se =>
        if se.2.name = n then (se.1, (⟨n, c⟩ : Entry)) else se) ++ T := by
  induction b with
  | nil =>
    unfold bodyBody
    simpa using hT
  | cons se rest ih =>
    obtain ⟨hsep, hcon, hnm⟩ := hb se (by simp)
    have ih2 := ih fun q hq => hb q (by simp [hq])
    have hstep : bodyBody (se :: rest) ++ T =
        se.1 ++ (blockCore se.2 ++ (bodyBody rest ++ T)) := by
      unfold bodyBody
      simp [List.append_assoc]
    rw [hstep]
    by_cases he : se.2.name = n
    · rw [genScan_skipC (clearB_of_noStart (mEditBlock_req n)
        (noStart_ws2 (h3full_head n) (by decide) hsep))]
      have hat : mEditBlock n (blockCore se.2 ++ (bodyBody rest ++ T)) =
          some (se.2.content, bodyBody rest ++ T) := by
        have h2 := mEditBlock_at (n := n) (c := se.2.content)
          (segOk_unpack hcon).2.2.2.2.1 (bodyBody rest ++ T)
        rw [show (⟨n, se.2.content⟩ : Entry) = se.2 from by rw [← he]] at h2
        exact h2
      rw [genScan_hit (mEditBlock_shrinks _) hat, ih2]
      rw [List.map_cons, if_pos he]
      rw [show bodyBody ((se.1, (⟨n, c⟩ : Entry)) :: (rest.map fun q =>
          if q.2.name = n then (q.1, (⟨n, c⟩ : Entry)) else q)) =
          se.1 ++ (blockCore ⟨n, c⟩ ++ bodyBody (rest.map fun q =>
          if q.2.name = n then (q.1, (⟨n, c⟩ : Entry)) else q)) from by
        unfold bodyBody
        simp [List.append_assoc]]
      rw [editReplacement_eq]
      simp [List.append_assoc]
    · have hnq : ∀ x ∈ n, x ≠ '"' := fun x hx => (plain_facts (hn x hx)).1
      have hq2 : ∀ a ∈ se.2.name, plainCharB a = true := (nameOk_unpack hnm).2
      have hq2q : ∀ x ∈ se.2.name, x ≠ '"' :=
        fun x hx => (plain_facts (hq2 x hx)).1
      have hcl : ClearB (mEditBlock n) (se.1 ++ blockCore se.2)
          (bodyBody rest ++ T) := by
        apply clearB_of_noStart (mEditBlock_req n)
        apply noStart_append (noStart_ws2 (h3full_head n) (by decide) hsep)
        apply noStart_blockCore2 (h3full_head n) (h3full_pre8 n) (Or.inl rfl)
          (by
            rw [blockCore_ra]
            exact h3full_not_prefix hnq hq2q (fun hc2 => he hc2.symm))
          (by decide) (by decide) (segOk_unpack hcon).1 hq2
      rw [show se.1 ++ (blockCore se.2 ++ (bodyBody rest ++ T)) =
          (se.1 ++ blockCore se.2) ++ (bodyBody rest ++ T) from by
        simp [List.append_assoc]]
      rw [genScan_skipC hcl, ih2]
      rw [List.map_cons, if_neg he]
      rw [show bodyBody (se :: (rest.map fun q =>
          if q.2.name = n then (q.1, (⟨n, c⟩ : Entry)) else q)) =
          se.1 ++ (blockCore se.2 ++ bodyBody (rest.map fun q =>
          if q.2.name = n then (q.1, (⟨n, c⟩ : Entry)) else q)) from by
        unfold bodyBody
        simp [List.append_assoc]]
      simp [List.append_assoc]

theorem editCollect_body {n : List Char} (hn : ∀ a ∈ n, plainCharB a = true)
    {b : List (List Char × Entry)} {T : List Char}
    (hb : ∀ se ∈ b, se.1.all isWs = true ∧ SegOkB se.2.content = true ∧
      NameOkB se.2.name = true)
    (hT : genCollect (mEditBlock n) T = []) :
    genCollect (mEditBlock n) (bodyBody b ++ T) =
      (b.filter fun se => se.2.name = n).map fun se => se.2.content := by
  induction b with
  | nil =>
    unfold bodyBody
    simpa using hT
  | cons se rest ih =>
    obtain ⟨hsep, hcon, hnm⟩ := hb se (by simp)
    have ih2 := ih fun q hq => hb q (by simp [hq])
    have hstep : bodyBody (se :: rest) ++ T =
        se.1 ++ (blockCore se.2 ++ (bodyBody rest ++ T)) := by
      unfold bodyBody
      simp [List.append_assoc]
    rw [hstep]
    by_cases he : se.2.name = n
    · rw [genCollect_skipC (clearB_of_noStart (mEditBlock_req n)
        (noStart_ws2 (h3full_head n) (by decide) hsep))]
      have hat : mEditBlock n (blockCore se.2 ++ (bodyBody rest ++ T)) =
          some (se.2.content, bodyBody rest ++ T) := by
        have h2 := mEditBlock_at (n := n) (c := se.2.content)
          (segOk_unpack hcon).2.2.2.2.1 (bodyBody rest ++ T)
        rw [show (⟨n, se.2.content⟩ : Entry) = se.2 from by rw [← he]] at h2
        exact h2
      rw [genCollect_hit (mEditBlock_shrinks _) hat, ih2]
      rw [List.filter_cons, if_pos (by simpa using he)]
      rfl
    · have hnq : ∀ x ∈ n, x ≠ '"' := fun x hx => (plain_facts (hn x hx)).1
      have hq2 : ∀ a ∈ se.2.name, plainCharB a = true := (nameOk_unpack hnm).2
      have hq2q : ∀ x ∈ se.2.name, x ≠ '"' :=
        fun x hx => (plain_facts (hq2 x hx)).1
      have hcl : ClearB (mEditBlock n) (se.1 ++ blockCore se.2)
          (bodyBody rest ++ T) := by
        apply clearB_of_noStart (mEditBlock_req n)
        apply noStart_append (noStart_ws2 (h3full_head n) (by decide) hsep)
        apply noStart_blockCore2 (h3full_head n) (h3full_pre8 n) (Or.inl rfl)
          (by
            rw [blockCore_ra]
            exact h3full_not_prefix hnq hq2q (fun hc2 => he hc2.symm))
          (by decide) (by decide) (segOk_unpack hcon).1 hq2
      rw [show se.1 ++ (blockCore se.2 ++ (bodyBody rest ++ T)) =
          (se.1 ++ blockCore se.2) ++ (bodyBody rest ++ T) from by
        simp [List.append_assoc]]
      rw [genCollect_skipC hcl, ih2]
      rw [List.filter_cons, if_neg (by simp [he])]

end ManagePlugins

namespace ManagePlugins

theorem updScan_render {n c : List Char} (hnOk : NameOkB n = true)
    {d : PluginDoc} (hwf : WellFormedW d) :
    genScan (mEditBlock n) (fun _ => editReplacement n c) (render d) =
      render {d with body := d.body.map fun se =>
        if se.2.name = n then (se.1, (⟨n, c⟩ : Entry)) else se} := by
  have hwf2 := hwf
  obtain ⟨hN, hBN, hPads, hTE, hTM, hSeps, hCont, hES, hESn, hPre, hMid,
    hMid2, hPost⟩ := hwf2
  have hnpl := (nameOk_unpack hnOk).2
  have hsel : ∀ x, SegOkB x = true → litClearB (slit "<h3 id=\"") x = true :=
    fun x hx => (segOk_unpack hx).1
  rw [render_eq d, render_eq]
  rw [show d.pre ++ (marker d.count ++ (d.mid ++ (tocOpen ++ (tocBody d.toc ++
      (d.tocEnd ++ (slit "</div>" ++ (d.tocMid ++ (slit "</div>" ++ (d.mid2 ++
      (slit "<hr>" ++ (bodyBody d.body ++ (d.endSep ++ (slit "</article>" ++
      d.post))))))))))))) =
    (d.pre ++ (marker d.count ++ (d.mid ++ (tocOpen ++ (tocBody d.toc ++
      (d.tocEnd ++ (slit "</div>" ++ (d.tocMid ++ (slit "</div>" ++ (d.mid2 ++
      slit "<hr>")))))))))) ++
    (bodyBody d.body ++ (d.endSep ++ (slit "</article>" ++ d.post))) from by
    simp only [List.append_assoc]]
  have hP : ClearB (mEditBlock n)
      (d.pre ++ (marker d.count ++ (d.mid ++ (tocOpen ++ (tocBody d.toc ++
        (d.tocEnd ++ (slit "</div>" ++ (d.tocMid ++ (slit "</div>" ++ (d.mid2 ++
        slit "<hr>"))))))))))
      (bodyBody d.body ++ (d.endSep ++ (slit "</article>" ++ d.post))) :=
    clearB_of_noStart (mEditBlock_req n)
      (noStart_docPrefix (h3full_pre8 n) (h3full_head n) hsel (by decide)
        (by decide) (by decide) (by decide) (by decide) (by decide) hwf _)
  rw [genScan_skipC hP]
  have hT : genScan (mEditBlock n) (fun _ => editReplacement n c)
      (d.endSep ++ (slit "</article>" ++ d.post)) =
      d.endSep ++ (slit "</article>" ++ d.post) := by
    have hcl : ClearB (mEditBlock n)
        (d.endSep ++ (slit "</article>" ++ d.post)) [] :=
      clearB_of_noStart (mEditBlock_req n)
        (noStart_tail (h3full_pre8 n) (h3full_head n) (Or.inl rfl) hsel
          (by decide) hES hPost _)
    have h2 := @genScan_skipC _ _
      (fun _ => editReplacement n c) _ ([] : List Char) hcl
    rw [List.append_nil] at h2
    rw [h2, genScan_nil, List.append_nil]
  rw [updScan_body hnpl (fun se hse => ⟨hSeps se hse, hCont se hse,
    hBN se.2.name (List.mem_map_of_mem _ hse)⟩) hT]
  simp only [List.append_assoc]

theorem editCollect_render {n : List Char} (hnOk : NameOkB n = true)
    {d : PluginDoc} (hwf : WellFormedW d) :
    genCollect (mEditBlock n) (render d) =
      (d.body.filter fun se => se.2.name = n).map fun se => se.2.content := by
  have hwf2 := hwf
  obtain ⟨hN, hBN, hPads, hTE, hTM, hSeps, hCont, hES, hESn, hPre, hMid,
    hMid2, hPost⟩ := hwf2
  have hnpl := (nameOk_unpack hnOk).2
  have hsel : ∀ x, SegOkB x = true → litClearB (slit "<h3 id=\"") x = true :=
    fun x hx => (segOk_unpack hx).1
  rw [render_eq d]
  rw [show d.pre ++ (marker d.count ++ (d.mid ++ (tocOpen ++ (tocBody d.toc ++
      (d.tocEnd ++ (slit "</div>" ++ (d.tocMid ++ (slit "</div>" ++ (d.mid2 ++
      (slit "<hr>" ++ (bodyBody d.body ++ (d.endSep ++ (slit "</article>" ++
      d.post))))))))))))) =
    (d.pre ++ (marker d.count ++ (d.mid ++ (tocOpen ++ (tocBody d.toc ++
      (d.tocEnd ++ (slit "</div>" ++ (d.tocMid ++ (slit "</div>" ++ (d.mid2 ++
      slit "<hr>")))))))))) ++
    (bodyBody d.body ++ (d.endSep ++ (slit "</article>" ++ d.post))) from by
    simp only [List.append_assoc]]
  have hP : ClearB (mEditBlock n)
      (d.pre ++ (marker d.count ++ (d.mid ++ (tocOpen ++ (tocBody d.toc ++
        (d.tocEnd ++ (slit "</div>" ++ (d.tocMid ++ (slit "</div>" ++ (d.mid2 ++
        slit "<hr>"))))))))))
      (bodyBody d.body ++ (d.endSep ++ (slit "</article>" ++ d.post))) :=
    clearB_of_noStart (mEditBlock_req n)
      (noStart_docPrefix (h3full_pre8 n) (h3full_head n) hsel (by decide)
        (by decide) (by decide) (by decide) (by decide) (by decide) hwf _)
  rw [genCollect_skipC hP]
  have hT : genCollect (mEditBlock n)
      (d.endSep ++ (slit "</article>" ++ d.post)) = [] := by
    have hcl : ClearB (mEditBlock n)
        (d.endSep ++ (slit "</article>" ++ d.post)) [] :=
      clearB_of_noStart (mEditBlock_req n)
        (noStart_tail (h3full_pre8 n) (h3full_head n) (Or.inl rfl) hsel
          (by decide) hES hPost _)
    have h2 := genCollect_skipC hcl
    rw [List.append_nil] at h2
    rw [h2]
    rfl
  rw [editCollect_body hnpl (fun se hse => ⟨hSeps se hse, hCont se hse,
    hBN se.2.name (List.mem_map_of_mem _ hse)⟩) hT]

theorem wfW_updateBody {n c : List Char} (hnOk : NameOkB n = true)
    (hc : SegOkB c = true) {d : PluginDoc} (hwf : WellFormedW d) :
    WellFormedW {d with body := d.body.map fun se =>
      if se.2.name = n then (se.1, (⟨n, c⟩ : Entry)) else se} := by
  obtain ⟨hN, hBN, hPads, hTE, hTM, hSeps, hCont, hES, hESn, hPre, hMid,
    hMid2, hPost⟩ := hwf
  refine ⟨hN, ?_, hPads, hTE, hTM, ?_, ?_, hES, hESn, hPre, hMid, hMid2,
    hPost⟩
  · intro m hm
    unfold bodyNames at hm
    simp only [List.mem_map] at hm
    obtain ⟨se, hse, hpe⟩ := hm
    obtain ⟨q, hq, hqe⟩ := hse
    by_cases hqq : q.2.name = n
    · rw [if_pos hqq] at hqe
      rw [← hpe, ← hqe]
      exact hnOk
    · rw [if_neg hqq] at hqe
      rw [← hpe, ← hqe]
      exact hBN q.2.name (List.mem_map_of_mem _ hq)
  · intro se hse
    obtain ⟨q, hq, hqe⟩ := List.mem_map.mp hse
    by_cases hqq : q.2.name = n
    · rw [if_pos hqq] at hqe
      rw [← hqe]
      exact hSeps q hq
    · rw [if_neg hqq] at hqe
      rw [← hqe]
      exact hSeps q hq
  · intro se hse
    obtain ⟨q, hq, hqe⟩ := List.mem_map.mp hse
    by_cases hqq : q.2.name = n
    · rw [if_pos hqq] at hqe
      rw [← hqe]
      exact hc
    · rw [if_neg hqq] at hqe
      rw [← hqe]
      exact hCont q hq

theorem wfW_updateModel {n c : List Char} (hnOk : NameOkB n = true)
    (hc : SegOkB c = true) {d : PluginDoc} (hwf : WellFormedW d) :
    WellFormedW (updateModel n c d) := by
  obtain ⟨hN, hBN, hPads, hTE, hTM, hSeps, hCont, hES, hESn, hPre, hMid,
    hMid2, hPost⟩ := wfW_updateBody hnOk hc hwf
  exact ⟨hN, hBN, hPads, hTE, hTM, hSeps, hCont, hES, hESn, hPre, hMid,
    hMid2, hPost⟩

theorem update_render {n c : List Char} (hnOk : NameOkB n = true)
    (hc : SegOkB c = true) {d : PluginDoc} (hwf : WellFormedW d) :
    update_plugin n c (render d) = render (updateModel n c d) := by
  unfold update_plugin
  rw [updScan_render hnOk hwf]
  rw [update_plugin_count_render (wfW_updateBody hnOk hc hwf)]
  rw [show ({d with body := d.body.map fun se =>
      if se.2.name = n then (se.1, (⟨n, c⟩ : Entry)) else se} :
        PluginDoc).body.length = d.body.length from by simp]
  rfl

theorem bodyNames_updateModel (n c : List Char) (d : PluginDoc) :
    bodyNames (updateModel n c d) = bodyNames d := by
  show (d.body.map fun se =>
    if se.2.name = n then (se.1, (⟨n, c⟩ : Entry)) else se).map
      (fun se => se.2.name) = _
  unfold bodyNames
  rw [List.map_map]
  apply List.map_congr_left
  intro se hse
  by_cases hqq : se.2.name = n
  · simp [Function.comp, hqq]
  · simp [Function.comp, hqq]

theorem length_filter_eq {l : List (List Char)} {n : List Char}
    (hd : l.Nodup) (hm : n ∈ l) :
    (l.filter fun m => m = n).length = 1 := by
  induction l with
  | nil => cases hm
  | cons a t ih =>
    rcases List.mem_cons.mp hm with he | hm2
    · subst he
      have hnt : n ∉ t := (List.nodup_cons.mp hd).1
      have ht : t.filter (fun m => decide (m = n)) = [] := by
        rw [List.filter_eq_nil_iff]
        intro b hb
        simp only [decide_eq_true_eq]
        exact fun hbn => hnt (hbn ▸ hb)
      have hpn : (decide (n = n)) = true := by simp
      rw [List.filter_cons, hpn, if_pos rfl, ht]
      rfl
    · have hne : a ≠ n := fun h => (List.nodup_cons.mp hd).1 (h ▸ hm2)
      have ih2 := ih (List.nodup_cons.mp hd).2 hm2
      have hpa : (decide (a = n)) = false := by simp [hne]
      rw [List.filter_cons, hpa, if_neg (by decide : ¬ (false = true))]
      exact ih2

end ManagePlugins

namespace ManagePlugins

/-- **C6 counterexample**: update's failure condition is not "does not
match exactly once": on a text holding two blocks for the same name the
edit pattern matches twice, yet `edit_plugin_in_html` (a `re.search`)
still succeeds, and `_update_plugin`'s `re.sub` would replace both. -/
theorem c6_counterexample :
    countEditMatches (slit "n")
        (slit "<h3 id=\"n\">n</h3><p>x</p><hr><h3 id=\"n\">n</h3><p>y</p><hr>") =
      2 ∧
    edit_plugin_in_html (slit "n")
        (slit "<h3 id=\"n\">n</h3><p>x</p><hr><h3 id=\"n\">n</h3><p>y</p><hr>") ≠
      none := by
  decide

/-- **C6** (amended): update fails exactly when the edit pattern has zero
matches (`re.search` returns nothing iff `re.findall` is empty); on a
well-formed document containing the entry, for backslash-free marker-free
new content (so the interpolated replacement is spliced literally), the
pattern matches exactly once, update replaces the matched span by the
freshly rendered heading+paragraph+separator block with the new content,
and the set of entry names (the heading ids) is unchanged. -/
theorem c6_update_semantics {n c : List Char} {d : PluginDoc}
    (hnOk : NameOkB n = true) (hc : SegOkB c = true)
    (_hbs : NoBackslashB c = true) (hwf : WellFormed d)
    (hmem : n ∈ bodyNames d) :
    (∀ html, edit_plugin_in_html n html = none ↔
      countEditMatches n html = 0) ∧
    countEditMatches n (render d) = 1 ∧
    update_plugin n c (render d) = render (updateModel n c d) ∧
    findH3Ids (update_plugin n c (render d)) = bodyNames d := by
  have hw := wfW_of hwf
  obtain ⟨hN, hS, hrest⟩ := hwf
  refine ⟨?_, ?_, update_render hnOk hc hw, ?_⟩
  · intro html
    unfold edit_plugin_in_html countEditMatches
    rw [genSearch_none_iff (mEditBlock_shrinks n), List.length_eq_zero]
  · unfold countEditMatches
    rw [editCollect_render hnOk hw, List.length_map]
    have h2 : ((bodyNames d).filter fun m => m = n) =
        (d.body.filter fun se => se.2.name = n).map fun se => se.2.name := by
      unfold bodyNames
      rw [List.filter_map]
      rfl
    have h3 : ((bodyNames d).filter fun m => m = n).length =
        (d.body.filter fun se => se.2.name = n).length := by
      rw [h2, List.length_map]
    rw [← h3]
    exact length_filter_eq (strictSorted_nodup hS) hmem
  · rw [update_render hnOk hc hw,
      findH3Ids_render (wfW_updateModel hnOk hc hw), bodyNames_updateModel]

/-- Concrete instance of C6: editing `alpha` in the example document
matches once, rewrites its block with the new content, and keeps the
name list unchanged. -/
theorem c6_update_semantics_witness :
    NameOkB (slit "alpha") = true ∧ SegOkB (slit "NEW.") = true ∧
    NoBackslashB (slit "NEW.") = true ∧
    WellFormed exDoc ∧ slit "alpha" ∈ bodyNames exDoc ∧
    ((∀ html, edit_plugin_in_html (slit "alpha") html = none ↔
        countEditMatches (slit "alpha") html = 0) ∧
      countEditMatches (slit "alpha") (render exDoc) = 1 ∧
      update_plugin (slit "alpha") (slit "NEW.") (render exDoc) =
        render (updateModel (slit "alpha") (slit "NEW.") exDoc) ∧
      findH3Ids (update_plugin (slit "alpha") (slit "NEW.") (render exDoc)) =
        bodyNames exDoc) :=
  ⟨by decide, by decide, by decide, by decide, by decide,
    c6_update_semantics (by decide) (by decide) (by decide) (by decide)
      (by decide)⟩

end ManagePlugins

/-!
## Add, stage 1: the TOC re-rendering (C3, C4)
-/

namespace ManagePlugins

theorem getD_append_length {α : Type} (l₁ l₂ : List α) (d : α) :
    (l₁ ++ l₂).getD l₁.length d = l₂.getD 0 d := by
  induction l₁ with
  | nil => rfl
  | cons a t ih => simpa using ih

theorem tocClear_pre {d : PluginDoc} (hPre : SegOkB d.pre = true)
    (hMid : SegOkB d.mid = true) (Y : List Char) :
    ClearB mTocBlock (d.pre ++ (marker d.count ++ d.mid)) Y := by
  apply clearB_of_noStart mTocBlock_req
  apply noStart_append (noStart_of_litClear (prefix_self _)
    ((segOk_unpack hPre).2.2.1) _)
  apply noStart_append (noStart_marker2 tocOpen_head _)
  exact noStart_of_litClear (prefix_self _) ((segOk_unpack hMid).2.2.1) _

theorem mTocBlock_at {t : List (List Char × List Char)} {te w : List Char}
    (ht : ∀ pn ∈ t, pn.1.all isWs = true ∧ NameOkB pn.2 = true)
    (hte : te.all isWs = true) (hw : w.all isWs = true) (R : List Char) :
    mTocBlock (tocOpen ++ (tocBody t ++ (te ++ (slit "</div>" ++
      (w ++ (slit "</div>" ++ R)))))) = some (tocBody t ++ te, R) := by
  unfold mTocBlock
  rw [if_pos (List.isPrefixOf_iff_prefix.mpr (List.prefix_append _ _))]
  rw [List.drop_left]
  rw [show tocBody t ++ (te ++ (slit "</div>" ++ (w ++ (slit "</div>" ++ R)))) =
      (tocBody t ++ te) ++ (slit "</div>" ++ (w ++ (slit "</div>" ++ R))) from by
    simp only [List.append_assoc]]
  have hX : ClearB closeDiv (tocBody t ++ te)
      (slit "</div>" ++ (w ++ (slit "</div>" ++ R))) := by
    apply clearB_of_noStart closeDiv_req
    apply noStart_append (noStart_tocBody (prefix_self _)
      (show (slit "</div>").head? = some '<' by decide)
      (Or.inl rfl) (by decide) (by decide) (by decide) ht _)
    exact noStart_ws2 (show (slit "</div>").head? = some '<' by decide)
      (by decide) hte
  rw [findDivClose_skip_some hX
    (findDivClose_front R (List.all_eq_true.mp hw))]
  rw [List.append_nil]

theorem noStart_tocSuffix {d : PluginDoc} (hwf : WellFormedW d) (Y : List Char) :
    NoStart tocOpen (d.mid2 ++ (slit "<hr>" ++ (bodyBody d.body ++
      (d.endSep ++ (slit "</article>" ++ d.post))))) Y := by
  obtain ⟨hN, hBN, hPads, hTE, hTM, hSeps, hCont, hES, hESn, hPre, hMid,
    hMid2, hPost⟩ := hwf
  have hsel : ∀ x, SegOkB x = true → litClearB tocOpen x = true :=
    fun x hx => (segOk_unpack hx).2.2.1
  apply noStart_append (noStart_of_litClear (prefix_self _) (hsel _ hMid2) _)
  apply noStart_append (noStart_of_litClear (prefix_self _) (by decide) _)
  apply noStart_append (noStart_bodyBody (prefix_self _) tocOpen_head
    (Or.inl rfl) (by decide) (by decide)
    (fun se hse => ⟨hSeps se hse, hsel _ (hCont se hse),
      hBN se.2.name (List.mem_map_of_mem _ hse)⟩)
    (fun se hse V => by rw [blockCore_ra]; exact toco_vs_block _) _)
  exact noStart_tail (prefix_self _) tocOpen_head (Or.inl rfl) hsel
    (by decide) hES hPost _

theorem tocSearch_render {d : PluginDoc} (hwf : WellFormedW d) :
    genSearch mTocBlock (render d) = some (tocBody d.toc ++ d.tocEnd) := by
  have hwf2 := hwf
  obtain ⟨hN, hBN, hPads, hTE, hTM, hSeps, hCont, hES, hESn, hPre, hMid,
    hMid2, hPost⟩ := hwf2
  have htoc : ∀ pn ∈ d.toc, pn.1.all isWs = true ∧ NameOkB pn.2 = true :=
    fun pn hpn => ⟨hPads pn hpn, hN pn.2 (List.mem_map_of_mem _ hpn)⟩
  rw [render_eq d]
  rw [show d.pre ++ (marker d.count ++ (d.mid ++ (tocOpen ++ (tocBody d.toc ++
      (d.tocEnd ++ (slit "</div>" ++ (d.tocMid ++ (slit "</div>" ++ (d.mid2 ++
      (slit "<hr>" ++ (bodyBody d.body ++ (d.endSep ++ (slit "</article>" ++
      d.post))))))))))))) =
    (d.pre ++ (marker d.count ++ d.mid)) ++
    (tocOpen ++ (tocBody d.toc ++ (d.tocEnd ++ (slit "</div>" ++ (d.tocMid ++
      (slit "</div>" ++ (d.mid2 ++ (slit "<hr>" ++ (bodyBody d.body ++
      (d.endSep ++ (slit "</article>" ++ d.post))))))))))) from by
    simp only [List.append_assoc]]
  rw [genSearch_skipC (tocClear_pre hPre hMid _)]
  exact genSearch_hit
    (fun hcon => by
      rw [List.append_eq_nil] at hcon
      exact absurd hcon.1 (by decide))
    (mTocBlock_at htoc hTE hTM _)

theorem tocScan_render (E : List Char) {d : PluginDoc} (hwf : WellFormedW d) :
    genScan mTocBlock (fun _ => E) (render d) =
      d.pre ++ (marker d.count ++ (d.mid ++ (E ++ (d.mid2 ++ (slit "<hr>" ++
        (bodyBody d.body ++ (d.endSep ++ (slit "</article>" ++ d.post)))))))) := by
  have hwf2 := hwf
  obtain ⟨hN, hBN, hPads, hTE, hTM, hSeps, hCont, hES, hESn, hPre, hMid,
    hMid2, hPost⟩ := hwf2
  have htoc : ∀ pn ∈ d.toc, pn.1.all isWs = true ∧ NameOkB pn.2 = true :=
    fun pn hpn => ⟨hPads pn hpn, hN pn.2 (List.mem_map_of_mem _ hpn)⟩
  rw [render_eq d]
  rw [show d.pre ++ (marker d.count ++ (d.mid ++ (tocOpen ++ (tocBody d.toc ++
      (d.tocEnd ++ (slit "</div>" ++ (d.tocMid ++ (slit "</div>" ++ (d.mid2 ++
      (slit "<hr>" ++ (bodyBody d.body ++ (d.endSep ++ (slit "</article>" ++
      d.post))))))))))))) =
    (d.pre ++ (marker d.count ++ d.mid)) ++
    (tocOpen ++ (tocBody d.toc ++ (d.tocEnd ++ (slit "</div>" ++ (d.tocMid ++
      (slit "</div>" ++ (d.mid2 ++ (slit "<hr>" ++ (bodyBody d.body ++
      (d.endSep ++ (slit "</article>" ++ d.post))))))))))) from by
    simp only [List.append_assoc]]
  rw [genScan_skipC (tocClear_pre hPre hMid _)]
  rw [genScan_hit mTocBlock_shrinks (mTocBlock_at htoc hTE hTM _)]
  have hT : genScan mTocBlock (fun _ => E)
      (d.mid2 ++ (slit "<hr>" ++ (bodyBody d.body ++
        (d.endSep ++ (slit "</article>" ++ d.post))))) =
      d.mid2 ++ (slit "<hr>" ++ (bodyBody d.body ++
        (d.endSep ++ (slit "</article>" ++ d.post)))) := by
    have hcl : ClearB mTocBlock
        (d.mid2 ++ (slit "<hr>" ++ (bodyBody d.body ++
          (d.endSep ++ (slit "</article>" ++ d.post))))) [] :=
      clearB_of_noStart mTocBlock_req (noStart_tocSuffix hwf _)
    have h2 := @genScan_skipC _ _
      (fun _ => E) _ ([] : List Char) hcl
    rw [List.append_nil] at h2
    rw [h2, genScan_nil, List.append_nil]
  rw [hT]
  simp only [List.append_assoc]

theorem findLinkIds_middle {d : PluginDoc} (hwf : WellFormedW d) :
    findLinkIds (tocBody d.toc ++ d.tocEnd) = tocNames d := by
  obtain ⟨hN, hBN, hPads, hTE, hTM, hSeps, hCont, hES, hESn, hPre, hMid,
    hMid2, hPost⟩ := hwf
  have htoc : ∀ pn ∈ d.toc, pn.1.all isWs = true ∧ NameOkB pn.2 = true :=
    fun pn hpn => ⟨hPads pn hpn, hN pn.2 (List.mem_map_of_mem _ hpn)⟩
  have hT : genCollect mLink d.tocEnd = [] := by
    have hcl : ClearB mLink d.tocEnd [] :=
      clearB_of_noStart mLink_req (noStart_ws2 slitLink_head (by decide) hTE)
    have h2 := genCollect_skipC hcl
    rw [List.append_nil] at h2
    rw [h2]
    rfl
  unfold findLinkIds
  rw [collect_mLink_toc htoc hT]
  rfl

end ManagePlugins

namespace ManagePlugins

theorem interc_links (m : List Char) (ms : List (List Char)) :
    slit "\n" ++ List.intercalate (slit "\n") ((m :: ms).map linkLine) =
      tocBody ((m :: ms).map fun q => (slit "\n                ", q)) := by
  induction ms generalizing m with
  | nil =>
    rw [show (([m] : List (List Char)).map linkLine) = [linkLine m] from rfl]
    rw [show List.intercalate (slit "\n") [linkLine m] = linkLine m from by
      unfold List.intercalate
      simp [List.intersperse]]
    unfold tocBody linkLine
    simp only [List.map_cons, List.map_nil, List.flatten_cons,
      List.flatten_nil, List.append_nil]
    rw [show (slit "\n                " : List Char) =
      slit "\n" ++ slit "                " from rfl]
    simp [List.append_assoc]
  | cons m2 ms2 ih =>
    rw [List.map_cons, List.map_cons]
    rw [show List.intercalate (slit "\n")
        (linkLine m :: linkLine m2 :: List.map linkLine ms2) =
        linkLine m ++ (slit "\n" ++ List.intercalate (slit "\n")
          (linkLine m2 :: List.map linkLine ms2)) from by
      unfold List.intercalate
      simp [List.intersperse]]
    have ih2 := ih m2
    rw [List.map_cons] at ih2
    rw [show slit "\n" ++ (linkLine m ++ (slit "\n" ++ List.intercalate (slit "\n")
        (linkLine m2 :: List.map linkLine ms2))) =
      (slit "\n" ++ linkLine m) ++ (slit "\n" ++ List.intercalate (slit "\n")
        (linkLine m2 :: List.map linkLine ms2)) from by
      simp only [List.append_assoc]]
    rw [ih2]
    rw [show ((m :: m2 :: ms2).map fun q =>
        ((slit "\n                " : List Char), q)) =
      (slit "\n                ", m) :: ((m2 :: ms2).map fun q =>
        ((slit "\n                " : List Char), q)) from rfl]
    rw [show tocBody ((slit "\n                ", m) :: ((m2 :: ms2).map fun q =>
        ((slit "\n                " : List Char), q))) =
      (slit "\n                " ++ linkFull m) ++
        tocBody ((m2 :: ms2).map fun q =>
          ((slit "\n                " : List Char), q)) from by
      unfold tocBody
      simp [List.append_assoc]]
    unfold linkLine
    rw [show (slit "\n                " : List Char) =
      slit "\n" ++ slit "                " from rfl]
    simp [List.append_assoc]

theorem tocRep_render {names : List (List Char)} (h : names ≠ []) :
    tocReplacement names =
      tocOpen ++ (tocBody (names.map fun m => (slit "\n                ", m)) ++
        (slit "\n            " ++ (slit "</div>" ++
          (slit "\n        " ++ slit "</div>")))) := by
  match names with
  | m :: ms =>
    unfold tocReplacement
    rw [show (slit "<div class=\"toc-list\">\n" : List Char) =
      tocOpen ++ slit "\n" from by decide]
    rw [show (slit "\n            </div>\n        </div>" : List Char) =
      slit "\n            " ++ (slit "</div>" ++
        (slit "\n        " ++ slit "</div>")) from by decide]
    rw [show (tocOpen ++ slit "\n") ++ List.intercalate (slit "\n")
        ((m :: ms).map linkLine) =
      tocOpen ++ (slit "\n" ++ List.intercalate (slit "\n")
        ((m :: ms).map linkLine)) from by simp only [List.append_assoc]]
    rw [interc_links]
    simp only [List.append_assoc]

theorem addToc_render {n : List Char} {d : PluginDoc} (hwf : WellFormedW d) :
    addToc n (render d) =
      render {d with
        toc := (sortedSetNames (tocNames d ++ [n])).map
          fun m => (slit "\n                ", m),
        tocEnd := slit "\n            ",
        tocMid := slit "\n        "} := by
  unfold addToc
  rw [tocSearch_render hwf]
  show genScan mTocBlock (fun _ => tocReplacement (sortedSetNames
    (findLinkIds (tocBody d.toc ++ d.tocEnd) ++ [n]))) (render d) = _
  rw [findLinkIds_middle hwf]
  rw [tocScan_render _ hwf]
  have hne : sortedSetNames (tocNames d ++ [n]) ≠ [] :=
    List.ne_nil_of_mem ((mem_sortedSetNames n _).mpr
      (List.mem_append_right _ (by simp)))
  rw [tocRep_render hne]
  rw [render_eq]
  simp only [List.append_assoc]

end ManagePlugins

namespace ManagePlugins

theorem art_vs_block (W : List Char) :
    (slit "</article>").isPrefixOf (slit "<h3 id=\"" ++ W) = false := by
  simp [slit, List.isPrefixOf]

theorem dropWhile_head_nonws {l : List Char} {c : Char} (h : l.head? = some c)
    (hc : isWs c = false) : l.dropWhile isWs = l := by
  match l with
  | [] => rfl
  | a :: t =>
    have ha : a = c := by simpa using h
    rw [List.dropWhile_cons, if_neg (by rw [ha, hc]; simp)]

theorem noStart_hr_h3full {n : List Char} (hn : ∀ a ∈ n, plainCharB a = true)
    (Y : List Char) : NoStart (slit "<hr>") (h3full n) Y := by
  have hsh : h3full n = '<' :: (slit "h3 id=\"" ++ (n ++ (['"', '>'] ++
      (n ++ slit "</h3>")))) := by
    rw [h3full_cons]
    rfl
  have hT : NoStart ('<' :: slit "hr>")
      (slit "h3 id=\"" ++ (n ++ (['"', '>'] ++ (n ++ slit "</h3>")))) Y := by
    apply noStart_append (noStart_no_head (by decide) _)
    apply noStart_append (noStart_name hn (Or.inl rfl) _)
    apply noStart_append (noStart_no_head (by decide) _)
    apply noStart_append (noStart_name hn (Or.inl rfl) _)
    exact noStart_of_litClear (prefix_self _) (by decide) _
  rw [show (slit "<hr>" : List Char) = '<' :: slit "hr>" from rfl]
  rw [hsh]
  apply noStart_cons _ hT
  rw [show ('<' :: ((slit "h3 id=\"" ++ (n ++ (['"', '>'] ++
      (n ++ slit "</h3>")))) ++ Y)) = h3full n ++ Y from by rw [hsh]; rfl]
  rw [h3full_ra]
  exact hr_vs_block _

theorem clearB_head_noStart {α : Type} {tm : List Char → Option (α × List Char)}
    {pat : List Char} (hreq : ∀ s q, tm s = some q → pat.isPrefixOf s = true)
    {c0 : Char} {X0 Y : List Char}
    (h0 : tm ((c0 :: X0) ++ Y) = none)
    (hN : NoStart pat X0 Y) : ClearB tm (c0 :: X0) Y := by
  intro x y hxy hy
  match x, hxy with
  | [], hxy =>
    have hy2 : c0 :: X0 = y := by simpa using hxy
    rw [← hy2]
    exact h0
  | x0 :: xr, hxy =>
    rw [List.cons_append] at hxy
    injection hxy with h1 h2
    cases htm : tm (y ++ Y) with
    | none => rfl
    | some q =>
      have h3 := hreq _ _ htm
      rw [hN xr y h2 hy] at h3
      exact absurd h3 (by simp)

end ManagePlugins

namespace ManagePlugins

theorem addEndScan {n c : List Char} {b : List (List Char × Entry)}
    {es post : List Char}
    (hb : ∀ se ∈ b, se.1.all isWs = true ∧ SegOkB se.2.content = true ∧
      NameOkB se.2.name = true)
    (hES : es.all isWs = true) (hESn : es.contains '\n' = true)
    (hPost : SegOkB post = true) :
    genScan mHrArticle
      (fun _ => slit "<hr>\n" ++ pluginHtml n c ++ slit "\n    </article>")
      (slit "<hr>" ++ (bodyBody b ++ (es ++ (slit "</article>" ++ post)))) =
      slit "<hr>" ++ (bodyBody (b ++ [(slit "\n\n", (⟨n, c⟩ : Entry))]) ++
        (slit "\n\n    " ++ (slit "</article>" ++ post))) := by
  induction b with
  | nil =>
    rw [show bodyBody ([] : List (List Char × Entry)) = [] from rfl,
      List.nil_append]
    rw [genScan_hit mHrArticle_shrinks
      (mHrArticle_at post (List.all_eq_true.mp hES) hESn)]
    have hT : genScan mHrArticle
        (fun _ => slit "<hr>\n" ++ pluginHtml n c ++ slit "\n    </article>")
        post = post := by
      have hcl : ClearB mHrArticle post [] :=
        clearB_of_noStart mHrArticle_req
          (noStart_of_litClear (prefix_self _)
            ((segOk_unpack hPost).2.2.2.1) _)
      have h2 := @genScan_skipC _ _
        (fun _ => slit "<hr>\n" ++ pluginHtml n c ++ slit "\n    </article>")
        _ ([] : List Char) hcl
      rw [List.append_nil] at h2
      rw [h2, genScan_nil, List.append_nil]
    rw [hT]
    unfold pluginHtml bodyBody blockCore
    rw [show (slit "<hr>\n" : List Char) = slit "<hr>" ++ slit "\n" from rfl,
      show (slit "\n    </article>" : List Char) =
        slit "\n    " ++ slit "</article>" from rfl,
      show (slit "\n\n" : List Char) = slit "\n" ++ slit "\n" from rfl,
      show (slit "\n\n    " : List Char) = slit "\n" ++ slit "\n    " from rfl,
      show (slit "</p>\n<hr>\n" : List Char) =
        slit "</p>\n<hr>" ++ slit "\n" from rfl]
    simp [List.append_assoc]
  | cons se rest ih =>
    obtain ⟨hsep, hcon, hnm⟩ := hb se (by simp)
    have ih2 := ih fun q hq => hb q (by simp [hq])
    have hregion : slit "<hr>" ++ (bodyBody (se :: rest) ++
        (es ++ (slit "</article>" ++ post))) =
        (slit "<hr>" ++ (se.1 ++ (h3full se.2.name ++ (slit "\n<p>" ++
          (se.2.content ++ slit "</p>\n"))))) ++
        (slit "<hr>" ++ (bodyBody rest ++ (es ++ (slit "</article>" ++ post)))) := by
      unfold bodyBody blockCore
      rw [show (slit "</p>\n<hr>" : List Char) =
        slit "</p>\n" ++ slit "<hr>" from rfl]
      simp [List.append_assoc]
    rw [hregion]
    have hX : ClearB mHrArticle
        (slit "<hr>" ++ (se.1 ++ (h3full se.2.name ++ (slit "\n<p>" ++
          (se.2.content ++ slit "</p>\n")))))
        (slit "<hr>" ++ (bodyBody rest ++ (es ++ (slit "</article>" ++ post)))) := by
      rw [show slit "<hr>" ++ (se.1 ++ (h3full se.2.name ++ (slit "\n<p>" ++
          (se.2.content ++ slit "</p>\n")))) =
        '<' :: (slit "hr>" ++ (se.1 ++ (h3full se.2.name ++ (slit "\n<p>" ++
          (se.2.content ++ slit "</p>\n"))))) from rfl]
      apply clearB_head_noStart mHrArticle_req
      · rw [show ('<' :: (slit "hr>" ++ (se.1 ++ (h3full se.2.name ++
            (slit "\n<p>" ++ (se.2.content ++ slit "</p>\n")))))) ++
            (slit "<hr>" ++ (bodyBody rest ++ (es ++ (slit "</article>" ++ post)))) =
          slit "<hr>" ++ (se.1 ++ (h3full se.2.name ++ (slit "\n<p>" ++
            (se.2.content ++ (slit "</p>\n" ++
            (slit "<hr>" ++ (bodyBody rest ++ (es ++ (slit "</article>" ++ post)))))))))
          from by simp only [List.cons_append, List.append_assoc]; rfl]
        apply mHrArticle_miss (List.all_eq_true.mp hsep)
        have hhd : (h3full se.2.name ++ (slit "\n<p>" ++ (se.2.content ++
            (slit "</p>\n" ++ (slit "<hr>" ++ (bodyBody rest ++ (es ++
            (slit "</article>" ++ post)))))))).head? = some '<' := by
          rw [List.head?_append_of_ne_nil _ (h3full_ne_nil _)]
          exact h3full_head _
        rw [dropWhile_head_nonws hhd (by decide)]
        rw [h3full_ra]
        exact art_vs_block _
      · apply noStart_append (noStart_of_litClear (prefix_self _) (by decide) _)
        apply noStart_append (noStart_ws2
          (show (slit "<hr>").head? = some '<' by decide) (by decide) hsep)
        apply noStart_append (noStart_hr_h3full (nameOk_unpack hnm).2 _)
        apply noStart_append (noStart_of_litClear (prefix_self _) (by decide) _)
        apply noStart_append (noStart_of_litClear (prefix_self _)
          ((segOk_unpack hcon).2.2.2.1) _)
        exact noStart_of_litClear (prefix_self _) (by decide) _
    rw [genScan_skipC hX, ih2]
    rw [show ((se :: rest) ++ [(slit "\n\n", (⟨n, c⟩ : Entry))]) =
      se :: (rest ++ [(slit "\n\n", (⟨n, c⟩ : Entry))]) from rfl]
    unfold bodyBody blockCore
    rw [show (slit "</p>\n<hr>" : List Char) =
      slit "</p>\n" ++ slit "<hr>" from rfl]
    simp [List.append_assoc]

end ManagePlugins

namespace ManagePlugins

theorem noStart_hrPrefix {d : PluginDoc} (hwf : WellFormedW d) (Y : List Char) :
    NoStart (slit "<hr>") (d.pre ++ (marker d.count ++ (d.mid ++ (tocOpen ++
      (tocBody d.toc ++ (d.tocEnd ++ (slit "</div>" ++ (d.tocMid ++
      (slit "</div>" ++ d.mid2))))))))) Y := by
  obtain ⟨hN, hBN, hPads, hTE, hTM, hSeps, hCont, hES, hESn, hPre, hMid,
    hMid2, hPost⟩ := hwf
  have htoc : ∀ pn ∈ d.toc, pn.1.all isWs = true ∧ NameOkB pn.2 = true :=
    fun pn hpn => ⟨hPads pn hpn, hN pn.2 (List.mem_map_of_mem _ hpn)⟩
  have hsel : ∀ x, SegOkB x = true → litClearB (slit "<hr>") x = true :=
    fun x hx => (segOk_unpack hx).2.2.2.1
  have hhd : (slit "<hr>").head? = some '<' := by decide
  apply noStart_append (noStart_of_litClear (prefix_self _) (hsel _ hPre) _)
  apply noStart_append (noStart_marker2 hhd _)
  apply noStart_append (noStart_of_litClear (prefix_self _) (hsel _ hMid) _)
  apply noStart_append (noStart_of_litClear (prefix_self _) (by decide) _)
  apply noStart_append (noStart_tocBody (prefix_self _) hhd (Or.inl rfl)
    (by decide) (by decide) (by decide) htoc _)
  apply noStart_append (noStart_ws2 hhd (by decide) hTE)
  apply noStart_append (noStart_of_litClear (prefix_self _) (by decide) _)
  apply noStart_append (noStart_ws2 hhd (by decide) hTM)
  apply noStart_append (noStart_of_litClear (prefix_self _) (by decide) _)
  exact noStart_of_litClear (prefix_self _) (hsel _ hMid2) _

theorem addEnd_render {n c : List Char} {d : PluginDoc} (hwf : WellFormedW d) :
    genScan mHrArticle
      (fun _ => slit "<hr>\n" ++ pluginHtml n c ++ slit "\n    </article>")
      (render d) =
      render {d with
        body := d.body ++ [(slit "\n\n", (⟨n, c⟩ : Entry))]
        endSep := slit "\n\n    "} := by
  have hwf2 := hwf
  obtain ⟨hN, hBN, hPads, hTE, hTM, hSeps, hCont, hES, hESn, hPre, hMid,
    hMid2, hPost⟩ := hwf2
  rw [render_eq d, render_eq]
  rw [show d.pre ++ (marker d.count ++ (d.mid ++ (tocOpen ++ (tocBody d.toc ++
      (d.tocEnd ++ (slit "</div>" ++ (d.tocMid ++ (slit "</div>" ++ (d.mid2 ++
      (slit "<hr>" ++ (bodyBody d.body ++ (d.endSep ++ (slit "</article>" ++
      d.post))))))))))))) =
    (d.pre ++ (marker d.count ++ (d.mid ++ (tocOpen ++ (tocBody d.toc ++
      (d.tocEnd ++ (slit "</div>" ++ (d.tocMid ++ (slit "</div>" ++ d.mid2))))))))) ++
    (slit "<hr>" ++ (bodyBody d.body ++ (d.endSep ++ (slit "</article>" ++
      d.post)))) from by
    simp only [List.append_assoc]]
  rw [genScan_skipC (clearB_of_noStart mHrArticle_req (noStart_hrPrefix hwf _))]
  rw [addEndScan (fun se hse => ⟨hSeps se hse, hCont se hse,
    hBN se.2.name (List.mem_map_of_mem _ hse)⟩) hES hESn hPost]
  simp only [List.append_assoc]

end ManagePlugins

namespace ManagePlugins

theorem tryLit_shrinks {pat : List Char} (hne : pat ≠ []) :
    Shrinks (tryLit pat) := by
  intro s a r h
  unfold tryLit at h
  by_cases hp : pat.isPrefixOf s
  · rw [if_pos hp] at h
    injection h with h2
    have hr : s.drop pat.length = r := congrArg Prod.snd h2
    have hl : 1 ≤ pat.length := List.length_pos.mpr hne
    have hls : pat.length ≤ s.length :=
      (List.isPrefixOf_iff_prefix.mp hp).length_le
    rw [← hr, List.length_drop]
    omega
  · rw [if_neg hp] at h
    exact absurd h (by simp)

theorem h3full_split (q : List Char) :
    h3full q = h3open q ++ (q ++ slit "</h3>") := by
  unfold h3full h3open
  simp [List.append_assoc]

theorem addMidScan {n c m : List Char} (hmq : ∀ x ∈ m, x ≠ '"')
    {bpre : List (List Char × Entry)} {seM : List Char × Entry}
    {rest : List (List Char × Entry)} {T : List Char}
    (hbp : ∀ se ∈ bpre, se.1.all isWs = true ∧ SegOkB se.2.content = true ∧
      NameOkB se.2.name = true ∧ se.2.name ≠ m)
    (hsepM : seM.1.all isWs = true) (hconM : SegOkB seM.2.content = true)
    (hnmM : NameOkB seM.2.name = true) (hM : seM.2.name = m)
    (hrest : ∀ se ∈ rest, se.1.all isWs = true ∧ SegOkB se.2.content = true ∧
      NameOkB se.2.name = true ∧ se.2.name ≠ m)
    (hTn : NoStart (h3open m) T []) :
    genScan (tryLit (h3open m)) (fun _ => pluginHtml n c ++ h3open m)
      (bodyBody (bpre ++ seM :: rest) ++ T) =
      bodyBody (bpre ++ (seM.1 ++ slit "\n", (⟨n, c⟩ : Entry)) ::
        (slit "\n", seM.2) :: rest) ++ T := by
  induction bpre with
  | nil =>
    subst hM
    have hmpl : ∀ a ∈ seM.2.name, plainCharB a = true := (nameOk_unpack hnmM).2
    rw [List.nil_append, List.nil_append]
    rw [show bodyBody (seM :: rest) ++ T =
      seM.1 ++ (blockCore seM.2 ++ (bodyBody rest ++ T)) from by
      unfold bodyBody
      simp [List.append_assoc]]
    rw [genScan_skipC (clearB_of_noStart (tryLit_req _)
      (noStart_ws2 (h3open_head seM.2.name) (by decide) hsepM))]
    have hat : tryLit (h3open seM.2.name)
        (blockCore seM.2 ++ (bodyBody rest ++ T)) =
        some ((), seM.2.name ++ (slit "</h3>\n<p>" ++ (seM.2.content ++
          (slit "</p>\n<hr>" ++ (bodyBody rest ++ T))))) :=
      tryLit_h3open_at seM.2.name seM.2.content (bodyBody rest ++ T)
    rw [genScan_hit (tryLit_shrinks (fun hcon => by
      have h2 := h3open_head seM.2.name
      rw [hcon] at h2
      simp at h2)) hat]
    have hrem : genScan (tryLit (h3open seM.2.name))
        (fun _ => pluginHtml n c ++ h3open seM.2.name)
        (seM.2.name ++ (slit "</h3>\n<p>" ++ (seM.2.content ++
          (slit "</p>\n<hr>" ++ (bodyBody rest ++ T))))) =
        seM.2.name ++ (slit "</h3>\n<p>" ++ (seM.2.content ++
          (slit "</p>\n<hr>" ++ (bodyBody rest ++ T)))) := by
      have hcl : ClearB (tryLit (h3open seM.2.name))
          (seM.2.name ++ (slit "</h3>\n<p>" ++ (seM.2.content ++
            (slit "</p>\n<hr>" ++ (bodyBody rest ++ T))))) [] := by
        apply clearB_of_noStart (tryLit_req _)
        apply noStart_append (noStart_name2 (h3open_head _) (Or.inl rfl) hmpl)
        apply noStart_append (noStart_of_litClear (h3open_pre8 _) (by decide) _)
        apply noStart_append (noStart_of_litClear (h3open_pre8 _)
          ((segOk_unpack hconM).1) _)
        apply noStart_append (noStart_of_litClear (h3open_pre8 _) (by decide) _)
        apply noStart_append (noStart_bodyBody (h3open_pre8 _)
          (h3open_head _) (Or.inl rfl) (by decide) (by decide)
          (fun se hse => ⟨(hrest se hse).1, (segOk_unpack (hrest se hse).2.1).1,
            (hrest se hse).2.2.1⟩)
          (fun se hse V => by
            rw [blockCore_ra]
            exact h3open_not_prefix hmq
              (fun x hx => (plain_facts ((nameOk_unpack (hrest se hse).2.2.1).2 x hx)).1)
              (fun hc2 => (hrest se hse).2.2.2 hc2.symm)) _)
        exact hTn
      have h2 := @genScan_skipC _ _
        (fun _ => pluginHtml n c ++ h3open seM.2.name) _ ([] : List Char) hcl
      rw [List.append_nil] at h2
      rw [h2, genScan_nil, List.append_nil]
    rw [hrem]
    rw [show bodyBody ((seM.1 ++ slit "\n", (⟨n, c⟩ : Entry)) ::
        (slit "\n", seM.2) :: rest) ++ T =
      (seM.1 ++ slit "\n") ++ (blockCore ⟨n, c⟩ ++ (slit "\n" ++
        (blockCore seM.2 ++ (bodyBody rest ++ T)))) from by
      unfold bodyBody
      simp [List.append_assoc]]
    unfold pluginHtml blockCore
    rw [h3full_split, h3full_split]
    rw [show (slit "</h3>\n<p>" : List Char) =
      slit "</h3>" ++ slit "\n<p>" from rfl]
    rw [show (slit "</p>\n<hr>\n" : List Char) =
      slit "</p>\n<hr>" ++ slit "\n" from rfl]
    simp [List.append_assoc]
  | cons se bp2 ih =>
    obtain ⟨hsep, hcon, hnm, hne⟩ := hbp se (by simp)
    have ih2 := ih fun q hq => hbp q (by simp [hq])
    have hq2 : ∀ a ∈ se.2.name, plainCharB a = true := (nameOk_unpack hnm).2
    have hq2q : ∀ x ∈ se.2.name, x ≠ '"' :=
      fun x hx => (plain_facts (hq2 x hx)).1
    rw [show bodyBody ((se :: bp2) ++ seM :: rest) ++ T =
      (se.1 ++ blockCore se.2) ++ (bodyBody (bp2 ++ seM :: rest) ++ T) from by
      unfold bodyBody
      simp [List.append_assoc]]
    have hcl : ClearB (tryLit (h3open m)) (se.1 ++ blockCore se.2)
        (bodyBody (bp2 ++ seM :: rest) ++ T) := by
      apply clearB_of_noStart (tryLit_req _)
      apply noStart_append (noStart_ws2 (h3open_head m) (by decide) hsep)
      apply noStart_blockCore2 (h3open_head m) (h3open_pre8 m) (Or.inl rfl)
        (by
          rw [blockCore_ra]
          exact h3open_not_prefix hmq hq2q (fun hc2 => hne hc2.symm))
        (by decide) (by decide) (segOk_unpack hcon).1 hq2
    rw [genScan_skipC hcl, ih2]
    rw [show bodyBody ((se :: bp2) ++ (seM.1 ++ slit "\n", (⟨n, c⟩ : Entry)) ::
        (slit "\n", seM.2) :: rest) ++ T =
      (se.1 ++ blockCore se.2) ++
        (bodyBody (bp2 ++ (seM.1 ++ slit "\n", (⟨n, c⟩ : Entry)) ::
          (slit "\n", seM.2) :: rest) ++ T) from by
      unfold bodyBody
      simp [List.append_assoc]]

end ManagePlugins

namespace ManagePlugins

theorem addMid_render {n c m : List Char} {d : PluginDoc}
    (hwf : WellFormedW d)
    {bpre rest : List (List Char × Entry)} {seM : List Char × Entry}
    (hbody : d.body = bpre ++ seM :: rest)
    (hM : seM.2.name = m)
    (hpre : ∀ se ∈ bpre, se.2.name ≠ m)
    (hrest2 : ∀ se ∈ rest, se.2.name ≠ m) :
    genScan (tryLit (h3open m)) (fun _ => pluginHtml n c ++ h3open m)
      (render d) =
      render {d with body := bpre ++ (seM.1 ++ slit "\n", (⟨n, c⟩ : Entry)) ::
        (slit "\n", seM.2) :: rest} := by
  have hwf2 := hwf
  obtain ⟨hN, hBN, hPads, hTE, hTM, hSeps, hCont, hES, hESn, hPre, hMid,
    hMid2, hPost⟩ := hwf2
  have hsel : ∀ x, SegOkB x = true → litClearB (slit "<h3 id=\"") x = true :=
    fun x hx => (segOk_unpack hx).1
  have hmM : seM ∈ d.body := by
    rw [hbody]
    exact List.mem_append_right _ (by simp)
  have hnmM : NameOkB seM.2.name = true :=
    hBN seM.2.name (List.mem_map_of_mem _ hmM)
  have hmq : ∀ x ∈ m, x ≠ '"' := by
    rw [← hM]
    exact fun x hx => (plain_facts ((nameOk_unpack hnmM).2 x hx)).1
  rw [render_eq d, render_eq]
  rw [show d.pre ++ (marker d.count ++ (d.mid ++ (tocOpen ++ (tocBody d.toc ++
      (d.tocEnd ++ (slit "</div>" ++ (d.tocMid ++ (slit "</div>" ++ (d.mid2 ++
      (slit "<hr>" ++ (bodyBody d.body ++ (d.endSep ++ (slit "</article>" ++
      d.post))))))))))))) =
    (d.pre ++ (marker d.count ++ (d.mid ++ (tocOpen ++ (tocBody d.toc ++
      (d.tocEnd ++ (slit "</div>" ++ (d.tocMid ++ (slit "</div>" ++ (d.mid2 ++
      slit "<hr>")))))))))) ++
    (bodyBody d.body ++ (d.endSep ++ (slit "</article>" ++ d.post))) from by
    simp only [List.append_assoc]]
  rw [genScan_skipC (clearB_of_noStart (tryLit_req _)
    (noStart_docPrefix (h3open_pre8 m) (h3open_head m) hsel (by decide)
      (by decide) (by decide) (by decide) (by decide) (by decide) hwf _))]
  rw [hbody]
  rw [addMidScan hmq
    (fun se hse => ⟨hSeps se (by rw [hbody]; exact List.mem_append_left _ hse),
      hCont se (by rw [hbody]; exact List.mem_append_left _ hse),
      hBN se.2.name (List.mem_map_of_mem _
        (by rw [hbody]; exact List.mem_append_left _ hse)), hpre se hse⟩)
    (hSeps seM hmM) (hCont seM hmM) hnmM hM
    (fun se hse => ⟨hSeps se (by
        rw [hbody]
        exact List.mem_append_right _ (by simp [hse])),
      hCont se (by
        rw [hbody]
        exact List.mem_append_right _ (by simp [hse])),
      hBN se.2.name (List.mem_map_of_mem _ (by
        rw [hbody]
        exact List.mem_append_right _ (by simp [hse]))), hrest2 se hse⟩)
    (noStart_tail (h3open_pre8 m) (h3open_head m) (Or.inl rfl) hsel
      (by decide) hES hPost _)]
  simp only [List.append_assoc]

end ManagePlugins

namespace ManagePlugins

theorem headI_cons_tail {α : Type} [Inhabited α] {l : List α} (h : l ≠ []) :
    l = l.headI :: l.tail := by
  match l, h with
  | a :: t, _ => rfl

theorem getD_append_add {α : Type} (l₁ l₂ : List α) (k : Nat) (d : α) :
    (l₁ ++ l₂).getD (l₁.length + k) d = l₂.getD k d := by
  induction l₁ with
  | nil => simp
  | cons a t ih =>
    show (a :: (t ++ l₂)).getD (t.length + 1 + k) d = _
    rw [show t.length + 1 + k = (t.length + k) + 1 from by omega]
    exact ih

theorem wfW_addToc {n : List Char} (hnOk : NameOkB n = true) {d : PluginDoc}
    (hwf : WellFormedW d) :
    WellFormedW {d with
      toc := (sortedSetNames (tocNames d ++ [n])).map
        fun m => (slit "\n                ", m)
      tocEnd := slit "\n            "
      tocMid := slit "\n        "} := by
  obtain ⟨hN, hBN, hPads, hTE, hTM, hSeps, hCont, hES, hESn, hPre, hMid,
    hMid2, hPost⟩ := hwf
  refine ⟨?_, hBN, ?_, ((by decide : (slit "\n            ").all isWs = true)),
    ((by decide : (slit "\n        ").all isWs = true)), hSeps, hCont, hES,
    hESn, hPre, hMid, hMid2, hPost⟩
  · intro q hq
    unfold tocNames at hq
    simp only [List.mem_map] at hq
    obtain ⟨pn, hpn, hpe⟩ := hq
    obtain ⟨r, hr, hre⟩ := hpn
    rw [← hpe, ← hre]
    have hr2 := (mem_sortedSetNames r _).mp hr
    rcases List.mem_append.mp hr2 with h2 | h2
    · exact hN r h2
    · rw [show r = n from by simpa using h2]
      exact hnOk
  · intro pn hpn
    simp only [List.mem_map] at hpn
    obtain ⟨r, hr, hre⟩ := hpn
    rw [← hre]
    show (slit "\n                ").all isWs = true
    decide

theorem wfW_bodyAppend {n c : List Char} (hnOk : NameOkB n = true)
    (hcok : SegOkB c = true) {d : PluginDoc} (hwf : WellFormedW d) :
    WellFormedW {d with
      body := d.body ++ [(slit "\n\n", (⟨n, c⟩ : Entry))]
      endSep := slit "\n\n    "} := by
  obtain ⟨hN, hBN, hPads, hTE, hTM, hSeps, hCont, hES, hESn, hPre, hMid,
    hMid2, hPost⟩ := hwf
  refine ⟨hN, ?_, hPads, hTE, hTM, ?_, ?_,
    ((by decide : (slit "\n\n    ").all isWs = true)),
    ((by decide : (slit "\n\n    ").contains '\n' = true)), hPre,
    hMid, hMid2, hPost⟩
  · intro q hq
    unfold bodyNames at hq
    simp only [List.mem_map] at hq
    obtain ⟨se, hse, hpe⟩ := hq
    rcases List.mem_append.mp hse with h2 | h2
    · rw [← hpe]
      exact hBN se.2.name (List.mem_map_of_mem _ h2)
    · rw [← hpe, show se = (slit "\n\n", (⟨n, c⟩ : Entry)) from by
        simpa using h2]
      exact hnOk
  · intro se hse
    rcases List.mem_append.mp hse with h2 | h2
    · exact hSeps se h2
    · rw [show se = (slit "\n\n", (⟨n, c⟩ : Entry)) from by simpa using h2]
      show (slit "\n\n").all isWs = true
      decide
  · intro se hse
    rcases List.mem_append.mp hse with h2 | h2
    · exact hCont se h2
    · rw [show se = (slit "\n\n", (⟨n, c⟩ : Entry)) from by simpa using h2]
      exact hcok

theorem wfW_bodyInsert {n c : List Char} (hnOk : NameOkB n = true)
    (hcok : SegOkB c = true) {d : PluginDoc} (hwf : WellFormedW d)
    {bpre rest : List (List Char × Entry)} {seM : List Char × Entry}
    (hbody : d.body = bpre ++ seM :: rest) :
    WellFormedW {d with
      body := bpre ++ (seM.1 ++ slit "\n", (⟨n, c⟩ : Entry)) ::
        (slit "\n", seM.2) :: rest} := by
  obtain ⟨hN, hBN, hPads, hTE, hTM, hSeps, hCont, hES, hESn, hPre, hMid,
    hMid2, hPost⟩ := hwf
  have hold : ∀ se : List Char × Entry, se ∈ bpre ∨ se ∈ rest → se ∈ d.body := by
    intro se hse
    rw [hbody]
    rcases hse with h2 | h2
    · exact List.mem_append_left _ h2
    · exact List.mem_append_right _ (by simp [h2])
  have hseM : seM ∈ d.body := by
    rw [hbody]
    exact List.mem_append_right _ (by simp)
  refine ⟨hN, ?_, hPads, hTE, hTM, ?_, ?_, hES, hESn, hPre,
    hMid, hMid2, hPost⟩
  · intro q hq
    unfold bodyNames at hq
    simp only [List.mem_map] at hq
    obtain ⟨se, hse, hpe⟩ := hq
    rw [← hpe]
    rcases List.mem_append.mp hse with h2 | h2
    · exact hBN se.2.name (List.mem_map_of_mem _ (hold se (Or.inl h2)))
    · rcases List.mem_cons.mp h2 with h3 | h3
      · rw [h3]
        exact hnOk
      · rcases List.mem_cons.mp h3 with h4 | h4
        · rw [h4]
          exact hBN seM.2.name (List.mem_map_of_mem _ hseM)
        · exact hBN se.2.name (List.mem_map_of_mem _ (hold se (Or.inr h4)))
  · intro se hse
    rcases List.mem_append.mp hse with h2 | h2
    · exact hSeps se (hold se (Or.inl h2))
    · rcases List.mem_cons.mp h2 with h3 | h3
      · rw [h3]
        show ((seM.1 ++ slit "\n").all isWs) = true
        rw [List.all_append]
        rw [hSeps seM hseM]
        decide
      · rcases List.mem_cons.mp h3 with h4 | h4
        · rw [h4]
          show (slit "\n").all isWs = true
          decide
        · exact hSeps se (hold se (Or.inr h4))
  · intro se hse
    rcases List.mem_append.mp hse with h2 | h2
    · exact hCont se (hold se (Or.inl h2))
    · rcases List.mem_cons.mp h2 with h3 | h3
      · rw [h3]
        exact hcok
      · rcases List.mem_cons.mp h3 with h4 | h4
        · rw [h4]
          exact hCont seM hseM
        · exact hCont se (hold se (Or.inr h4))

end ManagePlugins

namespace ManagePlugins

theorem headI_head? {α : Type} [Inhabited α] {l : List α} (h : l ≠ []) :
    l.head? = some l.headI := by
  match l, h with
  | a :: t, _ => rfl

theorem add_render {n : List Char} {desc cmds : String} {d : PluginDoc}
    (hnOk : NameOkB n = true) (hwf : WellFormed d) (hnm : n ∉ bodyNames d)
    (hcok : SegOkB (desc.data ++ commandsHtml cmds) = true) :
    add_plugin_to_html n desc cmds (render d) =
      render (addModel n (desc.data ++ commandsHtml cmds) d) := by
  have hw := wfW_of hwf
  obtain ⟨hN0, hS, hTB, hrest0⟩ := hwf
  unfold add_plugin_to_html
  generalize hC : desc.data ++ commandsHtml cmds = C at hcok ⊢
  rw [findH3Ids_render hw]
  rw [addToc_render hw]
  rw [sortedSetNames_insert (bodyNames d) n hS hnm]
  unfold addBody
  have hidx := idxOfName_insert (bodyNames d) n hnm
  by_cases hall : (bodyNames d).all (fun m => lexLtB m n) = true
  · have hD : (bodyNames d).dropWhile (fun m => lexLtB m n) = [] :=
      List.dropWhile_eq_nil_iff.mpr (fun x hx => List.all_eq_true.mp hall x hx)
    have hT2 : (bodyNames d).takeWhile (fun m => lexLtB m n) = bodyNames d :=
      List.takeWhile_eq_self_iff.mpr (fun x hx => List.all_eq_true.mp hall x hx)
    rw [if_pos (by
      rw [hidx, hD, hT2]
      simp)]
    rw [addEnd_render (wfW_addToc hnOk hw)]
    rw [update_plugin_count_render
      (wfW_bodyAppend hnOk hcok (wfW_addToc hnOk hw))]
    rw [show addModel n C d = {d with
        toc := (sortedSetNames (tocNames d ++ [n])).map
          fun m => (slit "\n                ", m)
        tocEnd := slit "\n            "
        tocMid := slit "\n        "
        body := d.body ++ [(slit "\n\n", (⟨n, C⟩ : Entry))]
        count := d.body.length + 1
        endSep := slit "\n\n    "} from by
      unfold addModel
      rw [if_pos hall, if_pos hall]]
    rw [show (({d with
        toc := (sortedSetNames (tocNames d ++ [n])).map
          fun m => (slit "\n                ", m)
        tocEnd := slit "\n            "
        tocMid := slit "\n        "} : PluginDoc).body ++
          [(slit "\n\n", (⟨n, C⟩ : Entry))]).length = d.body.length + 1 from by
      simp]
  · have hDne : (bodyNames d).dropWhile (fun m => lexLtB m n) ≠ [] := by
      intro h0
      exact hall (List.all_eq_true.mpr (List.dropWhile_eq_nil_iff.mp h0))
    have hDpos : 1 ≤ ((bodyNames d).dropWhile (fun m => lexLtB m n)).length :=
      List.length_pos.mpr hDne
    rw [if_neg (by
      rw [hidx]
      have hlen2 : (((bodyNames d).takeWhile (fun m => lexLtB m n)) ++
          n :: ((bodyNames d).dropWhile (fun m => lexLtB m n))).length =
          ((bodyNames d).takeWhile (fun m => lexLtB m n)).length +
            ((bodyNames d).dropWhile (fun m => lexLtB m n)).length + 1 := by
        simp
        omega
      rw [hlen2]
      omega)]
    rw [hidx]
    rw [show ((bodyNames d).takeWhile (fun m => lexLtB m n)).length + 1 =
      ((bodyNames d).takeWhile (fun m => lexLtB m n)).length + 1 from rfl]
    rw [getD_append_add ((bodyNames d).takeWhile (fun m => lexLtB m n))
      (n :: ((bodyNames d).dropWhile (fun m => lexLtB m n))) 1 []]
    rw [show (n :: ((bodyNames d).dropWhile (fun m => lexLtB m n))).getD 1 [] =
      ((bodyNames d).dropWhile (fun m => lexLtB m n)).headI from by
      show ((bodyNames d).dropWhile (fun m => lexLtB m n)).getD 0 [] = _
      rw [headI_cons_tail hDne]
      rfl]
    have hdmap : (bodyNames d).dropWhile (fun m => lexLtB m n) =
        (d.body.dropWhile fun se => lexLtB se.2.name n).map
          fun se => se.2.name := by
      show (d.body.map fun se => se.2.name).dropWhile _ = _
      exact List.dropWhile_map _ _ _
    have htmap : (bodyNames d).takeWhile (fun m => lexLtB m n) =
        (d.body.takeWhile fun se => lexLtB se.2.name n).map
          fun se => se.2.name := by
      show (d.body.map fun se => se.2.name).takeWhile _ = _
      exact List.takeWhile_map _ _ _
    have hdropne : d.body.dropWhile (fun se => lexLtB se.2.name n) ≠ [] := by
      intro h0
      apply hDne
      rw [hdmap, h0]
      rfl
    have hsplit : d.body =
        (d.body.takeWhile fun se => lexLtB se.2.name n) ++
        (d.body.dropWhile fun se => lexLtB se.2.name n).headI ::
        (d.body.dropWhile fun se => lexLtB se.2.name n).tail := by
      rw [← headI_cons_tail hdropne]
      exact (List.takeWhile_append_dropWhile _ _).symm
    have hM : ((d.body.dropWhile fun se => lexLtB se.2.name n).headI).2.name =
        ((bodyNames d).dropWhile (fun m => lexLtB m n)).headI := by
      rw [hdmap]
      rw [headI_cons_tail hdropne]
      rfl
    have hpre : ∀ se ∈ d.body.takeWhile fun se => lexLtB se.2.name n,
        se.2.name ≠ ((bodyNames d).dropWhile (fun m => lexLtB m n)).headI := by
      intro se hse heq
      have h1 : lexLtB se.2.name n = true := by
        have h2 := List.mem_takeWhile_imp
          (p := fun se : List Char × Entry => lexLtB se.2.name n) hse
        exact h2
      have h3 : lexLtB ((bodyNames d).dropWhile (fun m => lexLtB m n)).headI
          n = false :=
        dropWhile_head_false_gen (p := fun m : List Char => lexLtB m n)
          (headI_head? hDne)
      rw [heq] at h1
      rw [h1] at h3
      exact absurd h3 (by simp)
    have hmapsplit := congrArg (List.map fun se : List Char × Entry =>
      se.2.name) hsplit
    rw [List.map_append, List.map_cons] at hmapsplit
    have hnd2 : ((d.body.takeWhile fun se => lexLtB se.2.name n).map
        (fun se => se.2.name) ++
        ((d.body.dropWhile fun se => lexLtB se.2.name n).headI).2.name ::
        ((d.body.dropWhile fun se => lexLtB se.2.name n).tail).map
          (fun se => se.2.name)).Nodup := by
      rw [← hmapsplit]
      exact strictSorted_nodup hS
    have hrest2 : ∀ se ∈ (d.body.dropWhile fun se => lexLtB se.2.name n).tail,
        se.2.name ≠ ((bodyNames d).dropWhile (fun m => lexLtB m n)).headI := by
      intro se hse heq
      have h4 : ((d.body.dropWhile fun se => lexLtB se.2.name n).headI).2.name ∉
          ((d.body.dropWhile fun se => lexLtB se.2.name n).tail).map
            (fun se => se.2.name) :=
        (List.nodup_cons.mp hnd2.of_append_right).1
      apply h4
      rw [← (heq.trans hM.symm)]
      exact List.mem_map_of_mem _ hse
    rw [addMid_render (wfW_addToc hnOk hw) hsplit hM hpre hrest2]
    rw [update_plugin_count_render
      (wfW_bodyInsert hnOk hcok (wfW_addToc hnOk hw) hsplit)]
    have hlc := congrArg List.length hsplit
    rw [List.length_append, List.length_cons] at hlc
    rw [show ((d.body.takeWhile fun se => lexLtB se.2.name n) ++
        ((d.body.dropWhile fun se => lexLtB se.2.name n).headI.1 ++ slit "\n",
          (⟨n, C⟩ : Entry)) ::
        (slit "\n", (d.body.dropWhile fun se => lexLtB se.2.name n).headI.2) ::
        (d.body.dropWhile fun se => lexLtB se.2.name n).tail).length =
      d.body.length + 1 from by
      rw [List.length_append, List.length_cons, List.length_cons, hlc]
      omega]
    rw [show addModel n C d = {d with
        toc := (sortedSetNames (tocNames d ++ [n])).map
          fun m => (slit "\n                ", m)
        tocEnd := slit "\n            "
        tocMid := slit "\n        "
        body := (d.body.takeWhile fun se => lexLtB se.2.name n) ++
          ((d.body.dropWhile fun se => lexLtB se.2.name n).headI.1 ++ slit "\n",
            (⟨n, C⟩ : Entry)) ::
          (slit "\n", (d.body.dropWhile fun se => lexLtB se.2.name n).headI.2) ::
          (d.body.dropWhile fun se => lexLtB se.2.name n).tail
        count := d.body.length + 1} from by
      unfold addModel
      rw [if_neg hall, if_neg hall]]

end ManagePlugins

namespace ManagePlugins

theorem bodyNames_addModel (n c : List Char) {d : PluginDoc} :
    bodyNames (addModel n c d) =
      (bodyNames d).takeWhile (fun m => lexLtB m n) ++
        n :: (bodyNames d).dropWhile (fun m => lexLtB m n) := by
  by_cases hall : (bodyNames d).all (fun m => lexLtB m n) = true
  · rw [show addModel n c d = {d with
        toc := (sortedSetNames (tocNames d ++ [n])).map
          fun m => (slit "\n                ", m)
        tocEnd := slit "\n            "
        tocMid := slit "\n        "
        body := d.body ++ [(slit "\n\n", (⟨n, c⟩ : Entry))]
        count := d.body.length + 1
        endSep := slit "\n\n    "} from by
      unfold addModel
      rw [if_pos hall, if_pos hall]]
    rw [List.dropWhile_eq_nil_iff.mpr (fun x hx => List.all_eq_true.mp hall x hx)]
    rw [List.takeWhile_eq_self_iff.mpr (fun x hx => List.all_eq_true.mp hall x hx)]
    show (d.body ++ [(slit "\n\n", (⟨n, c⟩ : Entry))]).map (fun se => se.2.name) =
      bodyNames d ++ [n]
    rw [List.map_append]
    rfl
  · have hDne : (bodyNames d).dropWhile (fun m => lexLtB m n) ≠ [] := by
      intro h0
      exact hall (List.all_eq_true.mpr (List.dropWhile_eq_nil_iff.mp h0))
    have hdmap : (bodyNames d).dropWhile (fun m => lexLtB m n) =
        (d.body.dropWhile fun se => lexLtB se.2.name n).map
          fun se => se.2.name := by
      show (d.body.map fun se => se.2.name).dropWhile _ = _
      exact List.dropWhile_map _ _ _
    have htmap : (bodyNames d).takeWhile (fun m => lexLtB m n) =
        (d.body.takeWhile fun se => lexLtB se.2.name n).map
          fun se => se.2.name := by
      show (d.body.map fun se => se.2.name).takeWhile _ = _
      exact List.takeWhile_map _ _ _
    have hdropne : d.body.dropWhile (fun se => lexLtB se.2.name n) ≠ [] := by
      intro h0
      apply hDne
      rw [hdmap, h0]
      rfl
    rw [show addModel n c d = {d with
        toc := (sortedSetNames (tocNames d ++ [n])).map
          fun m => (slit "\n                ", m)
        tocEnd := slit "\n            "
        tocMid := slit "\n        "
        body := (d.body.takeWhile fun se => lexLtB se.2.name n) ++
          ((d.body.dropWhile fun se => lexLtB se.2.name n).headI.1 ++ slit "\n",
            (⟨n, c⟩ : Entry)) ::
          (slit "\n", (d.body.dropWhile fun se => lexLtB se.2.name n).headI.2) ::
          (d.body.dropWhile fun se => lexLtB se.2.name n).tail
        count := d.body.length + 1} from by
      unfold addModel
      rw [if_neg hall, if_neg hall]]
    show ((d.body.takeWhile fun se => lexLtB se.2.name n) ++
        ((d.body.dropWhile fun se => lexLtB se.2.name n).headI.1 ++ slit "\n",
          (⟨n, c⟩ : Entry)) ::
        (slit "\n", (d.body.dropWhile fun se => lexLtB se.2.name n).headI.2) ::
        (d.body.dropWhile fun se => lexLtB se.2.name n).tail).map
          (fun se => se.2.name) = _
    rw [List.map_append, List.map_cons, List.map_cons]
    rw [htmap, hdmap, headI_cons_tail hdropne, List.map_cons]
    rfl

theorem tocNames_addModel (n c : List Char) {d : PluginDoc} :
    tocNames (addModel n c d) = sortedSetNames (tocNames d ++ [n]) := by
  show ((sortedSetNames (tocNames d ++ [n])).map
    fun m => ((slit "\n                " : List Char), m)).map (fun pn => pn.2) = _
  rw [List.map_map]
  show (sortedSetNames (tocNames d ++ [n])).map (fun m => m) = _
  simp

theorem wfW_addModel {n c : List Char} (hnOk : NameOkB n = true)
    (hcok : SegOkB c = true) {d : PluginDoc} (hwf : WellFormedW d) :
    WellFormedW (addModel n c d) := by
  by_cases hall : (bodyNames d).all (fun m => lexLtB m n) = true
  · rw [show addModel n c d = {d with
        toc := (sortedSetNames (tocNames d ++ [n])).map
          fun m => (slit "\n                ", m)
        tocEnd := slit "\n            "
        tocMid := slit "\n        "
        body := d.body ++ [(slit "\n\n", (⟨n, c⟩ : Entry))]
        count := d.body.length + 1
        endSep := slit "\n\n    "} from by
      unfold addModel
      rw [if_pos hall, if_pos hall]]
    obtain ⟨hN, hBN, hPads, hTE, hTM, hSeps, hCont, hES, hESn, hPre, hMid,
      hMid2, hPost⟩ := wfW_bodyAppend hnOk hcok (wfW_addToc hnOk hwf)
    exact ⟨hN, hBN, hPads, hTE, hTM, hSeps, hCont, hES, hESn, hPre, hMid,
      hMid2, hPost⟩
  · have hDne : (bodyNames d).dropWhile (fun m => lexLtB m n) ≠ [] := by
      intro h0
      exact hall (List.all_eq_true.mpr (List.dropWhile_eq_nil_iff.mp h0))
    have hdmap : (bodyNames d).dropWhile (fun m => lexLtB m n) =
        (d.body.dropWhile fun se => lexLtB se.2.name n).map
          fun se => se.2.name := by
      show (d.body.map fun se => se.2.name).dropWhile _ = _
      exact List.dropWhile_map _ _ _
    have hdropne : d.body.dropWhile (fun se => lexLtB se.2.name n) ≠ [] := by
      intro h0
      apply hDne
      rw [hdmap, h0]
      rfl
    have hsplit : d.body =
        (d.body.takeWhile fun se => lexLtB se.2.name n) ++
        (d.body.dropWhile fun se => lexLtB se.2.name n).headI ::
        (d.body.dropWhile fun se => lexLtB se.2.name n).tail := by
      rw [← headI_cons_tail hdropne]
      exact (List.takeWhile_append_dropWhile _ _).symm
    rw [show addModel n c d = {d with
        toc := (sortedSetNames (tocNames d ++ [n])).map
          fun m => (slit "\n                ", m)
        tocEnd := slit "\n            "
        tocMid := slit "\n        "
        body := (d.body.takeWhile fun se => lexLtB se.2.name n) ++
          ((d.body.dropWhile fun se => lexLtB se.2.name n).headI.1 ++ slit "\n",
            (⟨n, c⟩ : Entry)) ::
          (slit "\n", (d.body.dropWhile fun se => lexLtB se.2.name n).headI.2) ::
          (d.body.dropWhile fun se => lexLtB se.2.name n).tail
        count := d.body.length + 1} from by
      unfold addModel
      rw [if_neg hall, if_neg hall]]
    obtain ⟨hN, hBN, hPads, hTE, hTM, hSeps, hCont, hES, hESn, hPre, hMid,
      hMid2, hPost⟩ := wfW_bodyInsert hnOk hcok (wfW_addToc hnOk hwf) hsplit
    exact ⟨hN, hBN, hPads, hTE, hTM, hSeps, hCont, hES, hESn, hPre, hMid,
      hMid2, hPost⟩

end ManagePlugins

namespace ManagePlugins

/-- **C3 counterexample**: add does not insert a fragment into every
document text: on text lacking the structural markers (here the empty
document) both substitutions match nothing and the result is unchanged,
with no fragment inserted. -/
theorem c3_counterexample :
    add_plugin_to_html (slit "beta") "desc" "" [] = [] := by
  decide

/-- **C3** (amended): on a well-formed document, for a fresh regex-plain
name and marker-free, backslash-free content (so the interpolated
replacements are spliced literally), add produces exactly the structured
insertion `addModel`: the TOC is re-rendered from the sorted union of
names, and the new entry's fragment sits at its sorted position in the
body — appended before the closing `</article>` separator when the name
sorts last, and spliced immediately before the following entry's heading
otherwise — so the resulting body name order is the sorted insertion of
the new name. -/
theorem c3_add_sorted_position {n : List Char} {desc cmds : String}
    {d : PluginDoc} (hnOk : NameOkB n = true) (hwf : WellFormed d)
    (hnm : n ∉ bodyNames d)
    (hcok : SegOkB (desc.data ++ commandsHtml cmds) = true)
    (_hbs : NoBackslashB (desc.data ++ commandsHtml cmds) = true) :
    add_plugin_to_html n desc cmds (render d) =
      render (addModel n (desc.data ++ commandsHtml cmds) d) ∧
    bodyNames (addModel n (desc.data ++ commandsHtml cmds) d) =
      (bodyNames d).takeWhile (fun m => lexLtB m n) ++
        n :: (bodyNames d).dropWhile (fun m => lexLtB m n) :=
  ⟨add_render hnOk hwf hnm hcok, bodyNames_addModel _ _⟩

set_option maxRecDepth 16384 in
/-- Concrete instance of C3 (the spec scenario): adding `beta` to the
document with entries `alpha`, `gamma` inserts it between them. -/
theorem c3_add_sorted_position_witness :
    NameOkB (slit "beta") = true ∧ WellFormed exDoc ∧
    (slit "beta" ∉ bodyNames exDoc) ∧
    SegOkB (("desc" : String).data ++ commandsHtml "") = true ∧
    NoBackslashB (("desc" : String).data ++ commandsHtml "") = true ∧
    (add_plugin_to_html (slit "beta") "desc" "" (render exDoc) =
        render (addModel (slit "beta")
          (("desc" : String).data ++ commandsHtml "") exDoc) ∧
      bodyNames (addModel (slit "beta")
          (("desc" : String).data ++ commandsHtml "") exDoc) =
        (bodyNames exDoc).takeWhile (fun m => lexLtB m (slit "beta")) ++
          slit "beta" ::
            (bodyNames exDoc).dropWhile (fun m => lexLtB m (slit "beta"))) :=
  ⟨by decide, by decide, by decide, by decide, by decide,
    c3_add_sorted_position (by decide) (by decide) (by decide) (by decide)
      (by decide)⟩

set_option maxRecDepth 16384 in
/-- **C4 counterexample**: adding a name that is already present
duplicates its fragment instead of keeping it unique: the sorted union
puts the name at its old position, so its fragment is inserted again in
front of the next entry's heading and the heading list afterwards holds
the name twice. -/
theorem c4_counterexample :
    (findH3Ids (add_plugin_to_html (slit "alpha") "x" ""
      (render exDoc))).countP (fun m => m = slit "alpha") = 2 := by
  decide

/-- **C4** (amended): adding a fresh regex-plain name with marker-free,
backslash-free content (so the interpolated replacements are spliced
literally) to a well-formed document yields a document in which the name's
heading occurs exactly once, the heading list is strictly sorted
ascending, and the TOC link list equals the heading list (the body and
TOC ordering invariant is preserved). -/
theorem c4_add_invariants {n : List Char} {desc cmds : String}
    {d : PluginDoc} (hnOk : NameOkB n = true) (hwf : WellFormed d)
    (hnm : n ∉ bodyNames d)
    (hcok : SegOkB (desc.data ++ commandsHtml cmds) = true)
    (_hbs : NoBackslashB (desc.data ++ commandsHtml cmds) = true) :
    (findH3Ids (add_plugin_to_html n desc cmds (render d))).countP
      (fun m => m = n) = 1 ∧
    StrictSorted (findH3Ids (add_plugin_to_html n desc cmds (render d))) ∧
    findLinkIds (add_plugin_to_html n desc cmds (render d)) =
      findH3Ids (add_plugin_to_html n desc cmds (render d)) := by
  have hwf2 := hwf
  obtain ⟨hN0, hS, hTB, hrest0⟩ := hwf2
  have hwA := wfW_addModel hnOk hcok (wfW_of hwf)
  rw [add_render hnOk hwf hnm hcok]
  rw [findH3Ids_render hwA, findLinkIds_render hwA, bodyNames_addModel,
    tocNames_addModel]
  have hsrt : StrictSorted ((bodyNames d).takeWhile (fun m => lexLtB m n) ++
      n :: (bodyNames d).dropWhile (fun m => lexLtB m n)) := by
    rw [← sortedSetNames_insert _ _ hS hnm]
    exact sortedSetNames_strictSorted _
  refine ⟨?_, hsrt, ?_⟩
  · have hmem : n ∈ (bodyNames d).takeWhile (fun m => lexLtB m n) ++
        n :: (bodyNames d).dropWhile (fun m => lexLtB m n) :=
      List.mem_append_right _ (List.mem_cons_self _ _)
    rw [List.countP_eq_length_filter]
    exact length_filter_eq (strictSorted_nodup hsrt) hmem
  · rw [show tocNames d ++ [n] = sortNames (bodyNames d) ++ [n] from by
      rw [hTB, sortNames_eq_self hS]]
    exact sortedSetNames_insert _ _ hS hnm

set_option maxRecDepth 16384 in
/-- Concrete instance of C4: after adding `beta` to the example document
the heading list is `[alpha, beta, gamma]` with `beta` occurring once,
sorted, and matching the TOC links. -/
theorem c4_add_invariants_witness :
    NameOkB (slit "beta") = true ∧ WellFormed exDoc ∧
    (slit "beta" ∉ bodyNames exDoc) ∧
    SegOkB (("desc" : String).data ++ commandsHtml "") = true ∧
    NoBackslashB (("desc" : String).data ++ commandsHtml "") = true ∧
    ((findH3Ids (add_plugin_to_html (slit "beta") "desc" ""
        (render exDoc))).countP (fun m => m = slit "beta") = 1 ∧
      StrictSorted (findH3Ids (add_plugin_to_html (slit "beta") "desc" ""
        (render exDoc))) ∧
      findLinkIds (add_plugin_to_html (slit "beta") "desc" "" (render exDoc)) =
        findH3Ids (add_plugin_to_html (slit "beta") "desc" ""
          (render exDoc))) :=
  ⟨by decide, by decide, by decide, by decide, by decide,
    c4_add_invariants (by decide) (by decide) (by decide) (by decide)
      (by decide)⟩

end ManagePlugins
